import Mathlib

/-!
Verification of the coin-database layer of the qitcoin repository
(`src/txdb.cpp`): the primary coin store with its secondary indices, the
batched commit protocol (`CCoinsViewDB::BatchWrite`), account balance
reconstruction (`CCoinsViewDB::GetAccountBalance`) and the staking-pool
epoch snapshot engine (`CCoinsViewDB::TrySnapshotStakingPoolStatus`).

The ordered key-value store is embedded as a record of association lists
(one list per one-byte record-kind prefix), where each list plays the role
of the key-ordered LevelDB column family selected by that prefix: `dbFind`
is a point read, `dbInsert` a batched `Write` (overwrite), `dbErase` a
batched `Erase`.  Machine integers: `CAmount` (int64) is `Int`, `uint32`
heights and lock windows are `Nat` with an explicit `% 2 ^ 32` where the
source does uint32 arithmetic, `uint256` hashes and `uint160` account ids
are `Nat` with `0` playing the role of the null value (`uint256()` /
`CAccountID()`).
-/

/-- Equality on `Except` results is decidable (used to state concrete
evaluations of the fallible operations). -/
instance {E A : Type} [DecidableEq E] [DecidableEq A] : DecidableEq (Except E A) := fun a b =>
  match a, b with
  | .error e, .error f => if h : e = f then isTrue (by rw [h]) else isFalse (by simp [h])
  | .ok v, .ok w => if h : v = w then isTrue (by rw [h]) else isFalse (by simp [h])
  | .error _, .ok _ => isFalse (by simp)
  | .ok _, .error _ => isFalse (by simp)

/-! ## Association-list store primitives -/

def dbFind {κ ν : Type} [DecidableEq κ] (m : List (κ × ν)) (k : κ) : Option ν :=
  match m with
  | [] => none
  | (k', v) :: t => if k' = k then some v else dbFind t k

def dbErase {κ ν : Type} [DecidableEq κ] (k : κ) (m : List (κ × ν)) : List (κ × ν) :=
  m.filter (fun e => decide (e.1 ≠ k))

def dbInsert {κ ν : Type} [DecidableEq κ] (k : κ) (v : ν) (m : List (κ × ν)) : List (κ × ν) :=
  (k, v) :: dbErase k m

/-- Accumulating insert: add `v` to the existing value at `k` (zero-initialised
when absent), mirroring `unordered_map` `operator[]` followed by `+=`. -/
def dbAdd {κ : Type} [DecidableEq κ] (k : κ) (v : Int) (m : List (κ × Int)) : List (κ × Int) :=
  match dbFind m k with
  | some w => dbInsert k (w + v) m
  | none => dbInsert k v m

def NodupKeys {κ ν : Type} (m : List (κ × ν)) : Prop :=
  (m.map Prod.fst).Nodup

theorem dbFind_cons {κ ν : Type} [DecidableEq κ] (e : κ × ν) (t : List (κ × ν)) (k : κ) :
    dbFind (e :: t) k = if e.1 = k then some e.2 else dbFind t k := by
  obtain ⟨a, b⟩ := e
  rfl

theorem dbErase_cons {κ ν : Type} [DecidableEq κ] (k : κ) (e : κ × ν) (t : List (κ × ν)) :
    dbErase k (e :: t) = if e.1 = k then dbErase k t else e :: dbErase k t := by
  by_cases h : e.1 = k <;> simp [dbErase, List.filter_cons, h]

theorem dbFind_erase {κ ν : Type} [DecidableEq κ] (m : List (κ × ν)) (k k' : κ) :
    dbFind (dbErase k m) k' = if k' = k then none else dbFind m k' := by
  induction m with
  | nil => simp [dbErase, dbFind]
  | cons e t ih =>
    rw [dbErase_cons]
    by_cases h1 : e.1 = k
    · rw [if_pos h1, ih]
      by_cases h2 : k' = k
      · simp [h2]
      · have h3 : ¬ e.1 = k' := fun hc => h2 (hc ▸ h1 ▸ rfl)
        simp [dbFind_cons, h2, h3]
    · rw [if_neg h1, dbFind_cons]
      by_cases h2 : e.1 = k'
      · have hk : ¬ k' = k := fun hc => h1 (by rw [h2, hc])
        simp [dbFind_cons, h2, hk]
      · simp [dbFind_cons, h2, ih]

theorem dbFind_insert {κ ν : Type} [DecidableEq κ] (m : List (κ × ν)) (k k' : κ) (v : ν) :
    dbFind (dbInsert k v m) k' = if k' = k then some v else dbFind m k' := by
  rw [dbInsert, dbFind_cons]
  by_cases h : k = k'
  · simp [h]
  · have h' : ¬ k' = k := fun hc => h hc.symm
    simp [h, h', dbFind_erase]

theorem dbFind_add {κ : Type} [DecidableEq κ] (m : List (κ × Int)) (k k' : κ) (v : Int) :
    dbFind (dbAdd k v m) k' =
      if k' = k then some ((dbFind m k).getD 0 + v) else dbFind m k' := by
  unfold dbAdd
  cases h : dbFind m k <;> simp [dbFind_insert, h]

theorem nodupKeys_erase {κ ν : Type} [DecidableEq κ] (k : κ) (m : List (κ × ν))
    (h : NodupKeys m) : NodupKeys (dbErase k m) :=
  List.Nodup.sublist (List.Sublist.map Prod.fst (List.filter_sublist m)) h

theorem not_mem_keys_erase {κ ν : Type} [DecidableEq κ] (k : κ) (m : List (κ × ν)) :
    k ∉ (dbErase k m).map Prod.fst := by
  intro hmem
  obtain ⟨e, he, hk⟩ := List.mem_map.mp hmem
  have := List.mem_filter.mp he
  simp only [decide_not, Bool.not_eq_true', decide_eq_false_iff_not] at this
  exact this.2 hk

theorem nodupKeys_insert {κ ν : Type} [DecidableEq κ] (k : κ) (v : ν) (m : List (κ × ν))
    (h : NodupKeys m) : NodupKeys (dbInsert k v m) := by
  unfold NodupKeys dbInsert
  simp only [List.map_cons, List.nodup_cons]
  exact ⟨not_mem_keys_erase k m, nodupKeys_erase k m h⟩

theorem nodupKeys_add {κ : Type} [DecidableEq κ] (k : κ) (v : Int) (m : List (κ × Int))
    (h : NodupKeys m) : NodupKeys (dbAdd k v m) := by
  unfold dbAdd
  cases dbFind m k <;> exact nodupKeys_insert _ _ _ h

theorem dbFind_some_mem {κ ν : Type} [DecidableEq κ] {m : List (κ × ν)} {k : κ} {v : ν}
    (h : dbFind m k = some v) : (k, v) ∈ m := by
  induction m with
  | nil => simp [dbFind] at h
  | cons e t ih =>
    obtain ⟨a, b⟩ := e
    rw [show dbFind ((a, b) :: t) k = if a = k then some b else dbFind t k from rfl] at h
    by_cases he : a = k
    · subst he
      simp only [if_true, eq_self_iff_true, ite_true, Option.some.injEq] at h
      rw [← h]
      exact List.mem_cons_self _ _
    · simp only [he, ite_false] at h
      exact List.mem_cons_of_mem _ (ih h)

theorem dbFind_eq_some_of_mem {κ ν : Type} [DecidableEq κ] {m : List (κ × ν)} {k : κ} {v : ν}
    (hnd : NodupKeys m) (h : (k, v) ∈ m) : dbFind m k = some v := by
  induction m with
  | nil => simp at h
  | cons e t ih =>
    unfold NodupKeys at hnd
    simp only [List.map_cons, List.nodup_cons] at hnd
    rcases List.mem_cons.mp h with h | h
    · rw [← h, dbFind_cons, if_pos rfl]
    · rw [dbFind_cons]
      have hk : ¬ e.1 = k := by
        intro hc
        exact hnd.1 (hc ▸ List.mem_map.mpr ⟨(k, v), h, rfl⟩)
      rw [if_neg hk]
      exact ih hnd.2 h

theorem dbFind_isSome_iff_mem_keys {κ ν : Type} [DecidableEq κ] (m : List (κ × ν)) (k : κ) :
    (dbFind m k).isSome ↔ k ∈ m.map Prod.fst := by
  constructor
  · intro h
    obtain ⟨v, hv⟩ := Option.isSome_iff_exists.mp h
    exact List.mem_map.mpr ⟨(k, v), dbFind_some_mem hv, rfl⟩
  · intro h
    induction m with
    | nil => simp at h
    | cons e' t ih =>
      rw [dbFind_cons]
      by_cases hek : e'.1 = k
      · simp [hek]
      · simp only [List.map_cons, List.mem_cons] at h
        rcases h with h | h
        · exact absurd h.symm hek
        · simpa [hek] using ih h

def dbErase_eq_self {κ ν : Type} [DecidableEq κ] (k : κ) (m : List (κ × ν))
    (h : k ∉ m.map Prod.fst) : dbErase k m = m := by
  apply List.filter_eq_self.mpr
  intro e he
  simp only [decide_not, Bool.not_eq_true', decide_eq_false_iff_not]
  intro hc
  exact h (List.mem_map.mpr ⟨e, he, hc⟩)

/-- Sum of `f` over all entries of an association list (used to model the
prefix-ordered index scans of `GetAccountBalance`, whose order of summation
is irrelevant). -/
def sumBy {κ ν : Type} (f : κ × ν → Int) (m : List (κ × ν)) : Int :=
  (m.map f).sum

theorem sumBy_cons {κ ν : Type} (f : κ × ν → Int) (e : κ × ν) (t : List (κ × ν)) :
    sumBy f (e :: t) = f e + sumBy f t := by
  simp [sumBy]

theorem sumBy_erase {κ ν : Type} [DecidableEq κ] (f : κ × ν → Int) (m : List (κ × ν)) (k : κ)
    (h : NodupKeys m) :
    sumBy f (dbErase k m) = sumBy f m - ((dbFind m k).elim 0 (fun v => f (k, v))) := by
  induction m with
  | nil => simp [sumBy, dbErase, dbFind]
  | cons e t ih =>
    unfold NodupKeys at h
    simp only [List.map_cons, List.nodup_cons] at h
    rw [dbErase_cons]
    by_cases he : e.1 = k
    · rw [if_pos he, dbFind_cons, if_pos he, dbErase_eq_self k t (he ▸ h.1), sumBy_cons]
      obtain ⟨a, b⟩ := e
      simp only at he
      subst he
      simp
    · rw [if_neg he, sumBy_cons, sumBy_cons, dbFind_cons, if_neg he, ih h.2]
      ring

theorem sumBy_insert {κ ν : Type} [DecidableEq κ] (f : κ × ν → Int) (m : List (κ × ν))
    (k : κ) (v : ν) :
    sumBy f (dbInsert k v m) = f (k, v) + sumBy f (dbErase k m) := by
  simp [dbInsert, sumBy]

/-! ## Data model -/

/-- `COutPoint`: originating transaction id (`uint256`, as `Nat`) and output
index (`uint32`). -/
structure OutPoint where
  txid : Nat
  n : Nat
  deriving DecidableEq

/-- `CAccountID` (`uint160`); `0` is the null account (`CAccountID().IsNull()`). -/
abbrev AccountID := Nat

/-- `uint256` block hash; `0` is the null hash (`uint256().IsNull()`). -/
abbrev Hash := Nat

/-- The optional payload variant attached to a coin (`CoinPayload` kinds
dispatched by `Coin::IsBindPlotter` / `IsPoint` / `IsStaking` in the source). -/
inductive Payload where
  | none
  | bindPlotter (plotterId : Nat)
  | point (receiver : AccountID) (amount : Int)
  | staking (receiver : AccountID) (amount : Int) (lockBlocks : Nat)
  deriving DecidableEq

/-- A coin record.  The `Coin` class itself lives in `coins.h`, which is not
under `src/`; its fields are modelled from the spec (§3: value, creation
height, coinbase flag, owning account id with `0` as null, payload variant)
plus a `spent` liveness flag driving `Coin::IsSpent` on in-memory cache
entries; `txdb.cpp` reads `out.nValue`, `nHeight`, `outAccountID` and the
payload of spent cache entries, so a spent entry retains its data. -/
structure Coin where
  value : Int
  height : Nat
  coinbase : Bool
  owner : AccountID
  payload : Payload
  spent : Bool
  deriving DecidableEq

def Coin.isBindPlotter (c : Coin) : Bool :=
  match c.payload with
  | .bindPlotter _ => true
  | _ => false

def Coin.isPoint (c : Coin) : Bool :=
  match c.payload with
  | .point _ _ => true
  | _ => false

def Coin.isStaking (c : Coin) : Bool :=
  match c.payload with
  | .staking _ _ _ => true
  | _ => false

/-- One entry of the caller-supplied `CCoinsMap`: the coin and its `DIRTY`
flag (the only flag `txdb.cpp` inspects).  The map itself is the ordered
collection of such entries keyed by outpoint. -/
structure CacheEntry where
  coin : Coin
  dirty : Bool
  deriving DecidableEq

abbrev CoinsMap := List (OutPoint × CacheEntry)

/-- One element of the persisted per-epoch pool list (`StakingPool`). -/
structure StakingPool where
  poolID : AccountID
  genesisOutPoint : OutPoint
  stakeAmount : Int
  deriving DecidableEq

/-- One element of a persisted per-epoch, per-pool user list (`StakingPoolUser`). -/
structure StakingPoolUser where
  accountID : AccountID
  stakeAmount : Int
  withdrawableAmount : Int
  deriving DecidableEq

/-- The persistent store: one association list per record-kind prefix of the
LevelDB key space (`DB_COIN`, `DB_COIN_INDEX`, `DB_COIN_BINDPLOTTER`,
`DB_COIN_POINT_SEND`/`RECEIVE`, `DB_COIN_STAKING_SEND`/`RECEIVE`,
`DB_BEST_BLOCK`, `DB_HEAD_BLOCKS`, `DB_STAKING_POOL_EPOCH_POOL`,
`DB_STAKING_POOL_EPOCH_USERS`).  Index keys are (account id, outpoint)
pairs exactly as serialised by the `*Entry` structs; the bind-plotter index
value is the (plotter id, height) pair of `BindPlotterValue`.  An absent
`DB_HEAD_BLOCKS` record and an empty stored vector are both `[]`, which is
also how `GetHeadBlocks` reports them. -/
structure DB where
  coins : List (OutPoint × Coin)
  coinIndex : List ((AccountID × OutPoint) × Int)
  bindIndex : List ((AccountID × OutPoint) × (Nat × Nat))
  pointSendIdx : List ((AccountID × OutPoint) × Int)
  pointRecvIdx : List ((AccountID × OutPoint) × Int)
  stakingSendIdx : List ((AccountID × OutPoint) × Int)
  stakingRecvIdx : List ((AccountID × OutPoint) × Int)
  bestBlock : Option Hash
  headBlocks : List Hash
  poolLists : List (Hash × List StakingPool)
  poolUsers : List ((Hash × AccountID) × List StakingPoolUser)
  deriving DecidableEq

/-- `CCoinsViewDB::GetBestBlock`: a missing record reads as the null hash. -/
def getBestBlock (db : DB) : Hash :=
  db.bestBlock.getD 0

/-- One write or erase queued into a `CDBBatch`. -/
inductive DBOp where
  | eraseBestBlock
  | writeHeadBlocks (hs : List Hash)
  | eraseHeadBlocks
  | writeBestBlock (h : Hash)
  | writeCoin (o : OutPoint) (c : Coin)
  | eraseCoin (o : OutPoint)
  | writeCoinIndex (k : AccountID × OutPoint) (v : Int)
  | eraseCoinIndex (k : AccountID × OutPoint)
  | writeBindIdx (k : AccountID × OutPoint) (v : Nat × Nat)
  | eraseBindIdx (k : AccountID × OutPoint)
  | writePointSend (k : AccountID × OutPoint) (v : Int)
  | erasePointSend (k : AccountID × OutPoint)
  | writePointRecv (k : AccountID × OutPoint) (v : Int)
  | erasePointRecv (k : AccountID × OutPoint)
  | writeStakingSend (k : AccountID × OutPoint) (v : Int)
  | eraseStakingSend (k : AccountID × OutPoint)
  | writeStakingRecv (k : AccountID × OutPoint) (v : Int)
  | eraseStakingRecv (k : AccountID × OutPoint)
  | writePoolList (h : Hash) (ps : List StakingPool)
  | writePoolUsers (k : Hash × AccountID) (us : List StakingPoolUser)
  deriving DecidableEq

def applyOp (db : DB) : DBOp → DB
  | .eraseBestBlock => { db with bestBlock := none }
  | .writeHeadBlocks hs => { db with headBlocks := hs }
  | .eraseHeadBlocks => { db with headBlocks := [] }
  | .writeBestBlock h => { db with bestBlock := some h }
  | .writeCoin o c => { db with coins := dbInsert o c db.coins }
  | .eraseCoin o => { db with coins := dbErase o db.coins }
  | .writeCoinIndex k v => { db with coinIndex := dbInsert k v db.coinIndex }
  | .eraseCoinIndex k => { db with coinIndex := dbErase k db.coinIndex }
  | .writeBindIdx k v => { db with bindIndex := dbInsert k v db.bindIndex }
  | .eraseBindIdx k => { db with bindIndex := dbErase k db.bindIndex }
  | .writePointSend k v => { db with pointSendIdx := dbInsert k v db.pointSendIdx }
  | .erasePointSend k => { db with pointSendIdx := dbErase k db.pointSendIdx }
  | .writePointRecv k v => { db with pointRecvIdx := dbInsert k v db.pointRecvIdx }
  | .erasePointRecv k => { db with pointRecvIdx := dbErase k db.pointRecvIdx }
  | .writeStakingSend k v => { db with stakingSendIdx := dbInsert k v db.stakingSendIdx }
  | .eraseStakingSend k => { db with stakingSendIdx := dbErase k db.stakingSendIdx }
  | .writeStakingRecv k v => { db with stakingRecvIdx := dbInsert k v db.stakingRecvIdx }
  | .eraseStakingRecv k => { db with stakingRecvIdx := dbErase k db.stakingRecvIdx }
  | .writePoolList h ps => { db with poolLists := dbInsert h ps db.poolLists }
  | .writePoolUsers k us => { db with poolUsers := dbInsert k us db.poolUsers }

def applyOps (ops : List DBOp) (db : DB) : DB :=
  ops.foldl applyOp db

theorem applyOps_append (l₁ l₂ : List DBOp) (db : DB) :
    applyOps (l₁ ++ l₂) db = applyOps l₂ (applyOps l₁ db) := by
  simp [applyOps, List.foldl_append]

/-! ## The per-coin mutations of `BatchWrite` -/

/-- The primary and index mutations `CCoinsViewDB::BatchWrite` appends to the
batch for one `CCoinsMap` entry (src/txdb.cpp, the body of the loop over
`mapCoins`): nothing for a non-dirty entry; for a dirty spent coin, erase the
primary record and, when the owning account is non-null, the account-index
record plus the payload-specific records (keyed by owner for bind-plotter and
the send sides, by the payload receiver for the receive sides); for a dirty
live coin, the mirror-image writes, with the account and send indices valued
by `out.nValue` and the receive indices by the payload amount, and the
bind-plotter index by (plotter id, coin height). -/
def coinOps (o : OutPoint) (e : CacheEntry) : List DBOp :=
  if ¬ e.dirty then []
  else if e.coin.spent then
    .eraseCoin o ::
      (if e.coin.owner ≠ 0 then
        .eraseCoinIndex (e.coin.owner, o) ::
          (match e.coin.payload with
            | .bindPlotter _ => [.eraseBindIdx (e.coin.owner, o)]
            | .point r _ => [.erasePointSend (e.coin.owner, o), .erasePointRecv (r, o)]
            | .staking r _ _ => [.eraseStakingSend (e.coin.owner, o), .eraseStakingRecv (r, o)]
            | .none => [])
      else [])
  else
    .writeCoin o e.coin ::
      (if e.coin.owner ≠ 0 then
        .writeCoinIndex (e.coin.owner, o) e.coin.value ::
          (match e.coin.payload with
            | .bindPlotter pid => [.writeBindIdx (e.coin.owner, o) (pid, e.coin.height)]
            | .point r amt =>
                [.writePointSend (e.coin.owner, o) e.coin.value, .writePointRecv (r, o) amt]
            | .staking r amt _ =>
                [.writeStakingSend (e.coin.owner, o) e.coin.value, .writeStakingRecv (r, o) amt]
            | .none => [])
      else [])

/-! ## Staking pool snapshot engine -/

/-- Consensus and protocol parameters consumed by the snapshot engine.  The
minimum pool-registration amount (`GetInitialStakingPoolAmount`, a function of
height) and the per-block staking-pool subsidy (`GetBlockStakingPoolSubsidy`)
are defined outside `src/` and enter as opaque function parameters. -/
structure SnapParams where
  nSaturnEpockBlocks : Int
  nSaturnActiveHeight : Int
  SaturnStakingGenesisID : AccountID
  minWithdrawableAmount : Int
  GetInitialStakingPoolAmount : Nat → Int
  GetBlockStakingPoolSubsidy : Int → Int

/-- The slice of `CBlockIndex` the snapshot engine reads: height, block hash,
and the account paid by the block (`ExtractAccountID` of
`minerRewardTxOut.scriptPubKey`; `ExtractAccountID` is defined outside `src/`
and enters as a precomputed field).  A chain is the list of a block followed
by its `pprev` ancestors. -/
structure Block where
  height : Int
  hash : Hash
  rewardAccount : AccountID
  deriving DecidableEq

/-- Modelled from the spec: `CalcStakePoolUserReward` is not under `src/`; the
spec fixes it as `reward * userStake / totalStake` in exact integer arithmetic
with truncation (`Int.tdiv` is C++ integer division). -/
def CalcStakePoolUserReward (reward userStake totalStake : Int) : Int :=
  Int.tdiv (reward * userStake) totalStake

/-- Modelled from the spec: `CreateStakePendingCoinOutPoint` is not under
`src/`; the spec fixes it as a deterministic outpoint derived from
(epoch hash, pool id, user id), so an injective pairing stands in for the
collision-free hash derivation. -/
def CreateStakePendingCoinOutPoint (epochHash : Hash) (poolID userID : AccountID) : OutPoint :=
  ⟨Nat.pair epochHash (Nat.pair poolID userID), 0⟩

/-- The synthetic claimable coin the snapshot writes for a user whose
withdrawable amount meets the threshold:
`Coin(CTxOut(amount, GetScriptForAccountID(userID), scriptMemo), nHeight, false)`.
The account extracted back from `GetScriptForAccountID(userID)` is `userID`
itself (script construction is outside `src/`; modelled from the spec, which
calls this a claimable output for that user).  It carries no payload. -/
def pendingRewardCoin (amount : Int) (userID : AccountID) (epochHeight : Int) : Coin :=
  ⟨amount, epochHeight.toNat, false, userID, .none, false⟩

/-- The local `CUserStatus` accumulator of `TrySnapshotStakingPoolStatus`
(zero-initialised stake and withdrawable amounts). -/
structure CUserStatus where
  stakeAmount : Int
  withdrawableAmount : Int
  deriving DecidableEq

/-- The flattened `CPoolUserStatusMap`: (pool id, user id) to status. -/
abbrev StatusMap := List ((AccountID × AccountID) × CUserStatus)

/-- One step of the full scan over the staking-receive index (src/txdb.cpp,
`load staking pool and user from db`): load the coin under the entry's
outpoint (a missing or non-staking coin is a fatal read error); a coin sent
by the staking genesis account enables its receiver as a pool when its value
meets the minimum registration amount; any other coin accumulates its payload
amount into the (receiver pool, sender) stake unless its lock window expired
before the epoch height (uint32 arithmetic). -/
def scanStakingEntry (P : SnapParams) (epochHeight : Int) (db : DB)
    (acc : List (AccountID × OutPoint) × List ((AccountID × AccountID) × Int))
    (ent : (AccountID × OutPoint) × Int) :
    Except Unit (List (AccountID × OutPoint) × List ((AccountID × AccountID) × Int)) :=
  match dbFind db.coins ent.1.2 with
  | Option.none => .error ()
  | some c =>
    match c.payload with
    | .staking recv amt lock =>
      if c.owner = P.SaturnStakingGenesisID then
        if c.value < P.GetInitialStakingPoolAmount c.height then .ok acc
        else .ok (dbInsert recv ent.1.2 acc.1, acc.2)
      else
        if (c.height + lock) % 2 ^ 32 < epochHeight.toNat % 2 ^ 32 then .ok acc
        else .ok (acc.1, dbAdd (recv, c.owner) amt acc.2)
    | _ => .error ()

def scanStakingRecv (P : SnapParams) (epochHeight : Int) (db : DB) :
    Except Unit (List (AccountID × OutPoint) × List ((AccountID × AccountID) × Int)) :=
  db.stakingRecvIdx.foldlM (scanStakingEntry P epochHeight db) ([], [])

/-- Per-pool block rewards over the previous epoch: walk `nSaturnEpockBlocks`
ancestors from the epoch-boundary block, crediting each block's subsidy to
the account its reward output pays. -/
def epochRewards (P : SnapParams) (chain : List Block) : List (AccountID × Int) :=
  (chain.take P.nSaturnEpockBlocks.toNat).foldl
    (fun m b => dbAdd b.rewardAccount (P.GetBlockStakingPoolSubsidy b.height) m) []

/-- Merge one previous-epoch user record into the current accumulator for the
same (pool, user): carry the prior withdrawable amount forward — when it met
the minimum-withdrawable threshold only if the withdrawal coin at the
deterministic outpoint is still in the primary store, unconditionally
otherwise — then add the pro-rata share of the pool's epoch reward over
`prevTotal` when both are positive. -/
def mergeUserStatus (P : SnapParams) (db : DB) (prevEpochHash : Hash) (poolID : AccountID)
    (reward prevTotal : Int) (cur : CUserStatus) (pu : StakingPoolUser) : CUserStatus :=
  let wd :=
    if pu.withdrawableAmount ≥ P.minWithdrawableAmount then
      if (dbFind db.coins (CreateStakePendingCoinOutPoint prevEpochHash poolID pu.accountID)).isSome
      then pu.withdrawableAmount
      else cur.withdrawableAmount
    else pu.withdrawableAmount
  let wd2 :=
    if reward > 0 ∧ prevTotal > 0
    then wd + CalcStakePoolUserReward reward pu.stakeAmount prevTotal
    else wd
  ⟨cur.stakeAmount, wd2⟩

/-- One previous-epoch user folded into the status map
(`load previous epoch user pending` in the source): users absent from the
new epoch's accumulation are left untouched. -/
def prevUserStep (P : SnapParams) (db : DB) (prevEpochHash : Hash) (poolID : AccountID)
    (reward prevTotal : Int) (m : StatusMap) (pu : StakingPoolUser) : StatusMap :=
  match dbFind m (poolID, pu.accountID) with
  | Option.none => m
  | some cur =>
      dbInsert (poolID, pu.accountID)
        (mergeUserStatus P db prevEpochHash poolID reward prevTotal cur pu) m

def applyPrevPoolUsers (P : SnapParams) (db : DB) (prevEpochHash : Hash)
    (rewards : List (AccountID × Int)) (prevTotal : Int)
    (m : StatusMap) (poolID : AccountID) : StatusMap :=
  match dbFind db.poolUsers (prevEpochHash, poolID) with
  | Option.none => m
  | some prevUsers =>
    prevUsers.foldl
      (prevUserStep P db prevEpochHash poolID ((dbFind rewards poolID).getD 0) prevTotal) m

/-- The distinct pool ids of an accumulation, in first-appearance order (the
model's stand-in for the `unordered_map` enumeration of `epochPoolUsers`). -/
def poolKeysOf {α : Type} (m : List ((AccountID × AccountID) × α)) : List AccountID :=
  (m.map (fun e => e.1.1)).dedup

/-- `order by stake amount desc`, ties by user account id ascending: the
non-strict companion of the strict `std::sort` comparator in the source. -/
def userSortRel (a b : StakingPoolUser) : Prop :=
  b.stakeAmount < a.stakeAmount ∨
    (a.stakeAmount = b.stakeAmount ∧ a.accountID ≤ b.accountID)

instance : DecidableRel userSortRel := fun a b => by
  unfold userSortRel
  infer_instance

/-- `order by stake amount desc`, ties by pool id ascending. -/
def poolSortRel (a b : StakingPool) : Prop :=
  b.stakeAmount < a.stakeAmount ∨
    (a.stakeAmount = b.stakeAmount ∧ a.poolID ≤ b.poolID)

instance : DecidableRel poolSortRel := fun a b => by
  unfold poolSortRel
  infer_instance

instance : IsTotal StakingPoolUser userSortRel :=
  ⟨fun a b => by
    simp only [userSortRel]
    rcases lt_trichotomy a.stakeAmount b.stakeAmount with h | h | h
    · exact Or.inr (Or.inl h)
    · rcases Nat.le_total a.accountID b.accountID with h2 | h2
      · exact Or.inl (Or.inr ⟨h, h2⟩)
      · exact Or.inr (Or.inr ⟨h.symm, h2⟩)
    · exact Or.inl (Or.inl h)⟩

instance : IsTrans StakingPoolUser userSortRel :=
  ⟨fun a b c hab hbc => by
    simp only [userSortRel] at *
    rcases hab with h1 | ⟨e1, l1⟩ <;> rcases hbc with h2 | ⟨e2, l2⟩
    · exact Or.inl (lt_trans h2 h1)
    · exact Or.inl (e2 ▸ h1)
    · exact Or.inl (by rw [e1]; exact h2)
    · exact Or.inr ⟨e1.trans e2, le_trans l1 l2⟩⟩

instance : IsTotal StakingPool poolSortRel :=
  ⟨fun a b => by
    simp only [poolSortRel]
    rcases lt_trichotomy a.stakeAmount b.stakeAmount with h | h | h
    · exact Or.inr (Or.inl h)
    · rcases Nat.le_total a.poolID b.poolID with h2 | h2
      · exact Or.inl (Or.inr ⟨h, h2⟩)
      · exact Or.inr (Or.inr ⟨h.symm, h2⟩)
    · exact Or.inl (Or.inl h)⟩

instance : IsTrans StakingPool poolSortRel :=
  ⟨fun a b c hab hbc => by
    simp only [poolSortRel] at *
    rcases hab with h1 | ⟨e1, l1⟩ <;> rcases hbc with h2 | ⟨e2, l2⟩
    · exact Or.inl (lt_trans h2 h1)
    · exact Or.inl (e2 ▸ h1)
    · exact Or.inl (by rw [e1]; exact h2)
    · exact Or.inr ⟨e1.trans e2, le_trans l1 l2⟩⟩

/-- `std::sort` with the strict stake-descending comparator: on entries with
pairwise-distinct ids the comparator is a total strict order, so any
comparison sort produces the same list; a structurally recursive insertion
sort stands in. -/
def sortPoolUsers (l : List StakingPoolUser) : List StakingPoolUser :=
  List.insertionSort userSortRel l

def sortPools (l : List StakingPool) : List StakingPool :=
  List.insertionSort poolSortRel l

/-- The user-list entries of one pool in the status map. -/
def poolUserEntries (m : StatusMap) (p : AccountID) : List StakingPoolUser :=
  (m.filter (fun e => decide (e.1.1 = p))).map
    (fun e => ⟨e.1.2, e.2.stakeAmount, e.2.withdrawableAmount⟩)

/-- `totalPoolStakeAmount`: sum of the pool users' stake amounts. -/
def totalPoolStake (m : StatusMap) (p : AccountID) : Int :=
  ((poolUserEntries m p).map (fun u => u.stakeAmount)).sum

/-- The per-pool tail of the write phase: write a synthetic claimable coin for
every user at or above the minimum-withdrawable threshold, persist the sorted
user list under (epoch hash, pool id), and append the pool record (with its
genesis outpoint and new total stake) to the pool list under construction. -/
def writePoolSnapshot (P : SnapParams) (epochHash : Hash) (epochHeight : Int)
    (enabled : List (AccountID × OutPoint)) (m : StatusMap)
    (acc : DB × List StakingPool) (poolID : AccountID) : DB × List StakingPool :=
  let users := poolUserEntries m poolID
  let db := users.foldl (fun db u =>
      if u.withdrawableAmount ≥ P.minWithdrawableAmount then
        let op := CreateStakePendingCoinOutPoint epochHash poolID u.accountID
        let c := pendingRewardCoin u.withdrawableAmount u.accountID epochHeight
        { db with coins := dbInsert op c db.coins }
      else db) acc.1
  let db := { db with poolUsers := dbInsert (epochHash, poolID) (sortPoolUsers users) db.poolUsers }
  (db, acc.2 ++ [⟨poolID, (dbFind enabled poolID).getD ⟨0, 0⟩, totalPoolStake m poolID⟩])

/-- The base status map of the new epoch: every filtered (pool, user) stake
with a zero withdrawable amount. -/
def baseStatusMap (stakes : List ((AccountID × AccountID) × Int)) : StatusMap :=
  stakes.map (fun e => (e.1, ⟨e.2, 0⟩))

/-- The `previous epoch status` stage (src/txdb.cpp 1031-1086): when the tip
height is at least one epoch past activation, walk the previous epoch's
blocks for per-pool rewards, locate the previous epoch's hash at depth
`nSaturnEpockBlocks` (a too-short chain is the out-of-model null
dereference), and when a non-empty previous pool list is persisted, fold its
per-pool user lists into the base status map; otherwise the base map stands. -/
def snapshotMergedStatus (P : SnapParams) (chain : List Block) (db : DB)
    (stakes : List ((AccountID × AccountID) × Int)) : Except Unit StatusMap :=
  match chain with
  | [] => .error ()
  | hd :: _ =>
    if hd.height ≥ P.nSaturnActiveHeight + P.nSaturnEpockBlocks then
      if hE : P.nSaturnEpockBlocks.toNat < chain.length then
        let rewards := epochRewards P chain
        let prevEpochHash := (chain.get ⟨P.nSaturnEpockBlocks.toNat, hE⟩).hash
        match dbFind db.poolLists prevEpochHash with
        | some prevPools =>
          if prevPools = [] then .ok (baseStatusMap stakes)
          else
            let prevTotal := (prevPools.map (fun pl => pl.stakeAmount)).sum
            .ok ((poolKeysOf stakes).foldl
              (applyPrevPoolUsers P db prevEpochHash rewards prevTotal) (baseStatusMap stakes))
        | Option.none => .ok (baseStatusMap stakes)
      else .error ()
    else .ok (baseStatusMap stakes)

/-- The `write to db` stage (src/txdb.cpp 1088-1146) applied to the whole
status map, ending with the sorted pool list persisted under the epoch
hash. -/
def snapshotWriteAll (P : SnapParams) (epochHash : Hash) (epochHeight : Int)
    (enabled : List (AccountID × OutPoint))
    (stakes : List ((AccountID × AccountID) × Int)) (m : StatusMap) (db : DB) : DB :=
  let out := (poolKeysOf stakes).foldl (writePoolSnapshot P epochHash epochHeight enabled m)
    (db, [])
  { out.1 with poolLists := dbInsert epochHash (sortPools out.2) out.1.poolLists }

/-- `CCoinsViewDB::TrySnapshotStakingPoolStatus` (src/txdb.cpp 960-1149).
`chain` is the epoch-boundary block index followed by its ancestors; an empty
chain is the out-of-model null `CBlockIndex*`.  Returns the store unchanged
unless the trigger condition holds; a fatal database read error is `.error`.
The `prevEpochPoolStatus[pool].stakeAmount` per-pool field loaded at source
line 1047 is stored but never read afterwards, so it has no counterpart
here; only the all-pools total `prevEpochPoolstakeAmount` feeds the reward
division. -/
def TrySnapshotStakingPoolStatus (P : SnapParams) (chain : List Block) (db : DB) :
    Except Unit DB :=
  match chain with
  | [] => .error ()
  | hd :: tl =>
    if hd.height - P.nSaturnEpockBlocks * 2 < P.nSaturnActiveHeight ∨
        Int.tmod hd.height P.nSaturnEpockBlocks ≠ 0 then
      .ok db
    else do
      let scanned ← scanStakingRecv P hd.height db
      let enabled := scanned.1
      let stakes := scanned.2.filter (fun e => (dbFind enabled e.1.1).isSome)
      let m ← snapshotMergedStatus P (hd :: tl) db stakes
      .ok (snapshotWriteAll P hd.hash hd.height enabled stakes m db)

/-! ## The batched commit protocol (`BatchWrite`) -/

/-- Step 1 of `CCoinsViewDB::BatchWrite` (src/txdb.cpp 430-438): determine the
previous tip.  When no tip is recorded, a leftover two-entry head-blocks
marker whose first entry matches the new tip supplies its second entry as the
effective previous tip (replay recovery); a two-entry marker whose first
entry differs trips the `assert` (a fatal abort, `.error` here).  Any other
marker shape leaves the previous tip null. -/
def effectiveOldTip (db : DB) (newTip : Hash) : Except Unit Hash :=
  let t := getBestBlock db
  if t = 0 then
    match db.headBlocks with
    | [a, b] => if a = newTip then .ok b else .error ()
    | _ => .ok 0
  else .ok t

/-- The loop of `BatchWrite` over `mapCoins` with physical batch chunking:
`flush` abstracts the opaque `batch.SizeEstimate() > batch_size` test, applied
once after each map entry is consumed.  Returns the flushed chunks in order,
followed by the ops still pending in the final batch. -/
def chunkLoop (flush : List DBOp → Bool) :
    CoinsMap → List DBOp → List (List DBOp) × List DBOp
  | [], pending => ([], pending)
  | (o, e) :: rest, pending =>
    if flush (pending ++ coinOps o e) then
      ((pending ++ coinOps o e) :: (chunkLoop flush rest []).1, (chunkLoop flush rest []).2)
    else chunkLoop flush rest (pending ++ coinOps o e)

/-- The sequence of physical `WriteBatch` windows one `BatchWrite` call issues
for the tip marker and the per-coin delta, given the already-determined
effective previous tip: the first batch opens with the `DB_BEST_BLOCK` erase
and the two-entry `DB_HEAD_BLOCKS` marker write, per-coin mutations follow
chunk by chunk, and the final window closes with the marker erase and the new
tip write.  (The snapshot engine's own batches touch only snapshot records
and land between the last chunk and the final window.) -/
def batchWriteFlushes (flush : List DBOp → Bool) (delta : CoinsMap)
    (newTip oldTip : Hash) : List (List DBOp) :=
  let r := chunkLoop flush delta [.eraseBestBlock, .writeHeadBlocks [newTip, oldTip]]
  r.1 ++ [r.2 ++ [.eraseHeadBlocks, .writeBestBlock newTip]]

/-- The same loop as `chunkLoop`, threading the store state: flushed chunks
are applied to the store at once (they become durable and visible to reads),
pending ops are not. -/
def stateLoop (flush : List DBOp → Bool) :
    CoinsMap → DB → List DBOp → DB × List DBOp
  | [], db, pending => (db, pending)
  | (o, e) :: rest, db, pending =>
    if flush (pending ++ coinOps o e) then
      stateLoop flush rest (applyOps (pending ++ coinOps o e) db) []
    else stateLoop flush rest db (pending ++ coinOps o e)

/-- `CCoinsViewDB::BatchWrite` (src/txdb.cpp 422-520): assert a non-null new
tip, determine the effective previous tip, run the chunked per-coin loop
(the marker ops head the first batch), hand the store — with exactly the
flushed chunks visible — to the snapshot engine, then apply the final batch:
the still-pending ops, the marker erase and the new tip write. -/
def BatchWrite (P : SnapParams) (chain : List Block) (flush : List DBOp → Bool)
    (delta : CoinsMap) (newTip : Hash) (db : DB) : Except Unit DB := do
  if newTip = 0 then .error ()
  else
    let oldTip ← effectiveOldTip db newTip
    let r := stateLoop flush delta db [.eraseBestBlock, .writeHeadBlocks [newTip, oldTip]]
    let db2 ← TrySnapshotStakingPoolStatus P chain r.1
    .ok (applyOps (r.2 ++ [.eraseHeadBlocks, .writeBestBlock newTip]) db2)

/-! ## Balance reconstruction (`GetAccountBalance`) -/

/-- Which optional categories the caller requests (`balanceBindPlotter`
non-null, `balancePoint[i] != -1`, `balanceStaking[i] != -1`). -/
structure BalanceRequest where
  bindPlotter : Bool
  pointSend : Bool
  pointRecv : Bool
  stakingSend : Bool
  stakingRecv : Bool
  deriving DecidableEq

/-- The amounts `GetAccountBalance` returns: the available balance plus one
optional amount per requested category. -/
structure BalanceResult where
  available : Int
  bindPlotter : Option Int
  pointSend : Option Int
  pointRecv : Option Int
  stakingSend : Option Int
  stakingRecv : Option Int
  deriving DecidableEq

/-- The persisted part of the available balance: sum of the account-index
values under the queried account. -/
def availScan (db : DB) (a : AccountID) : Int :=
  sumBy (fun e => if e.1.1 = a then e.2 else 0) db.coinIndex

/-- The overlay pass of the available balance: each dirty modified coin owned
by the queried account subtracts its value when spent and still present in
the persisted account index, or adds its value when live and not yet
persisted there. -/
def availOverlay (db : DB) (a : AccountID) (overlay : CoinsMap) : Int :=
  overlay.foldl (fun s oe =>
    if oe.2.dirty then
      if oe.2.coin.owner = a then
        if oe.2.coin.spent then
          if (dbFind db.coinIndex (oe.2.coin.owner, oe.1)).isSome then s - oe.2.coin.value else s
        else
          if (dbFind db.coinIndex (oe.2.coin.owner, oe.1)).isSome then s else s + oe.2.coin.value
      else s
    else s) 0

/-- Available balance with its trailing `assert(availableBalance >= 0)`;
the assert is a fatal abort, modelled as `.error`. -/
def availableBalance (db : DB) (a : AccountID) (overlay : CoinsMap) : Except Unit Int :=
  let b := availScan db a + availOverlay db a overlay
  if b < 0 then .error () else .ok b

/-- Persisted bind-plotter balance: `PROTOCOL_BINDPLOTTER_LOCKAMOUNT` (a
protocol constant defined outside `src/`, passed in as `bindLock`) per
bind-plotter index entry under the account. -/
def bindScan (bindLock : Int) (db : DB) (a : AccountID) : Int :=
  sumBy (fun e => if e.1.1 = a then bindLock else 0) db.bindIndex

/-- Overlay pass of the bind-plotter balance; `selected` membership is
presence of the (account, outpoint) key in the persisted bind index. -/
def bindOverlay (bindLock : Int) (db : DB) (a : AccountID) (overlay : CoinsMap) : Int :=
  overlay.foldl (fun s oe =>
    if oe.2.dirty && oe.2.coin.isBindPlotter then
      if (dbFind db.bindIndex (a, oe.1)).isSome then
        if oe.2.coin.spent then s - bindLock else s
      else
        if oe.2.coin.owner = a ∧ ¬ oe.2.coin.spent then s + bindLock else s
    else s) 0

def bindBalance (bindLock : Int) (db : DB) (a : AccountID) (overlay : CoinsMap) :
    Except Unit Int :=
  let b := bindScan bindLock db a + bindOverlay bindLock db a overlay
  if b < 0 then .error () else .ok b

/-- Persisted point-send scan: for each point-send index entry under the
account, read the underlying primary coin (a missing coin is a fatal read
error) and count its full value; also record the (outpoint, value) pairs as
the `selected` set. -/
def pointSendScan (db : DB) (a : AccountID) : Except Unit (Int × List (OutPoint × Int)) :=
  db.pointSendIdx.foldlM (fun acc e =>
    if e.1.1 = a then
      match dbFind db.coins e.1.2 with
      | Option.none => Except.error ()
      | some c => Except.ok (acc.1 + c.value, dbInsert e.1.2 c.value acc.2)
    else Except.ok acc) ((0 : Int), ([] : List (OutPoint × Int)))

/-- Overlay pass shared by the four payload send/receive categories: a dirty
entry of the right payload kind subtracts its selected value when spent and
previously counted, or adds `fresh` of it when not selected, live, and
matching the account on the right side. -/
def payloadOverlay (isKind : Coin → Bool) (sel : List (OutPoint × Int))
    (matchFn : Coin → Bool) (fresh : Coin → Int) (overlay : CoinsMap) : Int :=
  overlay.foldl (fun s oe =>
    if oe.2.dirty && isKind oe.2.coin then
      match dbFind sel oe.1 with
      | some w => if oe.2.coin.spent then s - w else s
      | Option.none => if matchFn oe.2.coin ∧ ¬ oe.2.coin.spent then s + fresh oe.2.coin else s
    else s) 0

def pointSendBalance (db : DB) (a : AccountID) (overlay : CoinsMap) : Except Unit Int := do
  let sc ← pointSendScan db a
  let b := sc.1 + payloadOverlay Coin.isPoint sc.2 (fun c => decide (c.owner = a))
    (fun c => c.value) overlay
  if b < 0 then .error () else .ok b

/-- Persisted receive-side scan (shared by point and staking): the index
entry's own stored amount is counted and recorded as selected. -/
def recvScan (idx : List ((AccountID × OutPoint) × Int)) (a : AccountID) :
    Int × List (OutPoint × Int) :=
  idx.foldl (fun acc e =>
    if e.1.1 = a then (acc.1 + e.2, dbInsert e.1.2 e.2 acc.2) else acc)
    ((0 : Int), ([] : List (OutPoint × Int)))

def Payload.pointReceiver : Payload → AccountID
  | .point r _ => r
  | _ => 0

def Payload.pointAmount : Payload → Int
  | .point _ amt => amt
  | _ => 0

def Payload.stakingReceiver : Payload → AccountID
  | .staking r _ _ => r
  | _ => 0

def Payload.stakingAmount : Payload → Int
  | .staking _ amt _ => amt
  | _ => 0

def pointRecvBalance (db : DB) (a : AccountID) (overlay : CoinsMap) : Except Unit Int :=
  let sc := recvScan db.pointRecvIdx a
  let b := sc.1 + payloadOverlay Coin.isPoint sc.2
    (fun c => decide (c.payload.pointReceiver = a)) (fun c => c.payload.pointAmount) overlay
  if b < 0 then .error () else .ok b

def stakingSendScan (db : DB) (a : AccountID) : Except Unit (Int × List (OutPoint × Int)) :=
  db.stakingSendIdx.foldlM (fun acc e =>
    if e.1.1 = a then
      match dbFind db.coins e.1.2 with
      | Option.none => Except.error ()
      | some c => Except.ok (acc.1 + c.value, dbInsert e.1.2 c.value acc.2)
    else Except.ok acc) ((0 : Int), ([] : List (OutPoint × Int)))

def stakingSendBalance (db : DB) (a : AccountID) (overlay : CoinsMap) : Except Unit Int := do
  let sc ← stakingSendScan db a
  let b := sc.1 + payloadOverlay Coin.isStaking sc.2 (fun c => decide (c.owner = a))
    (fun c => c.value) overlay
  if b < 0 then .error () else .ok b

def stakingRecvBalance (db : DB) (a : AccountID) (overlay : CoinsMap) : Except Unit Int :=
  let sc := recvScan db.stakingRecvIdx a
  let b := sc.1 + payloadOverlay Coin.isStaking sc.2
    (fun c => decide (c.payload.stakingReceiver = a)) (fun c => c.payload.stakingAmount) overlay
  if b < 0 then .error () else .ok b

/-- A category computed only when its out-parameter is requested. -/
def optCategory {A : Type} (b : Bool) (f : Except Unit A) : Except Unit (Option A) :=
  if b then f.map some else .ok Option.none

/-- `CCoinsViewDB::GetAccountBalance` (src/txdb.cpp 600-845): the available
balance and each requested category, computed as a persisted prefix scan
reconciled with the caller-supplied dirty overlay, each followed by its
non-negativity `assert`. -/
def GetAccountBalance (bindLock : Int) (db : DB) (a : AccountID) (req : BalanceRequest)
    (overlay : CoinsMap) : Except Unit BalanceResult := do
  let avail ← availableBalance db a overlay
  let bp ← optCategory req.bindPlotter (bindBalance bindLock db a overlay)
  let ps ← optCategory req.pointSend (pointSendBalance db a overlay)
  let pr ← optCategory req.pointRecv (pointRecvBalance db a overlay)
  let ss ← optCategory req.stakingSend (stakingSendBalance db a overlay)
  let sr ← optCategory req.stakingRecv (stakingRecvBalance db a overlay)
  Except.ok ⟨avail, bp, ps, pr, ss, sr⟩

/-! ## The index-consistency invariant -/

def Payload.bindId : Payload → Nat
  | .bindPlotter pid => pid
  | _ => 0

/-- The account-index record implied at key `k` by the primary store: present
with the coin's value exactly when a coin lives at the outpoint, is owned by
the key's account, and that account is non-null. -/
def expectedCoinIndexAt (db : DB) (k : AccountID × OutPoint) : Option Int :=
  match dbFind db.coins k.2 with
  | some c => if c.owner = k.1 ∧ c.owner ≠ 0 then some c.value else none
  | Option.none => Option.none

def expectedBindAt (db : DB) (k : AccountID × OutPoint) : Option (Nat × Nat) :=
  match dbFind db.coins k.2 with
  | some c =>
      if c.owner = k.1 ∧ c.owner ≠ 0 ∧ c.isBindPlotter = true
      then some (c.payload.bindId, c.height) else Option.none
  | Option.none => Option.none

def expectedPointSendAt (db : DB) (k : AccountID × OutPoint) : Option Int :=
  match dbFind db.coins k.2 with
  | some c =>
      if c.owner = k.1 ∧ c.owner ≠ 0 ∧ c.isPoint = true then some c.value else Option.none
  | Option.none => Option.none

def expectedPointRecvAt (db : DB) (k : AccountID × OutPoint) : Option Int :=
  match dbFind db.coins k.2 with
  | some c =>
      if c.owner ≠ 0 ∧ c.isPoint = true ∧ c.payload.pointReceiver = k.1
      then some c.payload.pointAmount else Option.none
  | Option.none => Option.none

def expectedStakingSendAt (db : DB) (k : AccountID × OutPoint) : Option Int :=
  match dbFind db.coins k.2 with
  | some c =>
      if c.owner = k.1 ∧ c.owner ≠ 0 ∧ c.isStaking = true then some c.value else Option.none
  | Option.none => Option.none

def expectedStakingRecvAt (db : DB) (k : AccountID × OutPoint) : Option Int :=
  match dbFind db.coins k.2 with
  | some c =>
      if c.owner ≠ 0 ∧ c.isStaking = true ∧ c.payload.stakingReceiver = k.1
      then some c.payload.stakingAmount else Option.none
  | Option.none => Option.none

/-- The index-consistency invariant (spec §3): every column has unique keys
(LevelDB keys are unique), stored coins are live, every live coin has exactly
the index records implied by its owning account and payload variant at the
implied keys, and every index record is implied by the coin at its outpoint.
Stated over the finitely many stored records, so it is decidable on concrete
stores. -/
def IndexConsistent (db : DB) : Prop :=
  NodupKeys db.coins ∧ NodupKeys db.coinIndex ∧ NodupKeys db.bindIndex ∧
  NodupKeys db.pointSendIdx ∧ NodupKeys db.pointRecvIdx ∧
  NodupKeys db.stakingSendIdx ∧ NodupKeys db.stakingRecvIdx ∧
  (∀ e ∈ db.coins, e.2.spent = false) ∧
  (∀ e ∈ db.coins, e.2.owner ≠ 0 →
    dbFind db.coinIndex (e.2.owner, e.1) = some e.2.value ∧
    (e.2.isBindPlotter = true →
      dbFind db.bindIndex (e.2.owner, e.1) = some (e.2.payload.bindId, e.2.height)) ∧
    (e.2.isPoint = true →
      dbFind db.pointSendIdx (e.2.owner, e.1) = some e.2.value ∧
      dbFind db.pointRecvIdx (e.2.payload.pointReceiver, e.1) = some e.2.payload.pointAmount) ∧
    (e.2.isStaking = true →
      dbFind db.stakingSendIdx (e.2.owner, e.1) = some e.2.value ∧
      dbFind db.stakingRecvIdx (e.2.payload.stakingReceiver, e.1) =
        some e.2.payload.stakingAmount)) ∧
  (∀ e ∈ db.coinIndex, expectedCoinIndexAt db e.1 = some e.2) ∧
  (∀ e ∈ db.bindIndex, expectedBindAt db e.1 = some e.2) ∧
  (∀ e ∈ db.pointSendIdx, expectedPointSendAt db e.1 = some e.2) ∧
  (∀ e ∈ db.pointRecvIdx, expectedPointRecvAt db e.1 = some e.2) ∧
  (∀ e ∈ db.stakingSendIdx, expectedStakingSendAt db e.1 = some e.2) ∧
  (∀ e ∈ db.stakingRecvIdx, expectedStakingRecvAt db e.1 = some e.2)

instance (db : DB) : Decidable (IndexConsistent db) := by
  unfold IndexConsistent NodupKeys
  infer_instance

theorem ic_coinIndex_lookup {db : DB} (h : IndexConsistent db) (k : AccountID × OutPoint) :
    dbFind db.coinIndex k = expectedCoinIndexAt db k := by
  obtain ⟨a, o⟩ := k
  obtain ⟨-, -, -, -, -, -, -, -, hfwd, bci, -, -, -, -, -⟩ := h
  cases hx : dbFind db.coinIndex (a, o) with
  | some v => exact (bci ((a, o), v) (dbFind_some_mem hx)).symm
  | none =>
    cases he : expectedCoinIndexAt db (a, o) with
    | none => rfl
    | some v =>
      exfalso
      unfold expectedCoinIndexAt at he
      cases hcoin : dbFind db.coins o with
      | none => simp [hcoin] at he
      | some c =>
        simp only [hcoin] at he
        split_ifs at he with hcond
        · have := (hfwd (o, c) (dbFind_some_mem hcoin) hcond.2).1
          rw [hcond.1] at this
          rw [this] at hx
          exact Option.noConfusion hx

theorem ic_bind_lookup {db : DB} (h : IndexConsistent db) (k : AccountID × OutPoint) :
    dbFind db.bindIndex k = expectedBindAt db k := by
  obtain ⟨a, o⟩ := k
  obtain ⟨-, -, -, -, -, -, -, -, hfwd, -, bbi, -, -, -, -⟩ := h
  cases hx : dbFind db.bindIndex (a, o) with
  | some v => exact (bbi ((a, o), v) (dbFind_some_mem hx)).symm
  | none =>
    cases he : expectedBindAt db (a, o) with
    | none => rfl
    | some v =>
      exfalso
      unfold expectedBindAt at he
      cases hcoin : dbFind db.coins o with
      | none => simp [hcoin] at he
      | some c =>
        simp only [hcoin] at he
        split_ifs at he with hcond
        · have := ((hfwd (o, c) (dbFind_some_mem hcoin) hcond.2.1).2.1 hcond.2.2)
          rw [hcond.1] at this
          rw [this] at hx
          exact Option.noConfusion hx

theorem ic_pointSend_lookup {db : DB} (h : IndexConsistent db) (k : AccountID × OutPoint) :
    dbFind db.pointSendIdx k = expectedPointSendAt db k := by
  obtain ⟨a, o⟩ := k
  obtain ⟨-, -, -, -, -, -, -, -, hfwd, -, -, bps, -, -, -⟩ := h
  cases hx : dbFind db.pointSendIdx (a, o) with
  | some v => exact (bps ((a, o), v) (dbFind_some_mem hx)).symm
  | none =>
    cases he : expectedPointSendAt db (a, o) with
    | none => rfl
    | some v =>
      exfalso
      unfold expectedPointSendAt at he
      cases hcoin : dbFind db.coins o with
      | none => simp [hcoin] at he
      | some c =>
        simp only [hcoin] at he
        split_ifs at he with hcond
        · have := ((hfwd (o, c) (dbFind_some_mem hcoin) hcond.2.1).2.2.1 hcond.2.2).1
          rw [hcond.1] at this
          rw [this] at hx
          exact Option.noConfusion hx

theorem ic_pointRecv_lookup {db : DB} (h : IndexConsistent db) (k : AccountID × OutPoint) :
    dbFind db.pointRecvIdx k = expectedPointRecvAt db k := by
  obtain ⟨a, o⟩ := k
  obtain ⟨-, -, -, -, -, -, -, -, hfwd, -, -, -, bpr, -, -⟩ := h
  cases hx : dbFind db.pointRecvIdx (a, o) with
  | some v => exact (bpr ((a, o), v) (dbFind_some_mem hx)).symm
  | none =>
    cases he : expectedPointRecvAt db (a, o) with
    | none => rfl
    | some v =>
      exfalso
      unfold expectedPointRecvAt at he
      cases hcoin : dbFind db.coins o with
      | none => simp [hcoin] at he
      | some c =>
        simp only [hcoin] at he
        split_ifs at he with hcond
        · have := ((hfwd (o, c) (dbFind_some_mem hcoin) hcond.1).2.2.1 hcond.2.1).2
          rw [hcond.2.2] at this
          rw [this] at hx
          exact Option.noConfusion hx

theorem ic_stakingSend_lookup {db : DB} (h : IndexConsistent db) (k : AccountID × OutPoint) :
    dbFind db.stakingSendIdx k = expectedStakingSendAt db k := by
  obtain ⟨a, o⟩ := k
  obtain ⟨-, -, -, -, -, -, -, -, hfwd, -, -, -, -, bss, -⟩ := h
  cases hx : dbFind db.stakingSendIdx (a, o) with
  | some v => exact (bss ((a, o), v) (dbFind_some_mem hx)).symm
  | none =>
    cases he : expectedStakingSendAt db (a, o) with
    | none => rfl
    | some v =>
      exfalso
      unfold expectedStakingSendAt at he
      cases hcoin : dbFind db.coins o with
      | none => simp [hcoin] at he
      | some c =>
        simp only [hcoin] at he
        split_ifs at he with hcond
        · have := ((hfwd (o, c) (dbFind_some_mem hcoin) hcond.2.1).2.2.2 hcond.2.2).1
          rw [hcond.1] at this
          rw [this] at hx
          exact Option.noConfusion hx

theorem ic_stakingRecv_lookup {db : DB} (h : IndexConsistent db) (k : AccountID × OutPoint) :
    dbFind db.stakingRecvIdx k = expectedStakingRecvAt db k := by
  obtain ⟨a, o⟩ := k
  obtain ⟨-, -, -, -, -, -, -, -, hfwd, -, -, -, -, -, bsr⟩ := h
  cases hx : dbFind db.stakingRecvIdx (a, o) with
  | some v => exact (bsr ((a, o), v) (dbFind_some_mem hx)).symm
  | none =>
    cases he : expectedStakingRecvAt db (a, o) with
    | none => rfl
    | some v =>
      exfalso
      unfold expectedStakingRecvAt at he
      cases hcoin : dbFind db.coins o with
      | none => simp [hcoin] at he
      | some c =>
        simp only [hcoin] at he
        split_ifs at he with hcond
        · have := ((hfwd (o, c) (dbFind_some_mem hcoin) hcond.1).2.2.2 hcond.2.1).2
          rw [hcond.2.2] at this
          rw [this] at hx
          exact Option.noConfusion hx

/-! ## Generic `Except` reduction helpers -/

theorem except_bind_ok {E A B : Type} (x : Except E A) (f : A → Except E B) (b : B) :
    (x >>= f) = .ok b ↔ ∃ a, x = .ok a ∧ f a = .ok b := by
  cases x with
  | error e =>
    constructor
    · intro h
      exact absurd h (by simp [Bind.bind, Except.bind])
    · rintro ⟨a, ha, -⟩
      exact Except.noConfusion ha
  | ok a =>
    constructor
    · intro h
      exact ⟨a, rfl, by simpa [Bind.bind, Except.bind] using h⟩
    · rintro ⟨a', ha, hf⟩
      cases ha
      simpa [Bind.bind, Except.bind] using hf

/-! ## C7: the snapshot trigger condition -/

/-- C7: `TrySnapshotStakingPoolStatus` acts exactly at heights `H` with
`H ≥ activationHeight + 2 * epochLength` and `H mod epochLength = 0` (C++
truncated `%`): at every other height it returns immediately with the store
unchanged, and at a triggering height any successful run persists the epoch
pool-list record under the new tip's hash. -/
theorem c7_snapshot_trigger_iff (P : SnapParams) (hd : Block) (tl : List Block) (db : DB) :
    (¬ (P.nSaturnActiveHeight + 2 * P.nSaturnEpockBlocks ≤ hd.height ∧
        Int.tmod hd.height P.nSaturnEpockBlocks = 0) →
      TrySnapshotStakingPoolStatus P (hd :: tl) db = .ok db) ∧
    (∀ db', TrySnapshotStakingPoolStatus P (hd :: tl) db = .ok db' →
      (P.nSaturnActiveHeight + 2 * P.nSaturnEpockBlocks ≤ hd.height ∧
        Int.tmod hd.height P.nSaturnEpockBlocks = 0) →
      ∃ ps, dbFind db'.poolLists hd.hash = some ps) := by
  constructor
  · intro hno
    have hcond : hd.height - P.nSaturnEpockBlocks * 2 < P.nSaturnActiveHeight ∨
        Int.tmod hd.height P.nSaturnEpockBlocks ≠ 0 := by
      by_cases ht : Int.tmod hd.height P.nSaturnEpockBlocks = 0
      · left
        by_contra hlt
        exact hno ⟨by omega, ht⟩
      · exact Or.inr ht
    simp only [TrySnapshotStakingPoolStatus]
    rw [if_pos hcond]
  · intro db' hok htrig
    obtain ⟨h1, h2⟩ := htrig
    have hcond : ¬ (hd.height - P.nSaturnEpockBlocks * 2 < P.nSaturnActiveHeight ∨
        Int.tmod hd.height P.nSaturnEpockBlocks ≠ 0) := by
      push_neg
      exact ⟨by omega, h2⟩
    simp only [TrySnapshotStakingPoolStatus] at hok
    rw [if_neg hcond] at hok
    rw [except_bind_ok] at hok
    obtain ⟨sc, -, hok⟩ := hok
    rw [except_bind_ok] at hok
    obtain ⟨m, -, hok⟩ := hok
    have heq := Except.ok.inj hok
    rw [← heq]
    unfold snapshotWriteAll
    exact ⟨_, by rw [dbFind_insert, if_pos rfl]⟩

/-- Witness: a height one short of the epoch boundary leaves the store
untouched. -/
theorem c7_snapshot_trigger_iff_witness :
    TrySnapshotStakingPoolStatus ⟨2, 0, 7, 1, fun _ => 50, fun _ => 50⟩ [⟨3, 40, 3⟩]
      ⟨[], [], [], [], [], [], [], some 9, [], [], []⟩ =
      .ok ⟨[], [], [], [], [], [], [], some 9, [], [], []⟩ :=
  (c7_snapshot_trigger_iff ⟨2, 0, 7, 1, fun _ => 50, fun _ => 50⟩ ⟨3, 40, 3⟩ []
    ⟨[], [], [], [], [], [], [], some 9, [], [], []⟩).1 (by decide)

/-! ## C4: determining the previous tip (recovery path) -/

/-- C4: when `BatchWrite` starts with no best-tip record and a leftover
two-entry head-blocks marker whose first entry matches the new tip, the
marker's second entry becomes the effective previous tip of the commit
(recovery path); with no two-entry marker present the previous tip is taken
as absent (the null hash). -/
theorem c4_recovery_previous_tip (db : DB) (newTip t : Hash) :
    (getBestBlock db = 0 → db.headBlocks = [newTip, t] →
      effectiveOldTip db newTip = .ok t) ∧
    (getBestBlock db = 0 → db.headBlocks.length ≠ 2 →
      effectiveOldTip db newTip = .ok 0) := by
  constructor
  · intro h0 hm
    unfold effectiveOldTip
    rw [h0, hm]
    simp
  · intro h0 hl
    unfold effectiveOldTip
    rw [h0]
    simp only [if_pos rfl]
    rcases hdb : db.headBlocks with - | ⟨a, - | ⟨b, - | ⟨c, rest⟩⟩⟩
    · rfl
    · rfl
    · rw [hdb] at hl
      simp at hl
    · rfl

/-- Witness: recovery from a marker `[7, 5]` with no recorded tip yields
previous tip `5`; a store with a one-entry marker yields the null previous
tip. -/
theorem c4_recovery_previous_tip_witness :
    effectiveOldTip ⟨[], [], [], [], [], [], [], Option.none, [7, 5], [], []⟩ 7 = .ok 5 ∧
    effectiveOldTip ⟨[], [], [], [], [], [], [], Option.none, [9], [], []⟩ 7 = .ok 0 :=
  ⟨(c4_recovery_previous_tip ⟨[], [], [], [], [], [], [], Option.none, [7, 5], [], []⟩ 7 5).1
      (by decide) (by decide),
    (c4_recovery_previous_tip ⟨[], [], [], [], [], [], [], Option.none, [9], [], []⟩ 7 5).2
      (by decide) (by decide)⟩


/-! ## C3: the head-blocks marker leads every per-coin mutation -/

theorem chunkLoop_flatten (flush : List DBOp → Bool) (delta : CoinsMap) :
    ∀ (pending : List DBOp),
    (chunkLoop flush delta pending).1.flatten ++ (chunkLoop flush delta pending).2 =
      pending ++ (delta.map (fun oe => coinOps oe.1 oe.2)).flatten := by
  induction delta with
  | nil =>
    intro pending
    simp [chunkLoop]
  | cons d rest ih =>
    intro pending
    obtain ⟨o, e⟩ := d
    by_cases hf : flush (pending ++ coinOps o e)
    · rw [show chunkLoop flush ((o, e) :: rest) pending =
          ((pending ++ coinOps o e) :: (chunkLoop flush rest []).1,
            (chunkLoop flush rest []).2) from by rw [chunkLoop, if_pos hf]]
      simp only [List.flatten_cons, List.map_cons]
      rw [List.append_assoc, ih []]
      simp
    · rw [show chunkLoop flush ((o, e) :: rest) pending =
          chunkLoop flush rest (pending ++ coinOps o e) from by rw [chunkLoop, if_neg hf]]
      rw [ih (pending ++ coinOps o e)]
      simp

theorem chunkLoop_first (flush : List DBOp → Bool) (fin : List DBOp) (delta : CoinsMap) :
    ∀ (pending : List DBOp),
    ∃ t rest,
      (chunkLoop flush delta pending).1 ++ [(chunkLoop flush delta pending).2 ++ fin] =
        (pending ++ t) :: rest := by
  induction delta with
  | nil =>
    intro pending
    exact ⟨fin, [], by simp [chunkLoop]⟩
  | cons d restd ih =>
    intro pending
    obtain ⟨o, e⟩ := d
    by_cases hf : flush (pending ++ coinOps o e)
    · refine ⟨coinOps o e,
        (chunkLoop flush restd []).1 ++ [(chunkLoop flush restd []).2 ++ fin], ?_⟩
      rw [show chunkLoop flush ((o, e) :: restd) pending =
          ((pending ++ coinOps o e) :: (chunkLoop flush restd []).1,
            (chunkLoop flush restd []).2) from by rw [chunkLoop, if_pos hf]]
      simp
    · obtain ⟨t', rest', ht⟩ := ih (pending ++ coinOps o e)
      refine ⟨coinOps o e ++ t', rest', ?_⟩
      rw [show chunkLoop flush ((o, e) :: restd) pending =
          chunkLoop flush restd (pending ++ coinOps o e) from by rw [chunkLoop, if_neg hf]]
      rw [ht]
      simp

/-- C3: in every invocation of `BatchWrite`, under every chunking behaviour:
(i) the durable op sequence opens with the best-tip erase and the two-entry
head-blocks marker write, followed by exactly the per-coin mutations of the
delta in order and then the final marker-erase/tip-write pair, so no per-coin
delta write becomes durable before the marker; (ii) those two marker ops head
the first physical batch window; (iii) the first delta entry's mutations land
in that same first window. -/
theorem c3_marker_heads_first_window (flush : List DBOp → Bool) (delta : CoinsMap)
    (newTip oldTip : Hash) :
    ((batchWriteFlushes flush delta newTip oldTip).flatten =
      .eraseBestBlock :: .writeHeadBlocks [newTip, oldTip] ::
        ((delta.map (fun oe => coinOps oe.1 oe.2)).flatten ++
          [.eraseHeadBlocks, .writeBestBlock newTip])) ∧
    (∃ w rest, batchWriteFlushes flush delta newTip oldTip = w :: rest ∧
      ∃ t, w = .eraseBestBlock :: .writeHeadBlocks [newTip, oldTip] :: t) ∧
    (∀ d ds, delta = d :: ds →
      ∃ w rest t, batchWriteFlushes flush delta newTip oldTip = w :: rest ∧
        w = .eraseBestBlock :: .writeHeadBlocks [newTip, oldTip] ::
          (coinOps d.1 d.2 ++ t)) := by
  refine ⟨?_, ?_, ?_⟩
  · unfold batchWriteFlushes
    rw [List.flatten_append]
    simp only [List.flatten_cons, List.flatten_nil, List.append_nil]
    rw [← List.append_assoc, chunkLoop_flatten]
    simp
  · obtain ⟨t, rest, ht⟩ := chunkLoop_first flush [.eraseHeadBlocks, .writeBestBlock newTip]
      delta [.eraseBestBlock, .writeHeadBlocks [newTip, oldTip]]
    exact ⟨_, rest, ht, t, rfl⟩
  · rintro ⟨o, e⟩ ds rfl
    unfold batchWriteFlushes
    by_cases hf : flush ([.eraseBestBlock, .writeHeadBlocks [newTip, oldTip]] ++ coinOps o e)
    · refine ⟨[DBOp.eraseBestBlock, DBOp.writeHeadBlocks [newTip, oldTip]] ++ coinOps o e,
        (chunkLoop flush ds []).1 ++
          [(chunkLoop flush ds []).2 ++ [DBOp.eraseHeadBlocks, DBOp.writeBestBlock newTip]],
        [], ?_, by simp⟩
      rw [show chunkLoop flush ((o, e) :: ds)
            [DBOp.eraseBestBlock, DBOp.writeHeadBlocks [newTip, oldTip]] =
          (([DBOp.eraseBestBlock, DBOp.writeHeadBlocks [newTip, oldTip]] ++ coinOps o e) ::
            (chunkLoop flush ds []).1, (chunkLoop flush ds []).2) from by
        rw [chunkLoop, if_pos hf]]
      simp
    · obtain ⟨t', rest', ht⟩ := chunkLoop_first flush
        [.eraseHeadBlocks, .writeBestBlock newTip] ds
        ([.eraseBestBlock, .writeHeadBlocks [newTip, oldTip]] ++ coinOps o e)
      refine ⟨[DBOp.eraseBestBlock, DBOp.writeHeadBlocks [newTip, oldTip]] ++ coinOps o e ++ t',
        rest', t', ?_, by simp⟩
      rw [show chunkLoop flush ((o, e) :: ds)
            [DBOp.eraseBestBlock, DBOp.writeHeadBlocks [newTip, oldTip]] =
          chunkLoop flush ds
            ([DBOp.eraseBestBlock, DBOp.writeHeadBlocks [newTip, oldTip]] ++ coinOps o e) from by
        rw [chunkLoop, if_neg hf]]
      rw [ht]

/-- Witness for C3: with a one-entry dirty delta the first (and only) window
opens with the marker pair followed by that entry's mutations. -/
theorem c3_marker_heads_first_window_witness :
    ∃ w rest t,
      batchWriteFlushes (fun _ => false)
          [(⟨1, 0⟩, ⟨⟨5, 1, false, 2, .none, false⟩, true⟩)] 7 0 = w :: rest ∧
      w = .eraseBestBlock :: .writeHeadBlocks [7, 0] ::
        (coinOps (⟨1, 0⟩ : OutPoint) ⟨⟨5, 1, false, 2, .none, false⟩, true⟩ ++ t) :=
  (c3_marker_heads_first_window (fun _ => false)
      [(⟨1, 0⟩, ⟨⟨5, 1, false, 2, .none, false⟩, true⟩)] 7 0).2.2
    (⟨1, 0⟩, ⟨⟨5, 1, false, 2, .none, false⟩, true⟩) [] rfl

/-! ## C9: every returned balance amount is non-negative -/

theorem guarded_ok_nonneg {b : Int} {v : Int}
    (h : (if b < 0 then (Except.error () : Except Unit Int) else Except.ok b) = .ok v) :
    0 ≤ v := by
  split_ifs at h with hb
  have := Except.ok.inj h
  omega

theorem availableBalance_ok_nonneg {db : DB} {a : AccountID} {ov : CoinsMap} {v : Int}
    (h : availableBalance db a ov = .ok v) : 0 ≤ v := by
  unfold availableBalance at h
  exact guarded_ok_nonneg h

theorem bindBalance_ok_nonneg {bindLock : Int} {db : DB} {a : AccountID} {ov : CoinsMap}
    {v : Int} (h : bindBalance bindLock db a ov = .ok v) : 0 ≤ v := by
  unfold bindBalance at h
  exact guarded_ok_nonneg h

theorem pointSendBalance_ok_nonneg {db : DB} {a : AccountID} {ov : CoinsMap} {v : Int}
    (h : pointSendBalance db a ov = .ok v) : 0 ≤ v := by
  unfold pointSendBalance at h
  rw [except_bind_ok] at h
  obtain ⟨sc, -, h⟩ := h
  exact guarded_ok_nonneg h

theorem pointRecvBalance_ok_nonneg {db : DB} {a : AccountID} {ov : CoinsMap} {v : Int}
    (h : pointRecvBalance db a ov = .ok v) : 0 ≤ v := by
  unfold pointRecvBalance at h
  exact guarded_ok_nonneg h

theorem stakingSendBalance_ok_nonneg {db : DB} {a : AccountID} {ov : CoinsMap} {v : Int}
    (h : stakingSendBalance db a ov = .ok v) : 0 ≤ v := by
  unfold stakingSendBalance at h
  rw [except_bind_ok] at h
  obtain ⟨sc, -, h⟩ := h
  exact guarded_ok_nonneg h

theorem stakingRecvBalance_ok_nonneg {db : DB} {a : AccountID} {ov : CoinsMap} {v : Int}
    (h : stakingRecvBalance db a ov = .ok v) : 0 ≤ v := by
  unfold stakingRecvBalance at h
  exact guarded_ok_nonneg h

theorem optCategory_ok_some {A : Type} {b : Bool} {f : Except Unit A} {x : Option A}
    (h : optCategory b f = .ok x) : ∀ w, x = some w → f = .ok w := by
  intro w hw
  unfold optCategory at h
  split_ifs at h with hb
  · cases f with
    | error e => exact Except.noConfusion h
    | ok v =>
      have h2 : (Except.ok (some v) : Except Unit (Option A)) = Except.ok x := by
        simpa [Except.map] using h
      have h3 := Except.ok.inj h2
      rw [← h3] at hw
      rw [Option.some.injEq] at hw
      rw [hw]
  · have := Except.ok.inj h
    rw [← this] at hw
    exact Option.noConfusion hw

/-- C9: every amount `GetAccountBalance` returns — the available balance and
each requested bind-plotter / point / staking amount — is non-negative, and a
negative intermediate result aborts through the assertion (a fatal error)
instead of being clamped or returned. -/
theorem c9_balance_nonneg (bindLock : Int) (db : DB) (a : AccountID) (req : BalanceRequest)
    (overlay : CoinsMap) :
    (∀ r, GetAccountBalance bindLock db a req overlay = .ok r →
      0 ≤ r.available ∧
      (∀ v, r.bindPlotter = some v → 0 ≤ v) ∧
      (∀ v, r.pointSend = some v → 0 ≤ v) ∧
      (∀ v, r.pointRecv = some v → 0 ≤ v) ∧
      (∀ v, r.stakingSend = some v → 0 ≤ v) ∧
      (∀ v, r.stakingRecv = some v → 0 ≤ v)) ∧
    (availScan db a + availOverlay db a overlay < 0 →
      GetAccountBalance bindLock db a req overlay = .error ()) := by
  constructor
  · intro r hok
    unfold GetAccountBalance at hok
    rw [except_bind_ok] at hok
    obtain ⟨avail, havail, hok⟩ := hok
    rw [except_bind_ok] at hok
    obtain ⟨bp, hbp, hok⟩ := hok
    rw [except_bind_ok] at hok
    obtain ⟨ps, hps, hok⟩ := hok
    rw [except_bind_ok] at hok
    obtain ⟨pr, hpr, hok⟩ := hok
    rw [except_bind_ok] at hok
    obtain ⟨ss, hss, hok⟩ := hok
    rw [except_bind_ok] at hok
    obtain ⟨sr, hsr, hok⟩ := hok
    have hr := Except.ok.inj hok
    rw [← hr]
    refine ⟨availableBalance_ok_nonneg havail, ?_, ?_, ?_, ?_, ?_⟩
    · intro v hv
      exact bindBalance_ok_nonneg (optCategory_ok_some hbp v hv)
    · intro v hv
      exact pointSendBalance_ok_nonneg (optCategory_ok_some hps v hv)
    · intro v hv
      exact pointRecvBalance_ok_nonneg (optCategory_ok_some hpr v hv)
    · intro v hv
      exact stakingSendBalance_ok_nonneg (optCategory_ok_some hss v hv)
    · intro v hv
      exact stakingRecvBalance_ok_nonneg (optCategory_ok_some hsr v hv)
  · intro hneg
    have herr : availableBalance db a overlay = .error () := by
      unfold availableBalance
      rw [if_pos hneg]
    unfold GetAccountBalance
    rw [herr]
    rfl

/-- Witness for C9: a store holding a negative account-index amount makes the
available-balance assertion abort instead of returning the negative value. -/
theorem c9_balance_nonneg_witness :
    GetAccountBalance 10 ⟨[], [((4, ⟨1, 0⟩), -5)], [], [], [], [], [], Option.none, [], [], []⟩ 4
      ⟨false, false, false, false, false⟩ [] = .error () :=
  (c9_balance_nonneg 10 ⟨[], [((4, ⟨1, 0⟩), -5)], [], [], [], [], [], Option.none, [], [], []⟩ 4
    ⟨false, false, false, false, false⟩ []).2 (by decide)

/-! ## Characterising the merged status map (C2, C5) -/

theorem dbFind_map_values {κ α β : Type} [DecidableEq κ] (g : α → β) (l : List (κ × α))
    (k : κ) :
    dbFind (l.map (fun e => (e.1, g e.2))) k = (dbFind l k).map g := by
  induction l with
  | nil => simp [dbFind]
  | cons e t ih =>
    rw [List.map_cons, dbFind_cons, dbFind_cons]
    by_cases h : e.1 = k <;> simp [h, ih]

theorem nodupKeys_filter {κ ν : Type} (p : κ × ν → Bool) (l : List (κ × ν))
    (h : NodupKeys l) : NodupKeys (l.filter p) :=
  List.Nodup.sublist (List.Sublist.map Prod.fst (List.filter_sublist l)) h

theorem nodupKeys_baseStatusMap (stakes : List ((AccountID × AccountID) × Int))
    (h : NodupKeys stakes) : NodupKeys (baseStatusMap stakes) := by
  unfold NodupKeys baseStatusMap at *
  simpa [List.map_map, Function.comp] using h

theorem dbFind_baseStatusMap (stakes : List ((AccountID × AccountID) × Int))
    (k : AccountID × AccountID) :
    dbFind (baseStatusMap stakes) k =
      (dbFind stakes k).map (fun s => (⟨s, 0⟩ : CUserStatus)) := by
  unfold baseStatusMap
  exact dbFind_map_values (fun s => (⟨s, 0⟩ : CUserStatus)) stakes k

theorem scanStakingEntry_nodup {P : SnapParams} {h : Int} {db : DB}
    {acc acc' : List (AccountID × OutPoint) × List ((AccountID × AccountID) × Int)}
    {ent : (AccountID × OutPoint) × Int}
    (hstep : scanStakingEntry P h db acc ent = .ok acc')
    (h1 : NodupKeys acc.1) (h2 : NodupKeys acc.2) :
    NodupKeys acc'.1 ∧ NodupKeys acc'.2 := by
  unfold scanStakingEntry at hstep
  split at hstep
  · exact Except.noConfusion hstep
  · split at hstep
    · split_ifs at hstep
      all_goals have hacc := Except.ok.inj hstep
      all_goals rw [← hacc]
      · exact ⟨h1, h2⟩
      · exact ⟨nodupKeys_insert _ _ _ h1, h2⟩
      · exact ⟨h1, h2⟩
      · exact ⟨h1, nodupKeys_add _ _ _ h2⟩
    · exact Except.noConfusion hstep

theorem scanFold_nodup {P : SnapParams} {h : Int} {db : DB} :
    ∀ (l : List ((AccountID × OutPoint) × Int))
      (acc : List (AccountID × OutPoint) × List ((AccountID × AccountID) × Int))
      (r : List (AccountID × OutPoint) × List ((AccountID × AccountID) × Int)),
      l.foldlM (scanStakingEntry P h db) acc = .ok r →
      NodupKeys acc.1 → NodupKeys acc.2 → NodupKeys r.1 ∧ NodupKeys r.2 := by
  intro l
  induction l with
  | nil =>
    intro acc r hr h1 h2
    have hr2 : (Except.ok acc : Except Unit _) = Except.ok r := by
      simpa [List.foldlM, pure, Except.pure] using hr
    rw [← Except.ok.inj hr2]
    exact ⟨h1, h2⟩
  | cons ent rest ih =>
    intro acc r hr h1 h2
    rw [List.foldlM_cons, except_bind_ok] at hr
    obtain ⟨acc', hstep, hrest⟩ := hr
    obtain ⟨h1', h2'⟩ := scanStakingEntry_nodup hstep h1 h2
    exact ih acc' r hrest h1' h2'

theorem scanStakingRecv_nodup {P : SnapParams} {h : Int} {db : DB}
    {r : List (AccountID × OutPoint) × List ((AccountID × AccountID) × Int)}
    (hr : scanStakingRecv P h db = .ok r) : NodupKeys r.1 ∧ NodupKeys r.2 := by
  unfold scanStakingRecv at hr
  exact scanFold_nodup _ _ _ hr (by simp [NodupKeys]) (by simp [NodupKeys])

theorem prevUserStep_find_other (P : SnapParams) (db : DB) (ph : Hash) (p : AccountID)
    (rw tot : Int) (m : StatusMap) (pu : StakingPoolUser) (k : AccountID × AccountID)
    (hk : k ≠ (p, pu.accountID)) :
    dbFind (prevUserStep P db ph p rw tot m pu) k = dbFind m k := by
  unfold prevUserStep
  cases hc : dbFind m (p, pu.accountID) with
  | none => rfl
  | some cur =>
    rw [dbFind_insert, if_neg hk]

theorem prevUserStep_find_self (P : SnapParams) (db : DB) (ph : Hash) (p : AccountID)
    (rw tot : Int) (m : StatusMap) (pu : StakingPoolUser) (cur : CUserStatus)
    (hc : dbFind m (p, pu.accountID) = some cur) :
    dbFind (prevUserStep P db ph p rw tot m pu) (p, pu.accountID) =
      some (mergeUserStatus P db ph p rw tot cur pu) := by
  unfold prevUserStep
  rw [hc, dbFind_insert, if_pos rfl]

theorem prevUsersFold_find_other (P : SnapParams) (db : DB) (ph : Hash) (p : AccountID)
    (rw tot : Int) (l : List StakingPoolUser) :
    ∀ (m : StatusMap) (k : AccountID × AccountID),
      (∀ pu ∈ l, k ≠ (p, pu.accountID)) →
      dbFind (l.foldl (prevUserStep P db ph p rw tot) m) k = dbFind m k := by
  induction l with
  | nil => intro m k _; rfl
  | cons x rest ih =>
    intro m k hk
    rw [List.foldl_cons, ih _ k (fun pu hpu => hk pu (List.mem_cons_of_mem _ hpu))]
    exact prevUserStep_find_other P db ph p rw tot m x k (hk x (List.mem_cons_self _ _))

theorem prevUsersFold_find_mem (P : SnapParams) (db : DB) (ph : Hash) (p : AccountID)
    (rw tot : Int) (l : List StakingPoolUser) :
    ∀ (m : StatusMap) (pu : StakingPoolUser) (cur : CUserStatus),
      (l.map (fun x => x.accountID)).Nodup → pu ∈ l →
      dbFind m (p, pu.accountID) = some cur →
      dbFind (l.foldl (prevUserStep P db ph p rw tot) m) (p, pu.accountID) =
        some (mergeUserStatus P db ph p rw tot cur pu) := by
  induction l with
  | nil => intro m pu cur _ hmem; simp at hmem
  | cons x rest ih =>
    intro m pu cur hnd hmem hcur
    simp only [List.map_cons, List.nodup_cons] at hnd
    rcases List.mem_cons.mp hmem with hx | hx
    · subst hx
      rw [List.foldl_cons]
      rw [prevUsersFold_find_other P db ph p rw tot rest _ _ ?hother]
      · exact prevUserStep_find_self P db ph p rw tot m pu cur hcur
      case hother =>
        intro pu' hpu' hcontra
        have : pu.accountID = pu'.accountID := congrArg Prod.snd hcontra
        exact hnd.1 (this ▸ List.mem_map.mpr ⟨pu', hpu', rfl⟩)
    · have hne : x.accountID ≠ pu.accountID := by
        intro hc
        exact hnd.1 (hc ▸ List.mem_map.mpr ⟨pu, hx, rfl⟩)
      rw [List.foldl_cons]
      apply ih _ pu cur hnd.2 hx
      rw [prevUserStep_find_other P db ph p rw tot m x _ ?hne2]
      · exact hcur
      case hne2 =>
        intro hc
        exact hne (congrArg Prod.snd hc).symm

theorem applyPrevPoolUsers_find_other (P : SnapParams) (db : DB) (ph : Hash)
    (rewards : List (AccountID × Int)) (tot : Int) (m : StatusMap) (p : AccountID)
    (k : AccountID × AccountID) (hk : k.1 ≠ p) :
    dbFind (applyPrevPoolUsers P db ph rewards tot m p) k = dbFind m k := by
  unfold applyPrevPoolUsers
  cases dbFind db.poolUsers (ph, p) with
  | none => rfl
  | some pl =>
    apply prevUsersFold_find_other
    intro pu _ hc
    exact hk (congrArg Prod.fst hc)

theorem applyPrevPoolUsers_find_mem (P : SnapParams) (db : DB) (ph : Hash)
    (rewards : List (AccountID × Int)) (tot : Int) (m : StatusMap) (p : AccountID)
    (pl : List StakingPoolUser) (pu : StakingPoolUser) (cur : CUserStatus)
    (hpl : dbFind db.poolUsers (ph, p) = some pl)
    (hnd : (pl.map (fun x => x.accountID)).Nodup) (hmem : pu ∈ pl)
    (hcur : dbFind m (p, pu.accountID) = some cur) :
    dbFind (applyPrevPoolUsers P db ph rewards tot m p) (p, pu.accountID) =
      some (mergeUserStatus P db ph p ((dbFind rewards p).getD 0) tot cur pu) := by
  unfold applyPrevPoolUsers
  rw [hpl]
  exact prevUsersFold_find_mem P db ph p _ tot pl m pu cur hnd hmem hcur

theorem poolKeysFold_find_other (P : SnapParams) (db : DB) (ph : Hash)
    (rewards : List (AccountID × Int)) (tot : Int) :
    ∀ (ks : List AccountID) (m : StatusMap) (k : AccountID × AccountID),
      (∀ q ∈ ks, k.1 ≠ q) →
      dbFind (ks.foldl (applyPrevPoolUsers P db ph rewards tot) m) k = dbFind m k := by
  intro ks
  induction ks with
  | nil => intro m k _; rfl
  | cons q rest ih =>
    intro m k hk
    rw [List.foldl_cons, ih _ k (fun q' hq' => hk q' (List.mem_cons_of_mem _ hq'))]
    exact applyPrevPoolUsers_find_other P db ph rewards tot m q k
      (hk q (List.mem_cons_self _ _))

theorem poolKeysFold_find (P : SnapParams) (db : DB) (ph : Hash)
    (rewards : List (AccountID × Int)) (tot : Int) (p : AccountID)
    (pl : List StakingPoolUser) (pu : StakingPoolUser)
    (hpl : dbFind db.poolUsers (ph, p) = some pl)
    (hnd : (pl.map (fun x => x.accountID)).Nodup) (hmem : pu ∈ pl) :
    ∀ (ks : List AccountID) (m : StatusMap) (cur : CUserStatus),
      ks.Nodup → p ∈ ks → dbFind m (p, pu.accountID) = some cur →
      dbFind (ks.foldl (applyPrevPoolUsers P db ph rewards tot) m) (p, pu.accountID) =
        some (mergeUserStatus P db ph p ((dbFind rewards p).getD 0) tot cur pu) := by
  intro ks
  induction ks with
  | nil => intro m cur _ hp; simp at hp
  | cons q rest ih =>
    intro m cur hnd2 hp hcur
    simp only [List.nodup_cons] at hnd2
    rw [List.foldl_cons]
    rcases List.mem_cons.mp hp with hq | hq
    · subst hq
      rw [poolKeysFold_find_other P db ph rewards tot rest _ _ ?hrest]
      · exact applyPrevPoolUsers_find_mem P db ph rewards tot m p pl pu cur hpl hnd hmem hcur
      case hrest =>
        intro q' hq' hc
        simp only at hc
        exact hnd2.1 (by rw [hc]; exact hq')
    · have hq1 : ((p, pu.accountID) : AccountID × AccountID).1 ≠ q := by
        intro hc
        exact absurd (hc ▸ hq) hnd2.1
      exact ih _ cur hnd2.2 hq
        (by rw [applyPrevPoolUsers_find_other P db ph rewards tot m q _ hq1]; exact hcur)

/-! ## Characterising the write phase -/

theorem foldl_preserves {α β γ : Type} (f : β → α → β) (g : β → γ)
    (hf : ∀ b a, g (f b a) = g b) : ∀ (l : List α) (b : β), g (l.foldl f b) = g b := by
  intro l
  induction l with
  | nil => intro b; rfl
  | cons x rest ih =>
    intro b
    rw [List.foldl_cons, ih, hf]

theorem writePoolSnapshot_poolUsers (P : SnapParams) (eh : Hash) (ht : Int)
    (en : List (AccountID × OutPoint)) (m : StatusMap) (acc : DB × List StakingPool)
    (q : AccountID) (k : Hash × AccountID) :
    dbFind ((writePoolSnapshot P eh ht en m acc q).1).poolUsers k =
      if k = (eh, q) then some (sortPoolUsers (poolUserEntries m q))
      else dbFind acc.1.poolUsers k := by
  unfold writePoolSnapshot
  simp only
  rw [dbFind_insert]
  have hpres : (((poolUserEntries m q).foldl (fun db u =>
      if u.withdrawableAmount ≥ P.minWithdrawableAmount then
        let op := CreateStakePendingCoinOutPoint eh q u.accountID
        let c := pendingRewardCoin u.withdrawableAmount u.accountID ht
        { db with coins := dbInsert op c db.coins }
      else db) acc.1)).poolUsers = acc.1.poolUsers := by
    apply foldl_preserves
    intro b a
    by_cases hw : a.withdrawableAmount ≥ P.minWithdrawableAmount
    · rw [if_pos hw]
    · rw [if_neg hw]
  rw [hpres]

theorem writeFold_poolUsers_other (P : SnapParams) (eh : Hash) (ht : Int)
    (en : List (AccountID × OutPoint)) (m : StatusMap) (p : AccountID) :
    ∀ (ks : List AccountID) (acc : DB × List StakingPool), p ∉ ks →
      dbFind ((ks.foldl (writePoolSnapshot P eh ht en m) acc).1).poolUsers (eh, p) =
        dbFind acc.1.poolUsers (eh, p) := by
  intro ks
  induction ks with
  | nil => intro acc _; rfl
  | cons q rest ih =>
    intro acc hp
    rw [List.foldl_cons, ih _ (fun hc => hp (List.mem_cons_of_mem _ hc))]
    rw [writePoolSnapshot_poolUsers]
    rw [if_neg]
    intro hc
    exact hp (by rw [show p = q from congrArg Prod.snd hc]; exact List.mem_cons_self _ _)

theorem writeFold_poolUsers_mem (P : SnapParams) (eh : Hash) (ht : Int)
    (en : List (AccountID × OutPoint)) (m : StatusMap) (p : AccountID) :
    ∀ (ks : List AccountID) (acc : DB × List StakingPool), ks.Nodup → p ∈ ks →
      dbFind ((ks.foldl (writePoolSnapshot P eh ht en m) acc).1).poolUsers (eh, p) =
        some (sortPoolUsers (poolUserEntries m p)) := by
  intro ks
  induction ks with
  | nil => intro acc _ hp; simp at hp
  | cons q rest ih =>
    intro acc hnd hp
    simp only [List.nodup_cons] at hnd
    rw [List.foldl_cons]
    rcases List.mem_cons.mp hp with hq | hq
    · subst hq
      rw [writeFold_poolUsers_other P eh ht en m p rest _ hnd.1]
      rw [writePoolSnapshot_poolUsers, if_pos rfl]
    · exact ih _ hnd.2 hq

theorem writeFold_pools (P : SnapParams) (eh : Hash) (ht : Int)
    (en : List (AccountID × OutPoint)) (m : StatusMap) :
    ∀ (ks : List AccountID) (acc : DB × List StakingPool),
      (ks.foldl (writePoolSnapshot P eh ht en m) acc).2 =
        acc.2 ++ ks.map (fun p =>
          (⟨p, (dbFind en p).getD ⟨0, 0⟩, totalPoolStake m p⟩ : StakingPool)) := by
  intro ks
  induction ks with
  | nil => intro acc; simp
  | cons q rest ih =>
    intro acc
    rw [List.foldl_cons, ih]
    show (writePoolSnapshot P eh ht en m acc q).2 ++ _ = _
    unfold writePoolSnapshot
    simp

/-- The pool list the snapshot persists under the epoch hash. -/
def snapshotPoolList (en : List (AccountID × OutPoint)) (m : StatusMap)
    (stakes : List ((AccountID × AccountID) × Int)) : List StakingPool :=
  sortPools ((poolKeysOf stakes).map (fun p =>
    (⟨p, (dbFind en p).getD ⟨0, 0⟩, totalPoolStake m p⟩ : StakingPool)))

theorem snapshotWriteAll_poolLists (P : SnapParams) (eh : Hash) (ht : Int)
    (en : List (AccountID × OutPoint)) (stakes : List ((AccountID × AccountID) × Int))
    (m : StatusMap) (db : DB) :
    dbFind (snapshotWriteAll P eh ht en stakes m db).poolLists eh =
      some (snapshotPoolList en m stakes) := by
  unfold snapshotWriteAll
  simp only
  rw [dbFind_insert, if_pos rfl, writeFold_pools]
  rfl

theorem snapshotWriteAll_poolUsers (P : SnapParams) (eh : Hash) (ht : Int)
    (en : List (AccountID × OutPoint)) (stakes : List ((AccountID × AccountID) × Int))
    (m : StatusMap) (db : DB) (p : AccountID) (hp : p ∈ poolKeysOf stakes) :
    dbFind (snapshotWriteAll P eh ht en stakes m db).poolUsers (eh, p) =
      some (sortPoolUsers (poolUserEntries m p)) := by
  unfold snapshotWriteAll
  simp only
  exact writeFold_poolUsers_mem P eh ht en m p (poolKeysOf stakes) (db, [])
    (List.nodup_dedup _) hp

theorem mem_sortPoolUsers {x : StakingPoolUser} {l : List StakingPoolUser} (h : x ∈ l) :
    x ∈ sortPoolUsers l := by
  unfold sortPoolUsers
  exact (List.Perm.mem_iff (List.perm_insertionSort _ l)).mpr h

theorem mem_poolUserEntries {m : StatusMap} {p u : AccountID} {cur : CUserStatus}
    (h : dbFind m (p, u) = some cur) :
    (⟨u, cur.stakeAmount, cur.withdrawableAmount⟩ : StakingPoolUser) ∈ poolUserEntries m p := by
  unfold poolUserEntries
  apply List.mem_map.mpr
  refine ⟨((p, u), cur), ?_, rfl⟩
  apply List.mem_filter.mpr
  exact ⟨dbFind_some_mem h, by simp⟩

theorem mem_poolKeysOf {stakes : List ((AccountID × AccountID) × Int)} {p u : AccountID}
    {s : Int} (h : dbFind stakes (p, u) = some s) : p ∈ poolKeysOf stakes := by
  unfold poolKeysOf
  apply List.mem_dedup.mpr
  exact List.mem_map.mpr ⟨((p, u), s), dbFind_some_mem h, rfl⟩

/-- The (pool, user) entry persisted by a triggered snapshot whose user also
appears (with unique account ids) in the previous epoch's persisted user list
for that pool: it carries the accumulated stake and the withdrawable amount
computed by `mergeUserStatus` on the previous-epoch record, with the reward
divided by the summed stake of all previous-epoch pools. -/
theorem snapshot_user_entry (P : SnapParams) (hd : Block) (tl : List Block) (db : DB)
    (en : List (AccountID × OutPoint)) (stakes0 : List ((AccountID × AccountID) × Int))
    (p u : AccountID) (s : Int) (prevPools : List StakingPool) (pl : List StakingPoolUser)
    (pu : StakingPoolUser) (db' : DB)
    (htrig : ¬ (hd.height - P.nSaturnEpockBlocks * 2 < P.nSaturnActiveHeight ∨
        Int.tmod hd.height P.nSaturnEpockBlocks ≠ 0))
    (hscan : scanStakingRecv P hd.height db = .ok (en, stakes0))
    (hs : dbFind (stakes0.filter (fun e => (dbFind en e.1.1).isSome)) (p, u) = some s)
    (hph : hd.height ≥ P.nSaturnActiveHeight + P.nSaturnEpockBlocks)
    (hlen : P.nSaturnEpockBlocks.toNat < (hd :: tl).length)
    (hprev : dbFind db.poolLists ((hd :: tl).get ⟨P.nSaturnEpockBlocks.toNat, hlen⟩).hash =
        some prevPools)
    (hne : prevPools ≠ [])
    (hpl : dbFind db.poolUsers
        (((hd :: tl).get ⟨P.nSaturnEpockBlocks.toNat, hlen⟩).hash, p) = some pl)
    (hplnd : (pl.map (fun x => x.accountID)).Nodup)
    (hpu : pu ∈ pl) (hpuid : pu.accountID = u)
    (hrun : TrySnapshotStakingPoolStatus P (hd :: tl) db = .ok db') :
    ∃ l, dbFind db'.poolUsers (hd.hash, p) = some l ∧
      (⟨u, s, (mergeUserStatus P db
          ((hd :: tl).get ⟨P.nSaturnEpockBlocks.toNat, hlen⟩).hash p
          ((dbFind (epochRewards P (hd :: tl)) p).getD 0)
          ((prevPools.map (fun x => x.stakeAmount)).sum) ⟨s, 0⟩
          pu).withdrawableAmount⟩ : StakingPoolUser) ∈ l := by
  simp only [TrySnapshotStakingPoolStatus] at hrun
  rw [if_neg htrig, except_bind_ok] at hrun
  obtain ⟨sc, hsc, hrun⟩ := hrun
  rw [hscan] at hsc
  have hsc2 := Except.ok.inj hsc
  subst hsc2
  rw [except_bind_ok] at hrun
  obtain ⟨m, hm, hrun⟩ := hrun
  simp only [snapshotMergedStatus] at hm
  rw [if_pos hph, dif_pos hlen, hprev] at hm
  simp only [] at hm
  rw [if_neg hne] at hm
  have hm2 := Except.ok.inj hm
  have hdb' := Except.ok.inj hrun
  subst hdb'
  have hnd := (scanStakingRecv_nodup hscan).2
  have hndf : NodupKeys (stakes0.filter (fun e => (dbFind en e.1.1).isSome)) :=
    nodupKeys_filter _ _ hnd
  have hbase : dbFind (baseStatusMap (stakes0.filter (fun e => (dbFind en e.1.1).isSome)))
      (p, u) = some ⟨s, 0⟩ := by
    rw [dbFind_baseStatusMap, hs]
    rfl
  have hmfind : dbFind m (p, u) = some (mergeUserStatus P db
      ((hd :: tl).get ⟨P.nSaturnEpockBlocks.toNat, hlen⟩).hash p
      ((dbFind (epochRewards P (hd :: tl)) p).getD 0)
      ((prevPools.map (fun x => x.stakeAmount)).sum) ⟨s, 0⟩ pu) := by
    rw [← hm2]
    rw [← hpuid] at hbase ⊢
    exact poolKeysFold_find P db _ _ _ p pl pu hpl hplnd hpu _ _ _
      (List.nodup_dedup _) (mem_poolKeysOf hs) hbase
  refine ⟨sortPoolUsers (poolUserEntries m p), ?_, ?_⟩
  · exact snapshotWriteAll_poolUsers P hd.hash hd.height en _ m db p (mem_poolKeysOf hs)
  · have := mem_poolUserEntries hmfind
    simpa using mem_sortPoolUsers this

/-! ## C2: the pro-rata reward share divides by the all-pools total stake -/

/-- C2 (amended): for a (pool, user) pair in the new epoch's accumulation with
an entry in the previous epoch's persisted user list, the persisted
withdrawable amount is the carried-forward amount plus
`reward * userPriorStake / totalPriorStake` in exact truncated integer
arithmetic — where `totalPriorStake` is the SUM OF ALL POOLS' persisted
stakes from the previous epoch, not the pool's own stake — and the share is
added only when the pool's reward and that total are both positive, zero
otherwise. -/
theorem c2_reward_prorata_total_stake (P : SnapParams) (hd : Block) (tl : List Block)
    (db : DB) (en : List (AccountID × OutPoint))
    (stakes0 : List ((AccountID × AccountID) × Int)) (p u : AccountID) (s : Int)
    (prevPools : List StakingPool) (pl : List StakingPoolUser) (pu : StakingPoolUser)
    (db' : DB)
    (htrig : ¬ (hd.height - P.nSaturnEpockBlocks * 2 < P.nSaturnActiveHeight ∨
        Int.tmod hd.height P.nSaturnEpockBlocks ≠ 0))
    (hscan : scanStakingRecv P hd.height db = .ok (en, stakes0))
    (hs : dbFind (stakes0.filter (fun e => (dbFind en e.1.1).isSome)) (p, u) = some s)
    (hph : hd.height ≥ P.nSaturnActiveHeight + P.nSaturnEpockBlocks)
    (hlen : P.nSaturnEpockBlocks.toNat < (hd :: tl).length)
    (hprev : dbFind db.poolLists ((hd :: tl).get ⟨P.nSaturnEpockBlocks.toNat, hlen⟩).hash =
        some prevPools)
    (hne : prevPools ≠ [])
    (hpl : dbFind db.poolUsers
        (((hd :: tl).get ⟨P.nSaturnEpockBlocks.toNat, hlen⟩).hash, p) = some pl)
    (hplnd : (pl.map (fun x => x.accountID)).Nodup)
    (hpu : pu ∈ pl) (hpuid : pu.accountID = u)
    (hrun : TrySnapshotStakingPoolStatus P (hd :: tl) db = .ok db') :
    ∃ l, dbFind db'.poolUsers (hd.hash, p) = some l ∧
      (⟨u, s,
        (if pu.withdrawableAmount ≥ P.minWithdrawableAmount then
          (if (dbFind db.coins (CreateStakePendingCoinOutPoint
              ((hd :: tl).get ⟨P.nSaturnEpockBlocks.toNat, hlen⟩).hash p
              pu.accountID)).isSome
           then pu.withdrawableAmount else 0)
         else pu.withdrawableAmount) +
        (if 0 < (dbFind (epochRewards P (hd :: tl)) p).getD 0 ∧
            0 < (prevPools.map (fun x => x.stakeAmount)).sum
         then Int.tdiv ((dbFind (epochRewards P (hd :: tl)) p).getD 0 * pu.stakeAmount)
            ((prevPools.map (fun x => x.stakeAmount)).sum)
         else 0)⟩ : StakingPoolUser) ∈ l := by
  obtain ⟨l, hl, hmem⟩ := snapshot_user_entry P hd tl db en stakes0 p u s prevPools pl pu db'
    htrig hscan hs hph hlen hprev hne hpl hplnd hpu hpuid hrun
  refine ⟨l, hl, ?_⟩
  have hwd : (mergeUserStatus P db
      ((hd :: tl).get ⟨P.nSaturnEpockBlocks.toNat, hlen⟩).hash p
      ((dbFind (epochRewards P (hd :: tl)) p).getD 0)
      ((prevPools.map (fun x => x.stakeAmount)).sum) ⟨s, 0⟩ pu).withdrawableAmount =
      (if pu.withdrawableAmount ≥ P.minWithdrawableAmount then
        (if (dbFind db.coins (CreateStakePendingCoinOutPoint
            ((hd :: tl).get ⟨P.nSaturnEpockBlocks.toNat, hlen⟩).hash p
            pu.accountID)).isSome
         then pu.withdrawableAmount else 0)
       else pu.withdrawableAmount) +
      (if 0 < (dbFind (epochRewards P (hd :: tl)) p).getD 0 ∧
          0 < (prevPools.map (fun x => x.stakeAmount)).sum
       then Int.tdiv ((dbFind (epochRewards P (hd :: tl)) p).getD 0 * pu.stakeAmount)
          ((prevPools.map (fun x => x.stakeAmount)).sum)
       else 0) := by
    simp only [mergeUserStatus, CalcStakePoolUserReward]
    split_ifs <;> simp
  rw [← hwd]
  exact hmem

/-- Counterexample to C2 as stated: with two previous-epoch pools of stake 100
each (total 200), pool 3's reward of 100 and its user's prior stake of 100,
the engine persists a withdrawable amount of `100 * 100 / 200 = 50`, not the
claimed `reward * userPriorStake / poolPriorTotalStake = 100 * 100 / 100 =
100` — the divisor is the prior stake summed over ALL pools, not the pool's
own prior stake. -/
theorem c2_counterexample :
    (TrySnapshotStakingPoolStatus ⟨2, 0, 7, 1000, fun _ => 50, fun _ => 50⟩
        [⟨4, 40, 3⟩, ⟨3, 30, 3⟩, ⟨2, 20, 9⟩]
        ⟨[(⟨100, 0⟩, ⟨100, 1, false, 7, .staking 3 100 9999, false⟩),
          (⟨101, 0⟩, ⟨100, 1, false, 5, .staking 3 100 9999, false⟩)],
         [((7, ⟨100, 0⟩), 100), ((5, ⟨101, 0⟩), 100)], [], [], [],
         [((7, ⟨100, 0⟩), 100), ((5, ⟨101, 0⟩), 100)],
         [((3, ⟨100, 0⟩), 100), ((3, ⟨101, 0⟩), 100)],
         some 10, [], [(20, [⟨3, ⟨100, 0⟩, 100⟩, ⟨8, ⟨100, 0⟩, 100⟩])],
         [((20, 3), [⟨5, 100, 0⟩])]⟩).map
      (fun db' => dbFind db'.poolUsers (40, 3)) = .ok (some [⟨5, 100, 50⟩]) ∧
    (dbFind (epochRewards ⟨2, 0, 7, 1000, fun _ => 50, fun _ => 50⟩
        [⟨4, 40, 3⟩, ⟨3, 30, 3⟩, ⟨2, 20, 9⟩]) 3).getD 0 = 100 ∧
    Int.tdiv (100 * 100) 100 = 100 ∧ (50 : Int) ≠ 100 := by
  refine ⟨by decide, by decide, by decide, by decide⟩

/-- Witness for the amended C2 on the same scenario: the persisted
withdrawable amount is `0 + 100 * 100 / 200 = 50`. -/
theorem c2_reward_prorata_total_stake_witness :
    ∃ db', TrySnapshotStakingPoolStatus ⟨2, 0, 7, 1000, fun _ => 50, fun _ => 50⟩
        [⟨4, 40, 3⟩, ⟨3, 30, 3⟩, ⟨2, 20, 9⟩]
        ⟨[(⟨100, 0⟩, ⟨100, 1, false, 7, .staking 3 100 9999, false⟩),
          (⟨101, 0⟩, ⟨100, 1, false, 5, .staking 3 100 9999, false⟩)],
         [((7, ⟨100, 0⟩), 100), ((5, ⟨101, 0⟩), 100)], [], [], [],
         [((7, ⟨100, 0⟩), 100), ((5, ⟨101, 0⟩), 100)],
         [((3, ⟨100, 0⟩), 100), ((3, ⟨101, 0⟩), 100)],
         some 10, [], [(20, [⟨3, ⟨100, 0⟩, 100⟩, ⟨8, ⟨100, 0⟩, 100⟩])],
         [((20, 3), [⟨5, 100, 0⟩])]⟩ = .ok db' ∧
      ∃ l, dbFind db'.poolUsers (40, 3) = some l ∧
        (⟨5, 100, 0 + Int.tdiv (100 * 100) 200⟩ : StakingPoolUser) ∈ l := by
  refine ⟨_, rfl, ?_⟩
  have h := c2_reward_prorata_total_stake ⟨2, 0, 7, 1000, fun _ => 50, fun _ => 50⟩
    ⟨4, 40, 3⟩ [⟨3, 30, 3⟩, ⟨2, 20, 9⟩]
    ⟨[(⟨100, 0⟩, ⟨100, 1, false, 7, .staking 3 100 9999, false⟩),
      (⟨101, 0⟩, ⟨100, 1, false, 5, .staking 3 100 9999, false⟩)],
     [((7, ⟨100, 0⟩), 100), ((5, ⟨101, 0⟩), 100)], [], [], [],
     [((7, ⟨100, 0⟩), 100), ((5, ⟨101, 0⟩), 100)],
     [((3, ⟨100, 0⟩), 100), ((3, ⟨101, 0⟩), 100)],
     some 10, [], [(20, [⟨3, ⟨100, 0⟩, 100⟩, ⟨8, ⟨100, 0⟩, 100⟩])],
     [((20, 3), [⟨5, 100, 0⟩])]⟩
    [(3, ⟨100, 0⟩)] [((3, 5), 100)] 3 5 100
    [⟨3, ⟨100, 0⟩, 100⟩, ⟨8, ⟨100, 0⟩, 100⟩] [⟨5, 100, 0⟩] ⟨5, 100, 0⟩ _
    (by decide) (by decide) (by decide) (by decide) (by decide) (by decide) (by decide)
    (by decide) (by decide) (by decide) (by decide) rfl
  exact h

/-! ## C5: when the prior withdrawable amount is carried forward -/

/-- C5 (amended): for a (pool, user) pair in the new epoch's accumulation with
an entry in the previous epoch's persisted user list, the prior withdrawable
amount is carried forward into the new snapshot exactly when it was below the
minimum-withdrawable threshold (no withdrawal coin was ever created for it)
OR the withdrawal coin at the deterministic outpoint derived from (prior
epoch hash, pool id, user id) is still present in the primary coin store; on
top of the carried amount the epoch reward share is added. -/
theorem c5_carry_forward_condition (P : SnapParams) (hd : Block) (tl : List Block)
    (db : DB) (en : List (AccountID × OutPoint))
    (stakes0 : List ((AccountID × AccountID) × Int)) (p u : AccountID) (s : Int)
    (prevPools : List StakingPool) (pl : List StakingPoolUser) (pu : StakingPoolUser)
    (db' : DB)
    (htrig : ¬ (hd.height - P.nSaturnEpockBlocks * 2 < P.nSaturnActiveHeight ∨
        Int.tmod hd.height P.nSaturnEpockBlocks ≠ 0))
    (hscan : scanStakingRecv P hd.height db = .ok (en, stakes0))
    (hs : dbFind (stakes0.filter (fun e => (dbFind en e.1.1).isSome)) (p, u) = some s)
    (hph : hd.height ≥ P.nSaturnActiveHeight + P.nSaturnEpockBlocks)
    (hlen : P.nSaturnEpockBlocks.toNat < (hd :: tl).length)
    (hprev : dbFind db.poolLists ((hd :: tl).get ⟨P.nSaturnEpockBlocks.toNat, hlen⟩).hash =
        some prevPools)
    (hne : prevPools ≠ [])
    (hpl : dbFind db.poolUsers
        (((hd :: tl).get ⟨P.nSaturnEpockBlocks.toNat, hlen⟩).hash, p) = some pl)
    (hplnd : (pl.map (fun x => x.accountID)).Nodup)
    (hpu : pu ∈ pl) (hpuid : pu.accountID = u)
    (hrun : TrySnapshotStakingPoolStatus P (hd :: tl) db = .ok db') :
    ∃ l, dbFind db'.poolUsers (hd.hash, p) = some l ∧
      (⟨u, s,
        (if pu.withdrawableAmount < P.minWithdrawableAmount ∨
            (dbFind db.coins (CreateStakePendingCoinOutPoint
              ((hd :: tl).get ⟨P.nSaturnEpockBlocks.toNat, hlen⟩).hash p
              pu.accountID)).isSome
         then pu.withdrawableAmount else 0) +
        (if 0 < (dbFind (epochRewards P (hd :: tl)) p).getD 0 ∧
            0 < (prevPools.map (fun x => x.stakeAmount)).sum
         then Int.tdiv ((dbFind (epochRewards P (hd :: tl)) p).getD 0 * pu.stakeAmount)
            ((prevPools.map (fun x => x.stakeAmount)).sum)
         else 0)⟩ : StakingPoolUser) ∈ l := by
  obtain ⟨l, hl, hmem⟩ := snapshot_user_entry P hd tl db en stakes0 p u s prevPools pl pu db'
    htrig hscan hs hph hlen hprev hne hpl hplnd hpu hpuid hrun
  refine ⟨l, hl, ?_⟩
  have hwd : (mergeUserStatus P db
      ((hd :: tl).get ⟨P.nSaturnEpockBlocks.toNat, hlen⟩).hash p
      ((dbFind (epochRewards P (hd :: tl)) p).getD 0)
      ((prevPools.map (fun x => x.stakeAmount)).sum) ⟨s, 0⟩ pu).withdrawableAmount =
      (if pu.withdrawableAmount < P.minWithdrawableAmount ∨
          (dbFind db.coins (CreateStakePendingCoinOutPoint
            ((hd :: tl).get ⟨P.nSaturnEpockBlocks.toNat, hlen⟩).hash p
            pu.accountID)).isSome
       then pu.withdrawableAmount else 0) +
      (if 0 < (dbFind (epochRewards P (hd :: tl)) p).getD 0 ∧
          0 < (prevPools.map (fun x => x.stakeAmount)).sum
       then Int.tdiv ((dbFind (epochRewards P (hd :: tl)) p).getD 0 * pu.stakeAmount)
          ((prevPools.map (fun x => x.stakeAmount)).sum)
       else 0) := by
    simp only [mergeUserStatus, CalcStakePoolUserReward]
    split_ifs <;> first | rfl | omega | tauto | (simp_all; omega)
  rw [← hwd]
  exact hmem

/-- Counterexample to C5 as stated: a prior withdrawable amount of `1`, below
the minimum-withdrawable threshold `1000`, is carried forward into the new
snapshot even though no withdrawal coin exists at the deterministic outpoint
— refuting "carried forward exactly when the withdrawal coin is still
present". -/
theorem c5_counterexample :
    (TrySnapshotStakingPoolStatus ⟨2, 0, 7, 1000, fun _ => 50, fun _ => 50⟩
        [⟨4, 40, 9⟩, ⟨3, 30, 9⟩, ⟨2, 20, 9⟩]
        ⟨[(⟨100, 0⟩, ⟨100, 1, false, 7, .staking 3 100 9999, false⟩),
          (⟨101, 0⟩, ⟨100, 1, false, 5, .staking 3 100 9999, false⟩)],
         [((7, ⟨100, 0⟩), 100), ((5, ⟨101, 0⟩), 100)], [], [], [],
         [((7, ⟨100, 0⟩), 100), ((5, ⟨101, 0⟩), 100)],
         [((3, ⟨100, 0⟩), 100), ((3, ⟨101, 0⟩), 100)],
         some 10, [], [(20, [⟨3, ⟨100, 0⟩, 100⟩])],
         [((20, 3), [⟨5, 100, 1⟩])]⟩).map
      (fun db' => dbFind db'.poolUsers (40, 3)) = .ok (some [⟨5, 100, 1⟩]) ∧
    dbFind
      (⟨[(⟨100, 0⟩, ⟨100, 1, false, 7, .staking 3 100 9999, false⟩),
         (⟨101, 0⟩, ⟨100, 1, false, 5, .staking 3 100 9999, false⟩)],
        [((7, ⟨100, 0⟩), 100), ((5, ⟨101, 0⟩), 100)], [], [], [],
        [((7, ⟨100, 0⟩), 100), ((5, ⟨101, 0⟩), 100)],
        [((3, ⟨100, 0⟩), 100), ((3, ⟨101, 0⟩), 100)],
        some 10, [], [(20, [⟨3, ⟨100, 0⟩, 100⟩])],
        [((20, 3), [⟨5, 100, 1⟩])]⟩ : DB).coins
      (CreateStakePendingCoinOutPoint 20 3 5) = Option.none ∧
    (1 : Int) ≠ 0 := by
  refine ⟨by decide, by decide, by decide⟩

/-- Witness for the amended C5 on the same scenario: the below-threshold prior
amount `1` is carried forward (and the zero reward adds nothing). -/
theorem c5_carry_forward_condition_witness :
    ∃ db', TrySnapshotStakingPoolStatus ⟨2, 0, 7, 1000, fun _ => 50, fun _ => 50⟩
        [⟨4, 40, 9⟩, ⟨3, 30, 9⟩, ⟨2, 20, 9⟩]
        ⟨[(⟨100, 0⟩, ⟨100, 1, false, 7, .staking 3 100 9999, false⟩),
          (⟨101, 0⟩, ⟨100, 1, false, 5, .staking 3 100 9999, false⟩)],
         [((7, ⟨100, 0⟩), 100), ((5, ⟨101, 0⟩), 100)], [], [], [],
         [((7, ⟨100, 0⟩), 100), ((5, ⟨101, 0⟩), 100)],
         [((3, ⟨100, 0⟩), 100), ((3, ⟨101, 0⟩), 100)],
         some 10, [], [(20, [⟨3, ⟨100, 0⟩, 100⟩])],
         [((20, 3), [⟨5, 100, 1⟩])]⟩ = .ok db' ∧
      ∃ l, dbFind db'.poolUsers (40, 3) = some l ∧
        (⟨5, 100, 1 + 0⟩ : StakingPoolUser) ∈ l := by
  refine ⟨_, rfl, ?_⟩
  have h := c5_carry_forward_condition ⟨2, 0, 7, 1000, fun _ => 50, fun _ => 50⟩
    ⟨4, 40, 9⟩ [⟨3, 30, 9⟩, ⟨2, 20, 9⟩]
    ⟨[(⟨100, 0⟩, ⟨100, 1, false, 7, .staking 3 100 9999, false⟩),
      (⟨101, 0⟩, ⟨100, 1, false, 5, .staking 3 100 9999, false⟩)],
     [((7, ⟨100, 0⟩), 100), ((5, ⟨101, 0⟩), 100)], [], [], [],
     [((7, ⟨100, 0⟩), 100), ((5, ⟨101, 0⟩), 100)],
     [((3, ⟨100, 0⟩), 100), ((3, ⟨101, 0⟩), 100)],
     some 10, [], [(20, [⟨3, ⟨100, 0⟩, 100⟩])],
     [((20, 3), [⟨5, 100, 1⟩])]⟩
    [(3, ⟨100, 0⟩)] [((3, 5), 100)] 3 5 100
    [⟨3, ⟨100, 0⟩, 100⟩] [⟨5, 100, 1⟩] ⟨5, 100, 1⟩ _
    (by decide) (by decide) (by decide) (by decide) (by decide) (by decide) (by decide)
    (by decide) (by decide) (by decide) (by decide) rfl
  exact h

/-! ## C6: snapshot determinism and canonical ordering -/

theorem sorted_perm_eq {α : Type} {r : α → α → Prop} :
    ∀ {l₁ l₂ : List α}, l₁.Perm l₂ → l₁.Sorted r → l₂.Sorted r →
      (∀ a ∈ l₁, ∀ b ∈ l₁, r a b → r b a → a = b) → l₁ = l₂ := by
  intro l₁
  induction l₁ with
  | nil =>
    intro l₂ hp _ _ _
    exact (hp.symm.eq_nil).symm
  | cons a t ih =>
    intro l₂ hp hs1 hs2 hanti
    cases l₂ with
    | nil => exact absurd hp.eq_nil (by simp)
    | cons b t₂ =>
      by_cases hab : a = b
      · subst hab
        have htail : t.Perm t₂ := hp.cons_inv
        have := ih htail (List.sorted_cons.mp hs1).2 (List.sorted_cons.mp hs2).2
          (fun x hx y hy => hanti x (List.mem_cons_of_mem _ hx) y (List.mem_cons_of_mem _ hy))
        rw [this]
      · exfalso
        have ha2 : a ∈ t₂ := by
          have := hp.subset (List.mem_cons_self a t)
          rcases List.mem_cons.mp this with h | h
          · exact absurd h hab
          · exact h
        have hb1 : b ∈ t := by
          have := hp.symm.subset (List.mem_cons_self b t₂)
          rcases List.mem_cons.mp this with h | h
          · exact absurd h.symm hab
          · exact h
        have rab : r a b := (List.sorted_cons.mp hs1).1 b hb1
        have rba : r b a := (List.sorted_cons.mp hs2).1 a ha2
        exact hab (hanti a (List.mem_cons_self a t) b (List.mem_cons_of_mem _ hb1) rab rba)

/-- The `std::sort` output over user entries with pairwise-distinct account
ids does not depend on the enumeration order of the accumulator map. -/
theorem sortPoolUsers_perm_eq (l₁ l₂ : List StakingPoolUser) (hperm : l₁.Perm l₂)
    (hnd : (l₁.map (fun x => x.accountID)).Nodup) :
    sortPoolUsers l₁ = sortPoolUsers l₂ := by
  have hp1 := List.perm_insertionSort userSortRel l₁
  have hp2 := List.perm_insertionSort userSortRel l₂
  apply sorted_perm_eq (hp1.trans (hperm.trans hp2.symm))
    (List.sorted_insertionSort userSortRel l₁) (List.sorted_insertionSort userSortRel l₂)
  intro x hx y hy hxy hyx
  have hx1 : x ∈ l₁ := hp1.subset hx
  have hy1 : y ∈ l₁ := hp1.subset hy
  have hid : x.accountID = y.accountID := by
    simp only [userSortRel] at hxy hyx
    rcases hxy with h1 | ⟨e1, l1⟩
    · rcases hyx with h2 | ⟨e2, l2⟩
      · exact absurd h1 (not_lt.mpr (le_of_lt h2))
      · rw [e2] at h1
        exact absurd h1 (lt_irrefl _)
    · rcases hyx with h2 | ⟨e2, l2⟩
      · rw [e1] at h2
        exact absurd h2 (lt_irrefl _)
      · exact Nat.le_antisymm l1 l2
  exact List.inj_on_of_nodup_map hnd hx1 hy1 hid

theorem sortPools_perm_eq (l₁ l₂ : List StakingPool) (hperm : l₁.Perm l₂)
    (hnd : (l₁.map (fun x => x.poolID)).Nodup) :
    sortPools l₁ = sortPools l₂ := by
  have hp1 := List.perm_insertionSort poolSortRel l₁
  have hp2 := List.perm_insertionSort poolSortRel l₂
  apply sorted_perm_eq (hp1.trans (hperm.trans hp2.symm))
    (List.sorted_insertionSort poolSortRel l₁) (List.sorted_insertionSort poolSortRel l₂)
  intro x hx y hy hxy hyx
  have hx1 : x ∈ l₁ := hp1.subset hx
  have hy1 : y ∈ l₁ := hp1.subset hy
  have hid : x.poolID = y.poolID := by
    simp only [poolSortRel] at hxy hyx
    rcases hxy with h1 | ⟨e1, l1⟩
    · rcases hyx with h2 | ⟨e2, l2⟩
      · exact absurd h1 (not_lt.mpr (le_of_lt h2))
      · rw [e2] at h1
        exact absurd h1 (lt_irrefl _)
    · rcases hyx with h2 | ⟨e2, l2⟩
      · rw [e1] at h2
        exact absurd h2 (lt_irrefl _)
      · exact Nat.le_antisymm l1 l2
  exact List.inj_on_of_nodup_map hnd hx1 hy1 hid

/-- C6: a triggered snapshot persists a pool list sorted by stake descending
with ties broken by pool id ascending, and per-pool user lists sorted by
stake descending with ties broken by account id ascending; the sorted lists
are independent of the enumeration order of the internal accumulator maps
(the only nondeterminism in the source), so two runs on identical persisted
state persist byte-identical lists; all amounts are exact `Int` arithmetic
with `Int.tdiv` truncation by construction. -/
theorem c6_snapshot_deterministic_sorted (P : SnapParams) (hd : Block) (tl : List Block)
    (db : DB) (en : List (AccountID × OutPoint))
    (stakes0 : List ((AccountID × AccountID) × Int)) (db' : DB)
    (htrig : ¬ (hd.height - P.nSaturnEpockBlocks * 2 < P.nSaturnActiveHeight ∨
        Int.tmod hd.height P.nSaturnEpockBlocks ≠ 0))
    (hscan : scanStakingRecv P hd.height db = .ok (en, stakes0))
    (hrun : TrySnapshotStakingPoolStatus P (hd :: tl) db = .ok db') :
    (∃ ps, dbFind db'.poolLists hd.hash = some ps ∧ ps.Sorted poolSortRel) ∧
    (∀ p, p ∈ poolKeysOf (stakes0.filter (fun e => (dbFind en e.1.1).isSome)) →
      ∃ l, dbFind db'.poolUsers (hd.hash, p) = some l ∧ l.Sorted userSortRel) ∧
    (∀ l₁ l₂ : List StakingPoolUser, l₁.Perm l₂ →
      (l₁.map (fun x => x.accountID)).Nodup → sortPoolUsers l₁ = sortPoolUsers l₂) ∧
    (∀ q₁ q₂ : List StakingPool, q₁.Perm q₂ →
      (q₁.map (fun x => x.poolID)).Nodup → sortPools q₁ = sortPools q₂) := by
  simp only [TrySnapshotStakingPoolStatus] at hrun
  rw [if_neg htrig, except_bind_ok] at hrun
  obtain ⟨sc, hsc, hrun⟩ := hrun
  rw [hscan] at hsc
  have hsc2 := Except.ok.inj hsc
  subst hsc2
  rw [except_bind_ok] at hrun
  obtain ⟨m, -, hrun⟩ := hrun
  have hdb' := Except.ok.inj hrun
  subst hdb'
  refine ⟨⟨_, snapshotWriteAll_poolLists P hd.hash hd.height en _ m db, ?_⟩, ?_,
    sortPoolUsers_perm_eq, sortPools_perm_eq⟩
  · unfold snapshotPoolList sortPools
    exact List.sorted_insertionSort poolSortRel _
  · intro p hp
    refine ⟨_, snapshotWriteAll_poolUsers P hd.hash hd.height en _ m db p hp, ?_⟩
    unfold sortPoolUsers
    exact List.sorted_insertionSort userSortRel _

/-- Witness for C6 on a concrete triggered snapshot. -/
theorem c6_snapshot_deterministic_sorted_witness :
    ∃ db', TrySnapshotStakingPoolStatus ⟨2, 0, 7, 1000, fun _ => 50, fun _ => 50⟩
        [⟨4, 40, 3⟩, ⟨3, 30, 3⟩, ⟨2, 20, 9⟩]
        ⟨[(⟨100, 0⟩, ⟨100, 1, false, 7, .staking 3 100 9999, false⟩),
          (⟨101, 0⟩, ⟨100, 1, false, 5, .staking 3 100 9999, false⟩)],
         [((7, ⟨100, 0⟩), 100), ((5, ⟨101, 0⟩), 100)], [], [], [],
         [((7, ⟨100, 0⟩), 100), ((5, ⟨101, 0⟩), 100)],
         [((3, ⟨100, 0⟩), 100), ((3, ⟨101, 0⟩), 100)],
         some 10, [], [(20, [⟨3, ⟨100, 0⟩, 100⟩, ⟨8, ⟨100, 0⟩, 100⟩])],
         [((20, 3), [⟨5, 100, 0⟩])]⟩ = .ok db' ∧
      ∃ ps, dbFind db'.poolLists 40 = some ps ∧ ps.Sorted poolSortRel := by
  refine ⟨_, rfl, ?_⟩
  exact (c6_snapshot_deterministic_sorted ⟨2, 0, 7, 1000, fun _ => 50, fun _ => 50⟩
    ⟨4, 40, 3⟩ [⟨3, 30, 3⟩, ⟨2, 20, 9⟩]
    ⟨[(⟨100, 0⟩, ⟨100, 1, false, 7, .staking 3 100 9999, false⟩),
      (⟨101, 0⟩, ⟨100, 1, false, 5, .staking 3 100 9999, false⟩)],
     [((7, ⟨100, 0⟩), 100), ((5, ⟨101, 0⟩), 100)], [], [], [],
     [((7, ⟨100, 0⟩), 100), ((5, ⟨101, 0⟩), 100)],
     [((3, ⟨100, 0⟩), 100), ((3, ⟨101, 0⟩), 100)],
     some 10, [], [(20, [⟨3, ⟨100, 0⟩, 100⟩, ⟨8, ⟨100, 0⟩, 100⟩])],
     [((20, 3), [⟨5, 100, 0⟩])]⟩
    [(3, ⟨100, 0⟩)] [((3, 5), 100)] _ (by decide) (by decide) rfl).1

/-! ## C10: which pools are persisted -/

/-- A staking-receive entry whose coin registers `p` as an enabled pool: sent
by the staking genesis account with at least the minimum registration
amount. -/
def enablesPool (P : SnapParams) (db : DB) (p : AccountID)
    (ent : (AccountID × OutPoint) × Int) : Prop :=
  ∃ c, dbFind db.coins ent.1.2 = some c ∧ c.owner = P.SaturnStakingGenesisID ∧
    ¬ (c.value < P.GetInitialStakingPoolAmount c.height) ∧
    ∃ amt lock, c.payload = .staking p amt lock

/-- A staking-receive entry whose coin is an unexpired staking deposit from
the non-genesis account `u` to the pool `p`. -/
def depositsTo (P : SnapParams) (epochHeight : Int) (db : DB) (p u : AccountID)
    (ent : (AccountID × OutPoint) × Int) : Prop :=
  ∃ c amt lock, dbFind db.coins ent.1.2 = some c ∧ c.payload = .staking p amt lock ∧
    c.owner ≠ P.SaturnStakingGenesisID ∧ c.owner = u ∧
    ¬ ((c.height + lock) % 2 ^ 32 < epochHeight.toNat % 2 ^ 32)

theorem scanStakingEntry_ok_cases {P : SnapParams} {h : Int} {db : DB}
    {acc acc' : List (AccountID × OutPoint) × List ((AccountID × AccountID) × Int)}
    {ent : (AccountID × OutPoint) × Int}
    (hstep : scanStakingEntry P h db acc ent = .ok acc') :
    ∃ c recv amt lock, dbFind db.coins ent.1.2 = some c ∧
      c.payload = .staking recv amt lock ∧
      ((c.owner = P.SaturnStakingGenesisID ∧
          c.value < P.GetInitialStakingPoolAmount c.height ∧ acc' = acc) ∨
       (c.owner = P.SaturnStakingGenesisID ∧
          ¬ c.value < P.GetInitialStakingPoolAmount c.height ∧
          acc' = (dbInsert recv ent.1.2 acc.1, acc.2)) ∨
       (c.owner ≠ P.SaturnStakingGenesisID ∧
          (c.height + lock) % 2 ^ 32 < h.toNat % 2 ^ 32 ∧ acc' = acc) ∨
       (c.owner ≠ P.SaturnStakingGenesisID ∧
          ¬ (c.height + lock) % 2 ^ 32 < h.toNat % 2 ^ 32 ∧
          acc' = (acc.1, dbAdd (recv, c.owner) amt acc.2))) := by
  unfold scanStakingEntry at hstep
  split at hstep
  · exact Except.noConfusion hstep
  · rename_i c hc
    split at hstep
    · rename_i recv amt lock hp
      refine ⟨c, recv, amt, lock, hc, hp, ?_⟩
      split_ifs at hstep with hg hv hl
      · exact Or.inl ⟨hg, hv, (Except.ok.inj hstep).symm⟩
      · exact Or.inr (Or.inl ⟨hg, hv, (Except.ok.inj hstep).symm⟩)
      · exact Or.inr (Or.inr (Or.inl ⟨hg, hl, (Except.ok.inj hstep).symm⟩))
      · exact Or.inr (Or.inr (Or.inr ⟨hg, hl, (Except.ok.inj hstep).symm⟩))
    · exact Except.noConfusion hstep

theorem scanFold_enabled {P : SnapParams} {h : Int} {db : DB} (p : AccountID) :
    ∀ (l : List ((AccountID × OutPoint) × Int))
      (acc r : List (AccountID × OutPoint) × List ((AccountID × AccountID) × Int)),
      l.foldlM (scanStakingEntry P h db) acc = .ok r →
      ((dbFind r.1 p).isSome ↔
        (dbFind acc.1 p).isSome ∨ ∃ ent ∈ l, enablesPool P db p ent) := by
  intro l
  induction l with
  | nil =>
    intro acc r hr
    have hr2 : (Except.ok acc : Except Unit _) = Except.ok r := by
      simpa [List.foldlM, pure, Except.pure] using hr
    rw [← Except.ok.inj hr2]
    simp
  | cons ent rest ih =>
    intro acc r hr
    rw [List.foldlM_cons, except_bind_ok] at hr
    obtain ⟨acc', hstep, hrest⟩ := hr
    obtain ⟨c, recv, amt, lock, hc, hp, hcases⟩ := scanStakingEntry_ok_cases hstep
    rw [ih acc' r hrest]
    have hent : enablesPool P db p ent ↔
        (c.owner = P.SaturnStakingGenesisID ∧
          ¬ c.value < P.GetInitialStakingPoolAmount c.height ∧ recv = p) := by
      constructor
      · rintro ⟨c2, hc2, hown, hval, amt2, lock2, hp2⟩
        rw [hc] at hc2
        have hcc := Option.some.inj hc2
        subst hcc
        rw [hp] at hp2
        exact ⟨hown, hval, ((Payload.staking.injEq _ _ _ _ _ _).mp hp2.symm |>.1).symm⟩
      · rintro ⟨hown, hval, hrecv⟩
        exact ⟨c, hc, hown, hval, amt, lock, hrecv ▸ hp⟩
    rcases hcases with ⟨hg, hv, ha⟩ | ⟨hg, hv, ha⟩ | ⟨hg, hl, ha⟩ | ⟨hg, hl, ha⟩
    · subst ha
      constructor
      · rintro (hs | ⟨e, he, hee⟩)
        · exact Or.inl hs
        · exact Or.inr ⟨e, List.mem_cons_of_mem _ he, hee⟩
      · rintro (hs | ⟨e, he, hee⟩)
        · exact Or.inl hs
        · rcases List.mem_cons.mp he with he1 | he1
          · subst he1
            rw [hent] at hee
            exact absurd hee.2.1 (by simp [hv])
          · exact Or.inr ⟨e, he1, hee⟩
    · rw [ha]
      simp only [dbFind_insert]
      constructor
      · rintro (hs | ⟨e, he, hee⟩)
        · by_cases hrp : recv = p
          · exact Or.inr ⟨ent, List.mem_cons_self _ _, hent.mpr ⟨hg, hv, hrp⟩⟩
          · rw [if_neg (fun hc2 => hrp hc2.symm)] at hs
            exact Or.inl hs
        · exact Or.inr ⟨e, List.mem_cons_of_mem _ he, hee⟩
      · rintro (hs | ⟨e, he, hee⟩)
        · left
          by_cases hrp : p = recv
          · rw [if_pos hrp]
            rfl
          · rw [if_neg hrp]
            exact hs
        · rcases List.mem_cons.mp he with he1 | he1
          · subst he1
            rw [hent] at hee
            left
            rw [if_pos hee.2.2.symm]
            rfl
          · exact Or.inr ⟨e, he1, hee⟩
    · subst ha
      constructor
      · rintro (hs | ⟨e, he, hee⟩)
        · exact Or.inl hs
        · exact Or.inr ⟨e, List.mem_cons_of_mem _ he, hee⟩
      · rintro (hs | ⟨e, he, hee⟩)
        · exact Or.inl hs
        · rcases List.mem_cons.mp he with he1 | he1
          · subst he1
            rw [hent] at hee
            exact absurd hee.1 hg
          · exact Or.inr ⟨e, he1, hee⟩
    · rw [ha]
      constructor
      · rintro (hs | ⟨e, he, hee⟩)
        · exact Or.inl hs
        · exact Or.inr ⟨e, List.mem_cons_of_mem _ he, hee⟩
      · rintro (hs | ⟨e, he, hee⟩)
        · exact Or.inl hs
        · rcases List.mem_cons.mp he with he1 | he1
          · subst he1
            rw [hent] at hee
            exact absurd hee.1 hg
          · exact Or.inr ⟨e, he1, hee⟩

theorem scanFold_deposit {P : SnapParams} {h : Int} {db : DB} (p u : AccountID) :
    ∀ (l : List ((AccountID × OutPoint) × Int))
      (acc r : List (AccountID × OutPoint) × List ((AccountID × AccountID) × Int)),
      l.foldlM (scanStakingEntry P h db) acc = .ok r →
      ((dbFind r.2 (p, u)).isSome ↔
        (dbFind acc.2 (p, u)).isSome ∨ ∃ ent ∈ l, depositsTo P h db p u ent) := by
  intro l
  induction l with
  | nil =>
    intro acc r hr
    have hr2 : (Except.ok acc : Except Unit _) = Except.ok r := by
      simpa [List.foldlM, pure, Except.pure] using hr
    rw [← Except.ok.inj hr2]
    simp
  | cons ent rest ih =>
    intro acc r hr
    rw [List.foldlM_cons, except_bind_ok] at hr
    obtain ⟨acc', hstep, hrest⟩ := hr
    obtain ⟨c, recv, amt, lock, hc, hp, hcases⟩ := scanStakingEntry_ok_cases hstep
    rw [ih acc' r hrest]
    have hent : depositsTo P h db p u ent ↔
        (c.owner ≠ P.SaturnStakingGenesisID ∧ c.owner = u ∧
          ¬ (c.height + lock) % 2 ^ 32 < h.toNat % 2 ^ 32 ∧ recv = p) := by
      constructor
      · rintro ⟨c2, amt2, lock2, hc2, hp2, hng, hou, hlk⟩
        rw [hc] at hc2
        have hcc := Option.some.inj hc2
        subst hcc
        rw [hp] at hp2
        obtain ⟨hpr, _, hlr⟩ := (Payload.staking.injEq _ _ _ _ _ _).mp hp2
        subst hlr
        exact ⟨hng, hou, hlk, hpr⟩
      · rintro ⟨hng, hou, hlk, hrecv⟩
        exact ⟨c, amt, lock, hc, hrecv ▸ hp, hng, hou, hlk⟩
    have hskip : ∀ (hno : ¬ (c.owner ≠ P.SaturnStakingGenesisID ∧ c.owner = u ∧
          ¬ (c.height + lock) % 2 ^ 32 < h.toNat % 2 ^ 32 ∧ recv = p)),
        ((dbFind acc.2 (p, u)).isSome ∨ ∃ e ∈ rest, depositsTo P h db p u e) ↔
        ((dbFind acc.2 (p, u)).isSome ∨ ∃ e ∈ ent :: rest, depositsTo P h db p u e) := by
      intro hno
      constructor
      · rintro (hs | ⟨e, he, hee⟩)
        · exact Or.inl hs
        · exact Or.inr ⟨e, List.mem_cons_of_mem _ he, hee⟩
      · rintro (hs | ⟨e, he, hee⟩)
        · exact Or.inl hs
        · rcases List.mem_cons.mp he with he1 | he1
          · subst he1
            exact absurd (hent.mp hee) hno
          · exact Or.inr ⟨e, he1, hee⟩
    rcases hcases with ⟨hg, _, ha⟩ | ⟨hg, _, ha⟩ | ⟨hg, hl, ha⟩ | ⟨hg, hl, ha⟩
    · subst ha
      exact hskip (fun hx => hx.1 hg)
    · have ha2 : acc'.2 = acc.2 := by rw [ha]
      rw [ha2]
      exact hskip (fun hx => hx.1 hg)
    · subst ha
      exact hskip (fun hx => hx.2.2.1 hl)
    · have ha2 : acc'.2 = dbAdd (recv, c.owner) amt acc.2 := by rw [ha]
      rw [ha2, dbFind_add]
      constructor
      · rintro (hs | ⟨e, he, hee⟩)
        · by_cases hk : (p, u) = (recv, c.owner)
          · have hpr : recv = p := (Prod.mk.injEq _ _ _ _ |>.mp hk).1.symm
            have hou : c.owner = u := (Prod.mk.injEq _ _ _ _ |>.mp hk).2.symm
            exact Or.inr ⟨ent, List.mem_cons_self _ _, hent.mpr ⟨hg, hou, hl, hpr⟩⟩
          · rw [if_neg hk] at hs
            exact Or.inl hs
        · exact Or.inr ⟨e, List.mem_cons_of_mem _ he, hee⟩
      · rintro (hs | ⟨e, he, hee⟩)
        · left
          by_cases hk : (p, u) = (recv, c.owner)
          · rw [if_pos hk]
            rfl
          · rw [if_neg hk]
            exact hs
        · rcases List.mem_cons.mp he with he1 | he1
          · subst he1
            obtain ⟨_, hou, _, hpr⟩ := hent.mp hee
            left
            rw [if_pos (by rw [hpr, hou])]
            rfl
          · exact Or.inr ⟨e, he1, hee⟩

theorem isSome_dbFind_of_mem {κ ν : Type} [DecidableEq κ] {m : List (κ × ν)}
    {e : κ × ν} (h : e ∈ m) : (dbFind m e.1).isSome := by
  induction m with
  | nil => exact absurd h (List.not_mem_nil e)
  | cons a t ih =>
    rw [dbFind_cons]
    by_cases hk : a.1 = e.1
    · rw [if_pos hk]
      rfl
    · rw [if_neg hk]
      rcases List.mem_cons.mp h with h1 | h1
      · exact absurd (congrArg Prod.fst h1.symm) hk
      · exact ih h1

theorem mem_poolKeysOf_iff {α : Type} {l : List ((AccountID × AccountID) × α)}
    {q : AccountID} : q ∈ poolKeysOf l ↔ ∃ e ∈ l, e.1.1 = q := by
  unfold poolKeysOf
  rw [List.mem_dedup, List.mem_map]

/-- C10: in a persisted epoch snapshot, every pool in the persisted pool list
is enabled (its registration coin comes from the staking genesis account with
at least the minimum registration amount) and has at least one unexpired
staking deposit from a non-genesis account; a pool with no such accumulated
deposit — whether or not it is enabled — is omitted from the persisted pool
list, and its user-list slot for the new epoch's hash is untouched. -/
theorem c10_pool_list_membership (P : SnapParams) (hd : Block) (tl : List Block)
    (db db' : DB) (pools : List StakingPool)
    (htrig : ¬ (hd.height - P.nSaturnEpockBlocks * 2 < P.nSaturnActiveHeight ∨
        Int.tmod hd.height P.nSaturnEpockBlocks ≠ 0))
    (hrun : TrySnapshotStakingPoolStatus P (hd :: tl) db = .ok db')
    (hpools : dbFind db'.poolLists hd.hash = some pools) :
    (∀ pool ∈ pools,
        (∃ ent ∈ db.stakingRecvIdx, enablesPool P db pool.poolID ent) ∧
        (∃ ent ∈ db.stakingRecvIdx, ∃ u, depositsTo P hd.height db pool.poolID u ent)) ∧
    (∀ p : AccountID,
        (¬ ∃ ent ∈ db.stakingRecvIdx, ∃ u, depositsTo P hd.height db p u ent) →
        (∀ pool ∈ pools, pool.poolID ≠ p) ∧
        dbFind db'.poolUsers (hd.hash, p) = dbFind db.poolUsers (hd.hash, p)) := by
  simp only [TrySnapshotStakingPoolStatus] at hrun
  rw [if_neg htrig, except_bind_ok] at hrun
  obtain ⟨sc, hsc, hrun⟩ := hrun
  obtain ⟨en, stakes0⟩ := sc
  rw [except_bind_ok] at hrun
  obtain ⟨m, _, hrun⟩ := hrun
  have hdb' := Except.ok.inj hrun
  subst hdb'
  rw [snapshotWriteAll_poolLists] at hpools
  have hpools2 := Option.some.inj hpools
  subst hpools2
  have hen : ∀ q, (dbFind en q).isSome ↔
      ∃ ent ∈ db.stakingRecvIdx, enablesPool P db q ent := by
    intro q
    have hc := scanFold_enabled q db.stakingRecvIdx ([], []) (en, stakes0) hsc
    simpa [dbFind] using hc
  have hst : ∀ q v, (dbFind stakes0 (q, v)).isSome ↔
      ∃ ent ∈ db.stakingRecvIdx, depositsTo P hd.height db q v ent := by
    intro q v
    have hc := scanFold_deposit q v db.stakingRecvIdx ([], []) (en, stakes0) hsc
    simpa [dbFind] using hc
  have hkey : ∀ q, q ∈ poolKeysOf (stakes0.filter (fun e => (dbFind en e.1.1).isSome)) ↔
      ((∃ ent ∈ db.stakingRecvIdx, enablesPool P db q ent) ∧
       ∃ ent ∈ db.stakingRecvIdx, ∃ u, depositsTo P hd.height db q u ent) := by
    intro q
    rw [mem_poolKeysOf_iff]
    constructor
    · rintro ⟨e, he, heq⟩
      have hef := List.mem_filter.mp he
      have hsm : (dbFind stakes0 e.1).isSome := isSome_dbFind_of_mem hef.1
      have hsm2 : (dbFind stakes0 (q, e.1.2)).isSome := by
        rw [← heq]
        exact hsm
      obtain ⟨ent, hm1, hm2⟩ := (hst q e.1.2).mp hsm2
      constructor
      · apply (hen q).mp
        rw [← heq]
        exact hef.2
      · exact ⟨ent, hm1, e.1.2, hm2⟩
    · rintro ⟨hena, ent, hentm, u, hdep⟩
      have hsm : (dbFind stakes0 (q, u)).isSome := (hst q u).mpr ⟨ent, hentm, hdep⟩
      obtain ⟨s, hsv⟩ := Option.isSome_iff_exists.mp hsm
      refine ⟨((q, u), s), List.mem_filter.mpr ⟨dbFind_some_mem hsv, ?_⟩, rfl⟩
      exact (hen q).mpr hena
  have hmemp : ∀ pool : StakingPool,
      pool ∈ snapshotPoolList en m (stakes0.filter (fun e => (dbFind en e.1.1).isSome)) →
      ∃ q ∈ poolKeysOf (stakes0.filter (fun e => (dbFind en e.1.1).isSome)),
        pool.poolID = q := by
    intro pool hp
    unfold snapshotPoolList sortPools at hp
    have hp2 := (List.Perm.mem_iff (List.perm_insertionSort _ _)).mp hp
    obtain ⟨q, hq, hqe⟩ := List.mem_map.mp hp2
    exact ⟨q, hq, congrArg StakingPool.poolID hqe.symm⟩
  constructor
  · intro pool hp
    obtain ⟨q, hq, hqe⟩ := hmemp pool hp
    rw [hqe]
    exact (hkey q).mp hq
  · intro p hno
    have hnotk : p ∉ poolKeysOf (stakes0.filter (fun e => (dbFind en e.1.1).isSome)) := by
      intro hc
      exact hno ((hkey p).mp hc).2
    constructor
    · intro pool hp hpe
      obtain ⟨q, hq, hqe⟩ := hmemp pool hp
      rw [hpe] at hqe
      rw [← hqe] at hq
      exact hnotk hq
    · unfold snapshotWriteAll
      simp only
      exact writeFold_poolUsers_other P hd.hash hd.height en m p _ (db, []) hnotk

/-- Witness: an empty store at a triggering height persists an empty pool
list; every pool id is (vacuously) absent with its user slot untouched. -/
theorem c10_pool_list_membership_witness :
    (∀ pool ∈ ([] : List StakingPool),
        (∃ ent ∈ ([] : List ((AccountID × OutPoint) × Int)),
          enablesPool ⟨2, 0, 7, 1, fun _ => 50, fun _ => 50⟩
            ⟨[], [], [], [], [], [], [], some 9, [], [], []⟩ pool.poolID ent) ∧
        (∃ ent ∈ ([] : List ((AccountID × OutPoint) × Int)), ∃ u,
          depositsTo ⟨2, 0, 7, 1, fun _ => 50, fun _ => 50⟩ 4
            ⟨[], [], [], [], [], [], [], some 9, [], [], []⟩ pool.poolID u ent)) ∧
    (∀ p : AccountID,
        (¬ ∃ ent ∈ ([] : List ((AccountID × OutPoint) × Int)), ∃ u,
          depositsTo ⟨2, 0, 7, 1, fun _ => 50, fun _ => 50⟩ 4
            ⟨[], [], [], [], [], [], [], some 9, [], [], []⟩ p u ent) →
        (∀ pool ∈ ([] : List StakingPool), pool.poolID ≠ p) ∧
        dbFind ([] : List ((Hash × AccountID) × List StakingPoolUser)) ((40 : Hash), p) =
          dbFind ([] : List ((Hash × AccountID) × List StakingPoolUser)) ((40 : Hash), p)) :=
  c10_pool_list_membership ⟨2, 0, 7, 1, fun _ => 50, fun _ => 50⟩ ⟨4, 40, 3⟩
    [⟨3, 30, 3⟩, ⟨2, 20, 9⟩] ⟨[], [], [], [], [], [], [], some 9, [], [], []⟩
    ⟨[], [], [], [], [], [], [], some 9, [], [(40, [])], []⟩ [] (by decide) rfl rfl

/-! ## C1: index consistency across `BatchWrite` -/

/-- Counterexample to C1 as stated: a store satisfying the index-consistency
invariant commits an EMPTY delta at an epoch boundary; the snapshot engine
writes the synthetic claimable coin for a user whose withdrawable share (50)
meets the minimum-withdrawable threshold (1) directly into the primary coin
store with NO account-index record (src/txdb.cpp 1110 appends only the coin
write), so the committed store has a live, non-null-owner coin with no index
records. -/
theorem c1_counterexample :
    IndexConsistent ⟨[(⟨100, 0⟩, ⟨100, 1, false, 7, .staking 3 100 9999, false⟩),
        (⟨101, 0⟩, ⟨100, 1, false, 5, .staking 3 100 9999, false⟩)],
      [((7, ⟨100, 0⟩), 100), ((5, ⟨101, 0⟩), 100)], [], [], [],
      [((7, ⟨100, 0⟩), 100), ((5, ⟨101, 0⟩), 100)],
      [((3, ⟨100, 0⟩), 100), ((3, ⟨101, 0⟩), 100)],
      some 10, [], [(20, [⟨3, ⟨100, 0⟩, 100⟩, ⟨8, ⟨100, 0⟩, 100⟩])],
      [((20, 3), [⟨5, 100, 0⟩])]⟩ ∧
    (BatchWrite ⟨2, 0, 7, 1, fun _ => 50, fun _ => 50⟩
        [⟨4, 40, 3⟩, ⟨3, 30, 3⟩, ⟨2, 20, 9⟩] (fun _ => false) [] 40
        ⟨[(⟨100, 0⟩, ⟨100, 1, false, 7, .staking 3 100 9999, false⟩),
          (⟨101, 0⟩, ⟨100, 1, false, 5, .staking 3 100 9999, false⟩)],
        [((7, ⟨100, 0⟩), 100), ((5, ⟨101, 0⟩), 100)], [], [], [],
        [((7, ⟨100, 0⟩), 100), ((5, ⟨101, 0⟩), 100)],
        [((3, ⟨100, 0⟩), 100), ((3, ⟨101, 0⟩), 100)],
        some 10, [], [(20, [⟨3, ⟨100, 0⟩, 100⟩, ⟨8, ⟨100, 0⟩, 100⟩])],
        [((20, 3), [⟨5, 100, 0⟩])]⟩).map
      (fun db2 => decide (IndexConsistent db2)) = .ok false :=
  ⟨by decide, by decide⟩

/-- The primary store after one delta entry's batched mutations. -/
def coinsAfter (o : OutPoint) (e : CacheEntry) (db : DB) : List (OutPoint × Coin) :=
  if e.dirty = true then
    (if e.coin.spent = true then dbErase o db.coins else dbInsert o e.coin db.coins)
  else db.coins

/-- The account index after one delta entry's batched mutations. -/
def coinIndexAfter (o : OutPoint) (e : CacheEntry) (db : DB) :
    List ((AccountID × OutPoint) × Int) :=
  if e.dirty = true ∧ e.coin.owner ≠ 0 then
    (if e.coin.spent = true then dbErase (e.coin.owner, o) db.coinIndex
     else dbInsert (e.coin.owner, o) e.coin.value db.coinIndex)
  else db.coinIndex

/-- The bind-plotter index after one delta entry's batched mutations. -/
def bindIndexAfter (o : OutPoint) (e : CacheEntry) (db : DB) :
    List ((AccountID × OutPoint) × (Nat × Nat)) :=
  if e.dirty = true ∧ e.coin.owner ≠ 0 ∧ e.coin.isBindPlotter = true then
    (if e.coin.spent = true then dbErase (e.coin.owner, o) db.bindIndex
     else dbInsert (e.coin.owner, o) (e.coin.payload.bindId, e.coin.height) db.bindIndex)
  else db.bindIndex

/-- The point send index after one delta entry's batched mutations. -/
def pointSendIdxAfter (o : OutPoint) (e : CacheEntry) (db : DB) :
    List ((AccountID × OutPoint) × Int) :=
  if e.dirty = true ∧ e.coin.owner ≠ 0 ∧ e.coin.isPoint = true then
    (if e.coin.spent = true then dbErase (e.coin.owner, o) db.pointSendIdx
     else dbInsert (e.coin.owner, o) e.coin.value db.pointSendIdx)
  else db.pointSendIdx

/-- The point receive index after one delta entry's batched mutations. -/
def pointRecvIdxAfter (o : OutPoint) (e : CacheEntry) (db : DB) :
    List ((AccountID × OutPoint) × Int) :=
  if e.dirty = true ∧ e.coin.owner ≠ 0 ∧ e.coin.isPoint = true then
    (if e.coin.spent = true then dbErase (e.coin.payload.pointReceiver, o) db.pointRecvIdx
     else dbInsert (e.coin.payload.pointReceiver, o) e.coin.payload.pointAmount db.pointRecvIdx)
  else db.pointRecvIdx

/-- The staking send index after one delta entry's batched mutations. -/
def stakingSendIdxAfter (o : OutPoint) (e : CacheEntry) (db : DB) :
    List ((AccountID × OutPoint) × Int) :=
  if e.dirty = true ∧ e.coin.owner ≠ 0 ∧ e.coin.isStaking = true then
    (if e.coin.spent = true then dbErase (e.coin.owner, o) db.stakingSendIdx
     else dbInsert (e.coin.owner, o) e.coin.value db.stakingSendIdx)
  else db.stakingSendIdx

/-- The staking receive index after one delta entry's batched mutations. -/
def stakingRecvIdxAfter (o : OutPoint) (e : CacheEntry) (db : DB) :
    List ((AccountID × OutPoint) × Int) :=
  if e.dirty = true ∧ e.coin.owner ≠ 0 ∧ e.coin.isStaking = true then
    (if e.coin.spent = true then dbErase (e.coin.payload.stakingReceiver, o) db.stakingRecvIdx
     else dbInsert (e.coin.payload.stakingReceiver, o) e.coin.payload.stakingAmount
       db.stakingRecvIdx)
  else db.stakingRecvIdx

/-- The store after one delta entry's batched mutations: the seven coin and
index columns move, the tip, marker and snapshot columns do not. -/
def dbAfterEntry (o : OutPoint) (e : CacheEntry) (db : DB) : DB :=
  { db with
    coins := coinsAfter o e db
    coinIndex := coinIndexAfter o e db
    bindIndex := bindIndexAfter o e db
    pointSendIdx := pointSendIdxAfter o e db
    pointRecvIdx := pointRecvIdxAfter o e db
    stakingSendIdx := stakingSendIdxAfter o e db
    stakingRecvIdx := stakingRecvIdxAfter o e db }

theorem applyOps_coinOps_eq (o : OutPoint) (e : CacheEntry) (db : DB) :
    applyOps (coinOps o e) db = dbAfterEntry o e db := by
  obtain ⟨⟨v, ht, cb, ow, pl, sp⟩, d⟩ := e
  cases d <;> cases sp <;> cases pl <;> by_cases h0 : ow = 0 <;>
    simp [coinOps, applyOps, applyOp, dbAfterEntry, coinsAfter, coinIndexAfter,
      bindIndexAfter, pointSendIdxAfter, pointRecvIdxAfter, stakingSendIdxAfter,
      stakingRecvIdxAfter, Coin.isBindPlotter, Coin.isPoint, Coin.isStaking,
      Payload.bindId, Payload.pointReceiver, Payload.pointAmount,
      Payload.stakingReceiver, Payload.stakingAmount, h0]

/-- All seven mutable columns have unique keys. -/
def NodupAll (db : DB) : Prop :=
  NodupKeys db.coins ∧ NodupKeys db.coinIndex ∧ NodupKeys db.bindIndex ∧
  NodupKeys db.pointSendIdx ∧ NodupKeys db.pointRecvIdx ∧
  NodupKeys db.stakingSendIdx ∧ NodupKeys db.stakingRecvIdx

/-- Every stored coin is live. -/
def SpentFree (db : DB) : Prop :=
  ∀ e ∈ db.coins, e.2.spent = false

/-- Pointwise form of index consistency: at every key, each index column reads
exactly the record implied by the primary store. -/
def LookupsOK (db : DB) : Prop :=
  ∀ k : AccountID × OutPoint,
    dbFind db.coinIndex k = expectedCoinIndexAt db k ∧
    dbFind db.bindIndex k = expectedBindAt db k ∧
    dbFind db.pointSendIdx k = expectedPointSendAt db k ∧
    dbFind db.pointRecvIdx k = expectedPointRecvAt db k ∧
    dbFind db.stakingSendIdx k = expectedStakingSendAt db k ∧
    dbFind db.stakingRecvIdx k = expectedStakingRecvAt db k

theorem dbFind_of_mem_nodup {κ ν : Type} [DecidableEq κ] {m : List (κ × ν)}
    (hn : NodupKeys m) {e : κ × ν} (he : e ∈ m) : dbFind m e.1 = some e.2 := by
  induction m with
  | nil => exact absurd he (List.not_mem_nil e)
  | cons a t ih =>
    rw [dbFind_cons]
    have hn2 := List.nodup_cons.mp hn
    rcases List.mem_cons.mp he with h1 | h1
    · subst h1
      rw [if_pos rfl]
    · have hne : a.1 ≠ e.1 := by
        intro hc
        exact hn2.1 (hc ▸ List.mem_map.mpr ⟨e, h1, rfl⟩)
      rw [if_neg hne]
      exact ih (List.Nodup.sublist (List.Sublist.map Prod.fst (List.sublist_cons_self a t)) hn) h1

theorem indexConsistent_iff (db : DB) :
    IndexConsistent db ↔ NodupAll db ∧ SpentFree db ∧ LookupsOK db := by
  constructor
  · intro h
    obtain ⟨n1, n2, n3, n4, n5, n6, n7, hsp, -, -, -, -, -, -, -⟩ := id h
    refine ⟨⟨n1, n2, n3, n4, n5, n6, n7⟩, hsp, fun k =>
      ⟨ic_coinIndex_lookup h k, ic_bind_lookup h k, ic_pointSend_lookup h k,
       ic_pointRecv_lookup h k, ic_stakingSend_lookup h k, ic_stakingRecv_lookup h k⟩⟩
  · rintro ⟨⟨n1, n2, n3, n4, n5, n6, n7⟩, hsp, hl⟩
    refine ⟨n1, n2, n3, n4, n5, n6, n7, hsp, ?_, ?_, ?_, ?_, ?_, ?_, ?_⟩
    · intro e he h0
      have hc : dbFind db.coins e.1 = some e.2 := dbFind_of_mem_nodup n1 he
      refine ⟨?_, ?_, ?_, ?_⟩
      · rw [(hl (e.2.owner, e.1)).1]
        unfold expectedCoinIndexAt
        rw [hc]
        exact if_pos ⟨rfl, h0⟩
      · intro hb
        rw [(hl (e.2.owner, e.1)).2.1]
        unfold expectedBindAt
        rw [hc]
        exact if_pos ⟨rfl, h0, hb⟩
      · intro hp
        constructor
        · rw [(hl (e.2.owner, e.1)).2.2.1]
          unfold expectedPointSendAt
          rw [hc]
          exact if_pos ⟨rfl, h0, hp⟩
        · rw [(hl (e.2.payload.pointReceiver, e.1)).2.2.2.1]
          unfold expectedPointRecvAt
          rw [hc]
          exact if_pos ⟨h0, hp, rfl⟩
      · intro hp
        constructor
        · rw [(hl (e.2.owner, e.1)).2.2.2.2.1]
          unfold expectedStakingSendAt
          rw [hc]
          exact if_pos ⟨rfl, h0, hp⟩
        · rw [(hl (e.2.payload.stakingReceiver, e.1)).2.2.2.2.2]
          unfold expectedStakingRecvAt
          rw [hc]
          exact if_pos ⟨h0, hp, rfl⟩
    · intro e he
      rw [← (hl e.1).1]
      exact dbFind_of_mem_nodup n2 he
    · intro e he
      rw [← (hl e.1).2.1]
      exact dbFind_of_mem_nodup n3 he
    · intro e he
      rw [← (hl e.1).2.2.1]
      exact dbFind_of_mem_nodup n4 he
    · intro e he
      rw [← (hl e.1).2.2.2.1]
      exact dbFind_of_mem_nodup n5 he
    · intro e he
      rw [← (hl e.1).2.2.2.2.1]
      exact dbFind_of_mem_nodup n6 he
    · intro e he
      rw [← (hl e.1).2.2.2.2.2]
      exact dbFind_of_mem_nodup n7 he

/-- A delta entry is coherent with the store it is committed to: a dirty
entry that overwrites or spends an existing coin agrees with it on the owning
account and the payload — the cache's view of those immutable coin fields
matches the store's, as `CCoinsViewCache` guarantees for entries it flushes. -/
def entryCoherent (db : DB) (pe : OutPoint × CacheEntry) : Prop :=
  pe.2.dirty = true → ∀ c0, dbFind db.coins pe.1 = some c0 →
    c0.owner = pe.2.coin.owner ∧ c0.payload = pe.2.coin.payload

instance (db : DB) (pe : OutPoint × CacheEntry) : Decidable (entryCoherent db pe) :=
  match hf : dbFind db.coins pe.1 with
  | some c0 =>
      if hc : c0.owner = pe.2.coin.owner ∧ c0.payload = pe.2.coin.payload then
        isTrue (by
          intro hd c1 h1
          rw [hf] at h1
          rw [← Option.some.inj h1]
          exact hc)
      else
        if hd : pe.2.dirty = true then
          isFalse (by
            intro h
            exact hc (h hd c0 hf))
        else
          isTrue (by
            intro hd1
            exact absurd hd1 hd)
  | Option.none =>
      isTrue (by
        intro hd c1 h1
        rw [hf] at h1
        exact Option.noConfusion h1)

theorem key_snd_ne {a b : AccountID} {o o2 : OutPoint} (h : o2 ≠ o) :
    (a, o2) ≠ (b, o) :=
  fun hc => h (congrArg Prod.snd hc)

theorem dbFind_coinsAfter_other (o : OutPoint) (e : CacheEntry) (db : DB)
    {o2 : OutPoint} (h : o2 ≠ o) :
    dbFind (coinsAfter o e db) o2 = dbFind db.coins o2 := by
  unfold coinsAfter
  split_ifs with h1 h2
  · rw [dbFind_erase, if_neg h]
  · rw [dbFind_insert, if_neg h]
  · rfl

/-- The index record implied at a key by a primary store, for the index
column described by the enabling condition `condF`, the key-account function
`keyF` and the stored value `valF`. -/
def expectedAt {V : Type} (condF : Coin → Prop) [DecidablePred condF]
    (keyF : Coin → AccountID) (valF : Coin → V) (coins : List (OutPoint × Coin))
    (k : AccountID × OutPoint) : Option V :=
  match dbFind coins k.2 with
  | some c => if condF c ∧ keyF c = k.1 then some (valF c) else Option.none
  | Option.none => Option.none

theorem expectedAt_none {V : Type} (condF : Coin → Prop) [DecidablePred condF]
    (keyF : Coin → AccountID) (valF : Coin → V) (coins : List (OutPoint × Coin))
    (k : AccountID × OutPoint) (h : dbFind coins k.2 = Option.none) :
    expectedAt condF keyF valF coins k = Option.none := by
  unfold expectedAt
  rw [h]

theorem expectedAt_some {V : Type} (condF : Coin → Prop) [DecidablePred condF]
    (keyF : Coin → AccountID) (valF : Coin → V) (coins : List (OutPoint × Coin))
    (k : AccountID × OutPoint) (c : Coin) (h : dbFind coins k.2 = some c) :
    expectedAt condF keyF valF coins k =
      if condF c ∧ keyF c = k.1 then some (valF c) else Option.none := by
  unfold expectedAt
  rw [h]

/-- One delta entry keeps its index column pointwise consistent, provided the
column's enabling condition and key depend only on the coin's owner and
payload (the fields a coherent delta entry preserves). -/
theorem lookup_after_generic {V : Type} (condF : Coin → Prop) [DecidablePred condF]
    (keyF : Coin → AccountID) (valF : Coin → V)
    (hcond : ∀ c1 c2 : Coin, c1.owner = c2.owner → c1.payload = c2.payload →
      (condF c1 ↔ condF c2))
    (hkey : ∀ c1 c2 : Coin, c1.owner = c2.owner → c1.payload = c2.payload →
      keyF c1 = keyF c2)
    (o : OutPoint) (e : CacheEntry) (db : DB)
    (idx : List ((AccountID × OutPoint) × V))
    (hidx : ∀ k : AccountID × OutPoint,
      dbFind idx k = expectedAt condF keyF valF db.coins k)
    (hcoh : entryCoherent db (o, e)) (k : AccountID × OutPoint) :
    dbFind (if e.dirty = true ∧ condF e.coin then
        (if e.coin.spent = true then dbErase (keyF e.coin, o) idx
         else dbInsert (keyF e.coin, o) (valF e.coin) idx)
      else idx) k =
      expectedAt condF keyF valF (coinsAfter o e db) k := by
  obtain ⟨a, o2⟩ := k
  by_cases ho : o2 = o
  · subst ho
    by_cases hd : e.dirty = true
    · have hco := hcoh hd
      by_cases hsp : e.coin.spent = true
      · -- spent entry: the coin is gone, so the implied record is absent
        have hcoins : dbFind (coinsAfter o2 e db) o2 = Option.none := by
          unfold coinsAfter
          rw [if_pos hd, if_pos hsp, dbFind_erase, if_pos rfl]
        rw [expectedAt_none condF keyF valF _ _ hcoins]
        by_cases hcF : condF e.coin
        · rw [if_pos ⟨hd, hcF⟩, if_pos hsp, dbFind_erase]
          by_cases ha : (a, o2) = (keyF e.coin, o2)
          · rw [if_pos ha]
          · rw [if_neg ha, hidx]
            cases hfc : dbFind db.coins o2 with
            | none => exact expectedAt_none condF keyF valF _ _ hfc
            | some c0 =>
              rw [expectedAt_some condF keyF valF _ _ c0 hfc]
              obtain ⟨how, hpay⟩ := hco c0 hfc
              refine if_neg ?_
              rintro ⟨hc0, hk0⟩
              have hk1 : keyF e.coin = a := by
                rw [← hkey c0 e.coin how hpay]
                exact hk0
              exact ha (congrArg (fun x => (x, o2)) hk1.symm)
        · rw [if_neg (fun hc => hcF hc.2), hidx]
          cases hfc : dbFind db.coins o2 with
          | none => exact expectedAt_none condF keyF valF _ _ hfc
          | some c0 =>
            rw [expectedAt_some condF keyF valF _ _ c0 hfc]
            obtain ⟨how, hpay⟩ := hco c0 hfc
            refine if_neg ?_
            rintro ⟨hc0, -⟩
            exact hcF ((hcond c0 e.coin how hpay).mp hc0)
      · -- live entry: the inserted coin implies exactly the written record
        have hcoins : dbFind (coinsAfter o2 e db) o2 = some e.coin := by
          unfold coinsAfter
          rw [if_pos hd, if_neg hsp, dbFind_insert, if_pos rfl]
        rw [expectedAt_some condF keyF valF _ _ e.coin hcoins]
        by_cases hcF : condF e.coin
        · rw [if_pos ⟨hd, hcF⟩, if_neg hsp, dbFind_insert]
          by_cases ha : (a, o2) = (keyF e.coin, o2)
          · rw [if_pos ha, if_pos ⟨hcF, (congrArg Prod.fst ha).symm⟩]
          · rw [if_neg ha, hidx,
              if_neg (fun hc => ha (congrArg (fun x => (x, o2)) (hc.2 : keyF e.coin = a).symm))]
            cases hfc : dbFind db.coins o2 with
            | none => exact expectedAt_none condF keyF valF _ _ hfc
            | some c0 =>
              rw [expectedAt_some condF keyF valF _ _ c0 hfc]
              obtain ⟨how, hpay⟩ := hco c0 hfc
              refine if_neg ?_
              rintro ⟨hc0, hk0⟩
              have hk1 : keyF e.coin = a := by
                rw [← hkey c0 e.coin how hpay]
                exact hk0
              exact ha (congrArg (fun x => (x, o2)) hk1.symm)
        · rw [if_neg (fun hc => hcF hc.2), hidx, if_neg (fun hc => hcF hc.1)]
          cases hfc : dbFind db.coins o2 with
          | none => exact expectedAt_none condF keyF valF _ _ hfc
          | some c0 =>
            rw [expectedAt_some condF keyF valF _ _ c0 hfc]
            obtain ⟨how, hpay⟩ := hco c0 hfc
            refine if_neg ?_
            rintro ⟨hc0, -⟩
            exact hcF ((hcond c0 e.coin how hpay).mp hc0)
    · -- non-dirty entry: nothing moves
      rw [if_neg (fun hc => hd hc.1), hidx]
      unfold expectedAt
      rw [show dbFind (coinsAfter o2 e db) (a, o2).2 = dbFind db.coins (a, o2).2 by
        unfold coinsAfter
        rw [if_neg hd]]
  · -- a key at another outpoint: both sides are untouched
    have hcoins : dbFind (coinsAfter o e db) o2 = dbFind db.coins o2 :=
      dbFind_coinsAfter_other o e db ho
    have hexp : expectedAt condF keyF valF (coinsAfter o e db) (a, o2) =
        expectedAt condF keyF valF db.coins (a, o2) := by
      unfold expectedAt
      rw [show dbFind (coinsAfter o e db) (a, o2).2 = dbFind db.coins (a, o2).2 from hcoins]
    rw [hexp, ← hidx (a, o2)]
    split_ifs with h1 h2
    · rw [dbFind_erase, if_neg (key_snd_ne ho)]
    · rw [dbFind_insert, if_neg (key_snd_ne ho)]
    · rfl

theorem isBindPlotter_congr {c1 c2 : Coin} (hp : c1.payload = c2.payload) :
    c1.isBindPlotter = c2.isBindPlotter := by
  unfold Coin.isBindPlotter
  rw [hp]

theorem isPoint_congr {c1 c2 : Coin} (hp : c1.payload = c2.payload) :
    c1.isPoint = c2.isPoint := by
  unfold Coin.isPoint
  rw [hp]

theorem isStaking_congr {c1 c2 : Coin} (hp : c1.payload = c2.payload) :
    c1.isStaking = c2.isStaking := by
  unfold Coin.isStaking
  rw [hp]

theorem expectedCoinIndexAt_eq (db : DB) (k : AccountID × OutPoint) :
    expectedCoinIndexAt db k =
      expectedAt (fun c => c.owner ≠ 0) (fun c => c.owner) (fun c => c.value) db.coins k := by
  unfold expectedCoinIndexAt expectedAt
  cases dbFind db.coins k.2 with
  | none => rfl
  | some c => exact if_congr ⟨fun h => ⟨h.2, h.1⟩, fun h => ⟨h.2, h.1⟩⟩ rfl rfl

theorem expectedBindAt_eq (db : DB) (k : AccountID × OutPoint) :
    expectedBindAt db k =
      expectedAt (fun c => c.owner ≠ 0 ∧ c.isBindPlotter = true) (fun c => c.owner)
        (fun c => (c.payload.bindId, c.height)) db.coins k := by
  unfold expectedBindAt expectedAt
  cases dbFind db.coins k.2 with
  | none => rfl
  | some c =>
    exact if_congr ⟨fun h => ⟨⟨h.2.1, h.2.2⟩, h.1⟩, fun h => ⟨h.2, h.1.1, h.1.2⟩⟩ rfl rfl

theorem expectedPointSendAt_eq (db : DB) (k : AccountID × OutPoint) :
    expectedPointSendAt db k =
      expectedAt (fun c => c.owner ≠ 0 ∧ c.isPoint = true) (fun c => c.owner)
        (fun c => c.value) db.coins k := by
  unfold expectedPointSendAt expectedAt
  cases dbFind db.coins k.2 with
  | none => rfl
  | some c =>
    exact if_congr ⟨fun h => ⟨⟨h.2.1, h.2.2⟩, h.1⟩, fun h => ⟨h.2, h.1.1, h.1.2⟩⟩ rfl rfl

theorem expectedPointRecvAt_eq (db : DB) (k : AccountID × OutPoint) :
    expectedPointRecvAt db k =
      expectedAt (fun c => c.owner ≠ 0 ∧ c.isPoint = true)
        (fun c => c.payload.pointReceiver) (fun c => c.payload.pointAmount) db.coins k := by
  unfold expectedPointRecvAt expectedAt
  cases dbFind db.coins k.2 with
  | none => rfl
  | some c =>
    exact if_congr ⟨fun h => ⟨⟨h.1, h.2.1⟩, h.2.2⟩, fun h => ⟨h.1.1, h.1.2, h.2⟩⟩ rfl rfl

theorem expectedStakingSendAt_eq (db : DB) (k : AccountID × OutPoint) :
    expectedStakingSendAt db k =
      expectedAt (fun c => c.owner ≠ 0 ∧ c.isStaking = true) (fun c => c.owner)
        (fun c => c.value) db.coins k := by
  unfold expectedStakingSendAt expectedAt
  cases dbFind db.coins k.2 with
  | none => rfl
  | some c =>
    exact if_congr ⟨fun h => ⟨⟨h.2.1, h.2.2⟩, h.1⟩, fun h => ⟨h.2, h.1.1, h.1.2⟩⟩ rfl rfl

theorem expectedStakingRecvAt_eq (db : DB) (k : AccountID × OutPoint) :
    expectedStakingRecvAt db k =
      expectedAt (fun c => c.owner ≠ 0 ∧ c.isStaking = true)
        (fun c => c.payload.stakingReceiver) (fun c => c.payload.stakingAmount) db.coins k := by
  unfold expectedStakingRecvAt expectedAt
  cases dbFind db.coins k.2 with
  | none => rfl
  | some c =>
    exact if_congr ⟨fun h => ⟨⟨h.1, h.2.1⟩, h.2.2⟩, fun h => ⟨h.1.1, h.1.2, h.2⟩⟩ rfl rfl

/-- One coherent delta entry preserves the whole pointwise invariant. -/
theorem dbAfterEntry_preserves (o : OutPoint) (e : CacheEntry) (db : DB)
    (hN : NodupAll db) (hS : SpentFree db) (hL : LookupsOK db)
    (hcoh : entryCoherent db (o, e)) :
    NodupAll (dbAfterEntry o e db) ∧ SpentFree (dbAfterEntry o e db) ∧
      LookupsOK (dbAfterEntry o e db) := by
  obtain ⟨n1, n2, n3, n4, n5, n6, n7⟩ := hN
  refine ⟨⟨?_, ?_, ?_, ?_, ?_, ?_, ?_⟩, ?_, ?_⟩
  · show NodupKeys (coinsAfter o e db)
    unfold coinsAfter
    split_ifs
    · exact nodupKeys_erase _ _ n1
    · exact nodupKeys_insert _ _ _ n1
    · exact n1
  · show NodupKeys (coinIndexAfter o e db)
    unfold coinIndexAfter
    split_ifs
    · exact nodupKeys_erase _ _ n2
    · exact nodupKeys_insert _ _ _ n2
    · exact n2
  · show NodupKeys (bindIndexAfter o e db)
    unfold bindIndexAfter
    split_ifs
    · exact nodupKeys_erase _ _ n3
    · exact nodupKeys_insert _ _ _ n3
    · exact n3
  · show NodupKeys (pointSendIdxAfter o e db)
    unfold pointSendIdxAfter
    split_ifs
    · exact nodupKeys_erase _ _ n4
    · exact nodupKeys_insert _ _ _ n4
    · exact n4
  · show NodupKeys (pointRecvIdxAfter o e db)
    unfold pointRecvIdxAfter
    split_ifs
    · exact nodupKeys_erase _ _ n5
    · exact nodupKeys_insert _ _ _ n5
    · exact n5
  · show NodupKeys (stakingSendIdxAfter o e db)
    unfold stakingSendIdxAfter
    split_ifs
    · exact nodupKeys_erase _ _ n6
    · exact nodupKeys_insert _ _ _ n6
    · exact n6
  · show NodupKeys (stakingRecvIdxAfter o e db)
    unfold stakingRecvIdxAfter
    split_ifs
    · exact nodupKeys_erase _ _ n7
    · exact nodupKeys_insert _ _ _ n7
    · exact n7
  · intro e2 he2
    have he2' : e2 ∈ coinsAfter o e db := he2
    unfold coinsAfter at he2'
    split_ifs at he2' with hd hsp
    · exact hS e2 (List.mem_filter.mp he2').1
    · rcases List.mem_cons.mp he2' with h1 | h1
      · rw [Bool.not_eq_true] at hsp
        rw [h1]
        exact hsp
      · exact hS e2 (List.mem_filter.mp h1).1
    · exact hS e2 he2'
  · intro k
    refine ⟨?_, ?_, ?_, ?_, ?_, ?_⟩
    · rw [expectedCoinIndexAt_eq (dbAfterEntry o e db) k]
      exact lookup_after_generic (fun c => c.owner ≠ 0) (fun c => c.owner)
        (fun c => c.value)
        (fun c1 c2 how hp => by
          show c1.owner ≠ 0 ↔ c2.owner ≠ 0
          rw [how])
        (fun c1 c2 how hp => how) o e db db.coinIndex
        (fun k2 => by
          rw [← expectedCoinIndexAt_eq db k2]
          exact (hL k2).1) hcoh k
    · rw [expectedBindAt_eq (dbAfterEntry o e db) k]
      exact lookup_after_generic (fun c => c.owner ≠ 0 ∧ c.isBindPlotter = true)
        (fun c => c.owner) (fun c => (c.payload.bindId, c.height))
        (fun c1 c2 how hp => by
          show c1.owner ≠ 0 ∧ c1.isBindPlotter = true ↔ c2.owner ≠ 0 ∧ c2.isBindPlotter = true
          rw [how, isBindPlotter_congr hp])
        (fun c1 c2 how hp => how) o e db db.bindIndex
        (fun k2 => by
          rw [← expectedBindAt_eq db k2]
          exact (hL k2).2.1) hcoh k
    · rw [expectedPointSendAt_eq (dbAfterEntry o e db) k]
      exact lookup_after_generic (fun c => c.owner ≠ 0 ∧ c.isPoint = true)
        (fun c => c.owner) (fun c => c.value)
        (fun c1 c2 how hp => by
          show c1.owner ≠ 0 ∧ c1.isPoint = true ↔ c2.owner ≠ 0 ∧ c2.isPoint = true
          rw [how, isPoint_congr hp])
        (fun c1 c2 how hp => how) o e db db.pointSendIdx
        (fun k2 => by
          rw [← expectedPointSendAt_eq db k2]
          exact (hL k2).2.2.1) hcoh k
    · rw [expectedPointRecvAt_eq (dbAfterEntry o e db) k]
      exact lookup_after_generic (fun c => c.owner ≠ 0 ∧ c.isPoint = true)
        (fun c => c.payload.pointReceiver) (fun c => c.payload.pointAmount)
        (fun c1 c2 how hp => by
          show c1.owner ≠ 0 ∧ c1.isPoint = true ↔ c2.owner ≠ 0 ∧ c2.isPoint = true
          rw [how, isPoint_congr hp])
        (fun c1 c2 how hp => congrArg Payload.pointReceiver hp) o e db db.pointRecvIdx
        (fun k2 => by
          rw [← expectedPointRecvAt_eq db k2]
          exact (hL k2).2.2.2.1) hcoh k
    · rw [expectedStakingSendAt_eq (dbAfterEntry o e db) k]
      exact lookup_after_generic (fun c => c.owner ≠ 0 ∧ c.isStaking = true)
        (fun c => c.owner) (fun c => c.value)
        (fun c1 c2 how hp => by
          show c1.owner ≠ 0 ∧ c1.isStaking = true ↔ c2.owner ≠ 0 ∧ c2.isStaking = true
          rw [how, isStaking_congr hp])
        (fun c1 c2 how hp => how) o e db db.stakingSendIdx
        (fun k2 => by
          rw [← expectedStakingSendAt_eq db k2]
          exact (hL k2).2.2.2.2.1) hcoh k
    · rw [expectedStakingRecvAt_eq (dbAfterEntry o e db) k]
      exact lookup_after_generic (fun c => c.owner ≠ 0 ∧ c.isStaking = true)
        (fun c => c.payload.stakingReceiver) (fun c => c.payload.stakingAmount)
        (fun c1 c2 how hp => by
          show c1.owner ≠ 0 ∧ c1.isStaking = true ↔ c2.owner ≠ 0 ∧ c2.isStaking = true
          rw [how, isStaking_congr hp])
        (fun c1 c2 how hp => congrArg Payload.stakingReceiver hp) o e db db.stakingRecvIdx
        (fun k2 => by
          rw [← expectedStakingRecvAt_eq db k2]
          exact (hL k2).2.2.2.2.2) hcoh k

theorem entryCoherent_after (o : OutPoint) (e : CacheEntry) (db : DB)
    (pe : OutPoint × CacheEntry) (hne : pe.1 ≠ o) (hcoh : entryCoherent db pe) :
    entryCoherent (dbAfterEntry o e db) pe := by
  intro hd c0 hfc
  have hfc2 : dbFind db.coins pe.1 = some c0 := by
    rw [← dbFind_coinsAfter_other o e db hne]
    exact hfc
  exact hcoh hd c0 hfc2

/-- The whole dirty delta, applied entry by entry, preserves the pointwise
invariant when its outpoints are distinct and every entry is coherent. -/
theorem deltaFold_preserves (delta : CoinsMap) :
    ∀ db : DB, NodupAll db → SpentFree db → LookupsOK db →
      (delta.map Prod.fst).Nodup →
      (∀ pe ∈ delta, entryCoherent db pe) →
      NodupAll (applyOps (delta.map (fun pe => coinOps pe.1 pe.2)).flatten db) ∧
      SpentFree (applyOps (delta.map (fun pe => coinOps pe.1 pe.2)).flatten db) ∧
      LookupsOK (applyOps (delta.map (fun pe => coinOps pe.1 pe.2)).flatten db) := by
  induction delta with
  | nil => exact fun db hN hS hL _ _ => ⟨hN, hS, hL⟩
  | cons pe rest ih =>
    intro db hN hS hL hnd hcoh
    rw [List.map_cons, List.flatten_cons, applyOps_append, applyOps_coinOps_eq]
    have hstep := dbAfterEntry_preserves pe.1 pe.2 db hN hS hL
      (by
        have := hcoh pe (List.mem_cons_self _ _)
        exact this)
    have hnd2 := List.nodup_cons.mp hnd
    refine ih (dbAfterEntry pe.1 pe.2 db) hstep.1 hstep.2.1 hstep.2.2 hnd2.2 ?_
    intro pe2 hpe2
    refine entryCoherent_after pe.1 pe.2 db pe2 ?_ (hcoh pe2 (List.mem_cons_of_mem _ hpe2))
    intro hc
    exact hnd2.1 (hc ▸ List.mem_map.mpr ⟨pe2, hpe2, rfl⟩)

/-- The chunked commit loop applies, overall, exactly the pending ops followed
by every entry's mutations in delta order. -/
theorem stateLoop_net (flush : List DBOp → Bool) :
    ∀ (delta : CoinsMap) (db : DB) (pending : List DBOp),
      applyOps (stateLoop flush delta db pending).2 (stateLoop flush delta db pending).1 =
        applyOps (delta.map (fun pe => coinOps pe.1 pe.2)).flatten (applyOps pending db) := by
  intro delta
  induction delta with
  | nil =>
    intro db pending
    rfl
  | cons pe rest ih =>
    intro db pending
    obtain ⟨o, e⟩ := pe
    show applyOps (stateLoop flush ((o, e) :: rest) db pending).2 _ = _
    unfold stateLoop
    split_ifs with hf
    · rw [ih, List.map_cons, List.flatten_cons, applyOps_append, applyOps_append]
      rfl
    · rw [ih, List.map_cons, List.flatten_cons, applyOps_append, applyOps_append]

/-- C1 (amended): `BatchWrite` preserves the index-consistency invariant for
every coherent delta (distinct outpoints, dirty entries agreeing with any
overwritten coin on owner and payload) PROVIDED the commit does not fall on a
triggering epoch boundary — at a boundary the snapshot engine writes the
synthetic claimable coins with no index records (src/txdb.cpp 1110) and the
invariant can break, as `c1_counterexample` shows. -/
theorem c1_index_consistency_preserved (P : SnapParams) (hd : Block) (tl : List Block)
    (flush : List DBOp → Bool) (delta : CoinsMap) (newTip : Hash) (db db' : DB)
    (hic : IndexConsistent db)
    (hnd : (delta.map Prod.fst).Nodup)
    (hcoh : ∀ pe ∈ delta, entryCoherent db pe)
    (hskip : hd.height - P.nSaturnEpockBlocks * 2 < P.nSaturnActiveHeight ∨
        Int.tmod hd.height P.nSaturnEpockBlocks ≠ 0)
    (hrun : BatchWrite P (hd :: tl) flush delta newTip db = .ok db') :
    IndexConsistent db' := by
  simp only [BatchWrite] at hrun
  by_cases h0 : newTip = 0
  · rw [if_pos h0] at hrun
    exact Except.noConfusion hrun
  · rw [if_neg h0, except_bind_ok] at hrun
    obtain ⟨oldTip, hold, hrun⟩ := hrun
    rw [except_bind_ok] at hrun
    obtain ⟨db2, hsnap, hrun⟩ := hrun
    simp only [TrySnapshotStakingPoolStatus] at hsnap
    rw [if_pos hskip] at hsnap
    have hdb2 := Except.ok.inj hsnap
    have hdb' := Except.ok.inj hrun
    rw [← hdb2] at hdb'
    rw [← hdb']
    rw [applyOps_append]
    rw [stateLoop_net flush delta db [.eraseBestBlock, .writeHeadBlocks [newTip, oldTip]]]
    rw [indexConsistent_iff] at hic
    obtain ⟨hN, hS, hL⟩ := hic
    have hpre := deltaFold_preserves delta
      (applyOps [.eraseBestBlock, .writeHeadBlocks [newTip, oldTip]] db)
      hN hS hL hnd hcoh
    rw [indexConsistent_iff]
    exact hpre

/-- Witness: committing one fresh live coin off the epoch boundary keeps the
store index-consistent. -/
theorem c1_index_consistency_preserved_witness :
    IndexConsistent ⟨[(⟨200, 0⟩, ⟨5, 1, false, 6, .none, false⟩)],
      [((6, ⟨200, 0⟩), 5)], [], [], [], [], [], some 40, [], [], []⟩ :=
  c1_index_consistency_preserved ⟨2, 0, 7, 1, fun _ => 50, fun _ => 50⟩ ⟨3, 30, 3⟩ []
    (fun _ => false) [(⟨200, 0⟩, ⟨⟨5, 1, false, 6, .none, false⟩, true⟩)] 40
    ⟨[], [], [], [], [], [], [], some 10, [], [], []⟩
    ⟨[(⟨200, 0⟩, ⟨5, 1, false, 6, .none, false⟩)],
      [((6, ⟨200, 0⟩), 5)], [], [], [], [], [], some 40, [], [], []⟩
    (by decide) (by decide) (by decide) (by decide) rfl

/-! ## C8: balance reconstruction round-trip -/

/-- A delta entry coherent with the store also on the coin value (the cache
flushes the same immutable coin data the store holds). -/
def entryCoherentVal (db : DB) (pe : OutPoint × CacheEntry) : Prop :=
  pe.2.dirty = true → ∀ c0, dbFind db.coins pe.1 = some c0 →
    c0.owner = pe.2.coin.owner ∧ c0.payload = pe.2.coin.payload ∧
      c0.value = pe.2.coin.value

instance (db : DB) (pe : OutPoint × CacheEntry) : Decidable (entryCoherentVal db pe) :=
  match hf : dbFind db.coins pe.1 with
  | some c0 =>
      if hc : c0.owner = pe.2.coin.owner ∧ c0.payload = pe.2.coin.payload ∧
          c0.value = pe.2.coin.value then
        isTrue (by
          intro hd c1 h1
          rw [hf] at h1
          rw [← Option.some.inj h1]
          exact hc)
      else
        if hd : pe.2.dirty = true then
          isFalse (by
            intro h
            exact hc (h hd c0 hf))
        else
          isTrue (by
            intro hd1
            exact absurd hd1 hd)
  | Option.none =>
      isTrue (by
        intro hd c1 h1
        rw [hf] at h1
        exact Option.noConfusion h1)

theorem entryCoherentVal_weaken {db : DB} {pe : OutPoint × CacheEntry}
    (h : entryCoherentVal db pe) : entryCoherent db pe :=
  fun hd c0 hf => ⟨(h hd c0 hf).1, (h hd c0 hf).2.1⟩

/-- The contribution of one dirty delta entry to an index column's
account-filtered sum, probed at the queried account's key. -/
def deltaStep {V : Type} (condF : Coin → Prop) [DecidablePred condF]
    (keyF : Coin → AccountID) (valF : Coin → V) (weight : V → Int)
    (idx : List ((AccountID × OutPoint) × V)) (a : AccountID)
    (pe : OutPoint × CacheEntry) : Int :=
  if pe.2.dirty = true ∧ condF pe.2.coin then
    match dbFind idx (a, pe.1) with
    | some w => if pe.2.coin.spent = true then -(weight w) else 0
    | Option.none =>
        if keyF pe.2.coin = a ∧ pe.2.coin.spent = false then weight (valF pe.2.coin) else 0
  else 0

/-- One delta entry moves an index column's account-filtered sum by exactly
its `deltaStep`, provided the column reads as the primary store implies. -/
theorem sum_after_generic {V : Type} (condF : Coin → Prop) [DecidablePred condF]
    (keyF : Coin → AccountID) (valF : Coin → V) (weight : V → Int)
    (hkey : ∀ c1 c2 : Coin, c1.owner = c2.owner → c1.payload = c2.payload →
      keyF c1 = keyF c2)
    (hval : ∀ c1 c2 : Coin, c1.owner = c2.owner → c1.payload = c2.payload →
      c1.value = c2.value → weight (valF c1) = weight (valF c2))
    (o : OutPoint) (e : CacheEntry) (db : DB)
    (idx : List ((AccountID × OutPoint) × V)) (hn : NodupKeys idx)
    (hidx : ∀ k : AccountID × OutPoint,
      dbFind idx k = expectedAt condF keyF valF db.coins k)
    (hcv : entryCoherentVal db (o, e)) (a : AccountID) :
    sumBy (fun ent => if ent.1.1 = a then weight ent.2 else 0)
        (if e.dirty = true ∧ condF e.coin then
          (if e.coin.spent = true then dbErase (keyF e.coin, o) idx
           else dbInsert (keyF e.coin, o) (valF e.coin) idx)
        else idx) =
      sumBy (fun ent => if ent.1.1 = a then weight ent.2 else 0) idx +
        deltaStep condF keyF valF weight idx a (o, e) := by
  unfold deltaStep
  dsimp only
  by_cases hdc : e.dirty = true ∧ condF e.coin
  · rw [if_pos hdc, if_pos hdc]
    have hco : ∀ c0, dbFind db.coins o = some c0 →
        c0.owner = e.coin.owner ∧ c0.payload = e.coin.payload ∧
          c0.value = e.coin.value := hcv hdc.1
    have hprobe : ∀ w, dbFind idx (a, o) = some w →
        ∃ c0, dbFind db.coins o = some c0 ∧ condF c0 ∧ keyF c0 = a ∧ valF c0 = w ∧
          c0.owner = e.coin.owner ∧ c0.payload = e.coin.payload ∧
          c0.value = e.coin.value := by
      intro w hw
      rw [hidx (a, o)] at hw
      cases hfc : dbFind db.coins o with
      | none =>
        rw [expectedAt_none condF keyF valF db.coins (a, o) hfc] at hw
        exact Option.noConfusion hw
      | some c0 =>
        rw [expectedAt_some condF keyF valF db.coins (a, o) c0 hfc] at hw
        split_ifs at hw with hcnd
        obtain ⟨h1, h2, h3⟩ := hco c0 hfc
        exact ⟨c0, rfl, hcnd.1, hcnd.2, Option.some.inj hw, h1, h2, h3⟩
    by_cases hsp : e.coin.spent = true
    · rw [if_pos hsp, sumBy_erase _ _ _ hn]
      cases hP : dbFind idx (a, o) with
      | none =>
        dsimp only
        have hnc : ¬ (keyF e.coin = a ∧ e.coin.spent = false) := fun hc => by
          rw [hc.2] at hsp
          exact Bool.noConfusion hsp
        rw [if_neg hnc]
        by_cases hka : keyF e.coin = a
        · rw [show dbFind idx (keyF e.coin, o) = Option.none from by rw [hka]; exact hP]
          dsimp only [Option.elim]
          ring
        · cases hE : dbFind idx (keyF e.coin, o) with
          | none =>
            dsimp only [Option.elim]
            ring
          | some v =>
            dsimp only [Option.elim]
            rw [if_neg hka]
            ring
      | some w =>
        dsimp only
        rw [if_pos hsp]
        obtain ⟨c0, hfc, hc0, hk0, hv0, how, hpay, hvv⟩ := hprobe w hP
        have hke : keyF e.coin = a := by
          rw [← hkey c0 e.coin how hpay]
          exact hk0
        rw [show dbFind idx (keyF e.coin, o) = some w from by rw [hke]; exact hP]
        dsimp only [Option.elim]
        rw [if_pos hke]
        ring
    · rw [if_neg hsp, sumBy_insert, sumBy_erase _ _ _ hn]
      have hspf : e.coin.spent = false := by
        rw [Bool.not_eq_true] at hsp
        exact hsp
      cases hP : dbFind idx (a, o) with
      | none =>
        dsimp only
        by_cases hka : keyF e.coin = a
        · have hcnd2 : keyF e.coin = a ∧ e.coin.spent = false := ⟨hka, hspf⟩
          rw [if_pos hcnd2, if_pos hka,
            show dbFind idx (keyF e.coin, o) = Option.none from by rw [hka]; exact hP]
          dsimp only [Option.elim]
          ring
        · have hnc : ¬ (keyF e.coin = a ∧ e.coin.spent = false) := fun hc => hka hc.1
          rw [if_neg hnc, if_neg hka]
          cases hE : dbFind idx (keyF e.coin, o) with
          | none =>
            dsimp only [Option.elim]
            ring
          | some v =>
            dsimp only [Option.elim]
            rw [if_neg hka]
            ring
      | some w =>
        dsimp only
        rw [if_neg hsp]
        obtain ⟨c0, hfc, hc0, hk0, hv0, how, hpay, hvv⟩ := hprobe w hP
        have hke : keyF e.coin = a := by
          rw [← hkey c0 e.coin how hpay]
          exact hk0
        have hwv : weight (valF e.coin) = weight w := by
          rw [← hv0]
          exact (hval c0 e.coin how hpay hvv).symm
        rw [if_pos hke, show dbFind idx (keyF e.coin, o) = some w from by rw [hke]; exact hP]
        dsimp only [Option.elim]
        rw [if_pos hke, hwv]
        ring
  · rw [if_neg hdc, if_neg hdc]
    ring

/-- The store after the whole delta, entry by entry. -/
def dbAfterAll (delta : CoinsMap) (db : DB) : DB :=
  delta.foldl (fun d pe => dbAfterEntry pe.1 pe.2 d) db

theorem entryCoherentVal_after (o : OutPoint) (e : CacheEntry) (db : DB)
    (pe : OutPoint × CacheEntry) (hne : pe.1 ≠ o) (hcoh : entryCoherentVal db pe) :
    entryCoherentVal (dbAfterEntry o e db) pe := by
  intro hd c0 hfc
  have hfc2 : dbFind db.coins pe.1 = some c0 := by
    rw [← dbFind_coinsAfter_other o e db hne]
    exact hfc
  exact hcoh hd c0 hfc2

theorem dbFind_ifshape_other {V : Type} (cond : Prop) [Decidable cond]
    (sp : Prop) [Decidable sp] (key : AccountID) (v : V) (o : OutPoint)
    (idx : List ((AccountID × OutPoint) × V)) {x : AccountID} {o2 : OutPoint}
    (h : o2 ≠ o) :
    dbFind (if cond then (if sp then dbErase (key, o) idx else dbInsert (key, o) v idx)
      else idx) (x, o2) = dbFind idx (x, o2) := by
  split_ifs with h1 h2
  · rw [dbFind_erase, if_neg (key_snd_ne h)]
  · rw [dbFind_insert, if_neg (key_snd_ne h)]
  · rfl

/-- The whole delta moves an index column's account-filtered sum by the sum
of its entries' `deltaStep`s, all probed against the starting store. -/
theorem sumfold_generic {V : Type} (condF : Coin → Prop) [DecidablePred condF]
    (keyF : Coin → AccountID) (valF : Coin → V) (weight : V → Int)
    (hkey : ∀ c1 c2 : Coin, c1.owner = c2.owner → c1.payload = c2.payload →
      keyF c1 = keyF c2)
    (hval : ∀ c1 c2 : Coin, c1.owner = c2.owner → c1.payload = c2.payload →
      c1.value = c2.value → weight (valF c1) = weight (valF c2))
    (getIdx : DB → List ((AccountID × OutPoint) × V))
    (hafter : ∀ (o : OutPoint) (e : CacheEntry) (d : DB), getIdx (dbAfterEntry o e d) =
      (if e.dirty = true ∧ condF e.coin then
        (if e.coin.spent = true then dbErase (keyF e.coin, o) (getIdx d)
         else dbInsert (keyF e.coin, o) (valF e.coin) (getIdx d))
      else getIdx d))
    (hidxOf : ∀ d : DB, NodupAll d → SpentFree d → LookupsOK d →
      (∀ k, dbFind (getIdx d) k = expectedAt condF keyF valF d.coins k))
    (hnodupOf : ∀ d : DB, NodupAll d → NodupKeys (getIdx d))
    (a : AccountID) :
    ∀ (delta : CoinsMap) (db : DB), NodupAll db → SpentFree db → LookupsOK db →
      (delta.map Prod.fst).Nodup → (∀ pe ∈ delta, entryCoherentVal db pe) →
      sumBy (fun ent => if ent.1.1 = a then weight ent.2 else 0)
          (getIdx (dbAfterAll delta db)) =
        sumBy (fun ent => if ent.1.1 = a then weight ent.2 else 0) (getIdx db) +
          (delta.map (deltaStep condF keyF valF weight (getIdx db) a)).sum := by
  intro delta
  induction delta with
  | nil =>
    intro db _ _ _ _ _
    simp [dbAfterAll]
  | cons pe rest ih =>
    intro db hN hS hL hnd hcv
    have hnd2 := List.nodup_cons.mp hnd
    have hcoh0 := hcv pe (List.mem_cons_self _ _)
    have hstep := dbAfterEntry_preserves pe.1 pe.2 db hN hS hL
      (entryCoherentVal_weaken hcoh0)
    have hrecoh : ∀ pe2 ∈ rest, entryCoherentVal (dbAfterEntry pe.1 pe.2 db) pe2 := by
      intro pe2 hpe2
      refine entryCoherentVal_after pe.1 pe.2 db pe2 ?_
        (hcv pe2 (List.mem_cons_of_mem _ hpe2))
      intro hc
      exact hnd2.1 (hc ▸ List.mem_map.mpr ⟨pe2, hpe2, rfl⟩)
    rw [show dbAfterAll (pe :: rest) db = dbAfterAll rest (dbAfterEntry pe.1 pe.2 db)
      from rfl]
    rw [ih (dbAfterEntry pe.1 pe.2 db) hstep.1 hstep.2.1 hstep.2.2 hnd2.2 hrecoh]
    have hhead : sumBy (fun ent => if ent.1.1 = a then weight ent.2 else 0)
        (getIdx (dbAfterEntry pe.1 pe.2 db)) =
        sumBy (fun ent => if ent.1.1 = a then weight ent.2 else 0) (getIdx db) +
          deltaStep condF keyF valF weight (getIdx db) a pe := by
      rw [hafter]
      exact sum_after_generic condF keyF valF weight hkey hval pe.1 pe.2 db (getIdx db)
        (hnodupOf db hN) (hidxOf db hN hS hL) hcoh0 a
    have hsum_eq : (rest.map (deltaStep condF keyF valF weight
          (getIdx (dbAfterEntry pe.1 pe.2 db)) a)).sum =
        (rest.map (deltaStep condF keyF valF weight (getIdx db) a)).sum := by
      refine congrArg List.sum (List.map_congr_left ?_)
      intro pe2 hpe2
      have hne : pe2.1 ≠ pe.1 := by
        intro hc
        exact hnd2.1 (hc ▸ List.mem_map.mpr ⟨pe2, hpe2, rfl⟩)
      have hfind : dbFind (getIdx (dbAfterEntry pe.1 pe.2 db)) (a, pe2.1) =
          dbFind (getIdx db) (a, pe2.1) := by
        rw [hafter]
        exact dbFind_ifshape_other _ _ _ _ _ _ hne
      unfold deltaStep
      rw [hfind]
    rw [hsum_eq, hhead, List.map_cons, List.sum_cons]
    ring

theorem dbFind_eq_none_of_not_mem {κ ν : Type} [DecidableEq κ] {m : List (κ × ν)} {k : κ}
    (h : k ∉ m.map Prod.fst) : dbFind m k = Option.none := by
  induction m with
  | nil => rfl
  | cons e t ih =>
    rw [List.map_cons] at h
    have h2 : k ≠ e.1 ∧ k ∉ t.map Prod.fst := by
      simpa [List.mem_cons, not_or] using h
    rw [dbFind_cons, if_neg (fun hc => h2.1 hc.symm)]
    exact ih h2.2

theorem foldl_step_sum {α : Type} (step : Int → α → Int)
    (hstep : ∀ s x, step s x = s + step 0 x) :
    ∀ (l : List α) (s : Int), l.foldl step s = s + (l.map (step 0)).sum := by
  intro l
  induction l with
  | nil =>
    intro s
    simp
  | cons x rest ih =>
    intro s
    rw [List.foldl_cons, ih, hstep s x, List.map_cons, List.sum_cons]
    ring

theorem recvScanFold (a : AccountID) :
    ∀ (idx : List ((AccountID × OutPoint) × Int)), NodupKeys idx →
      ∀ acc : Int × List (OutPoint × Int),
      (idx.foldl (fun acc e =>
          if e.1.1 = a then (acc.1 + e.2, dbInsert e.1.2 e.2 acc.2) else acc) acc).1 =
        acc.1 + sumBy (fun ent => if ent.1.1 = a then ent.2 else 0) idx ∧
      ∀ o : OutPoint,
        dbFind (idx.foldl (fun acc e =>
          if e.1.1 = a then (acc.1 + e.2, dbInsert e.1.2 e.2 acc.2) else acc) acc).2 o =
        (match dbFind idx (a, o) with
         | some w => some w
         | Option.none => dbFind acc.2 o) := by
  intro idx
  induction idx with
  | nil =>
    intro _ acc
    refine ⟨by simp [sumBy], fun o => rfl⟩
  | cons ent rest ih =>
    intro hn acc
    have hn2 := List.nodup_cons.mp hn
    rw [List.foldl_cons]
    by_cases ha : ent.1.1 = a
    · rw [if_pos ha]
      obtain ⟨ih1, ih2⟩ := ih hn2.2 (acc.1 + ent.2, dbInsert ent.1.2 ent.2 acc.2)
      constructor
      · rw [ih1, sumBy_cons]
        rw [if_pos ha]
        ring
      · intro o
        rw [ih2 o, dbFind_cons]
        by_cases ho : o = ent.1.2
        · have hk : ent.1 = (a, o) := by
            rw [← ha, ho]
          rw [if_pos hk]
          have hnone : dbFind rest (a, o) = Option.none :=
            dbFind_eq_none_of_not_mem (fun hc => hn2.1 (hk ▸ hc))
          rw [hnone]
          dsimp only
          rw [dbFind_insert, if_pos ho]
        · have hk : ¬ ent.1 = (a, o) := fun hc => ho (congrArg Prod.snd hc).symm
          rw [if_neg hk]
          cases hrest : dbFind rest (a, o) with
          | none =>
            dsimp only
            rw [dbFind_insert, if_neg ho]
          | some w => rfl
    · rw [if_neg ha]
      obtain ⟨ih1, ih2⟩ := ih hn2.2 acc
      refine ⟨by rw [ih1, sumBy_cons, if_neg ha]; ring, ?_⟩
      intro o
      rw [ih2 o, dbFind_cons, if_neg (fun hc => ha (congrArg Prod.fst hc))]

theorem sendScanFold (coins : List (OutPoint × Coin)) (a : AccountID) :
    ∀ (idx : List ((AccountID × OutPoint) × Int)), NodupKeys idx →
      (∀ ent ∈ idx, ent.1.1 = a →
        ∃ c, dbFind coins ent.1.2 = some c ∧ c.value = ent.2) →
      ∀ acc : Int × List (OutPoint × Int),
      ∃ sel,
        idx.foldlM (fun acc e =>
          if e.1.1 = a then
            match dbFind coins e.1.2 with
            | Option.none => Except.error ()
            | some c => Except.ok (acc.1 + c.value, dbInsert e.1.2 c.value acc.2)
          else Except.ok acc) acc =
          Except.ok (acc.1 + sumBy (fun ent => if ent.1.1 = a then ent.2 else 0) idx, sel) ∧
        ∀ o : OutPoint, dbFind sel o =
          (match dbFind idx (a, o) with
           | some w => some w
           | Option.none => dbFind acc.2 o) := by
  intro idx
  induction idx with
  | nil =>
    intro _ _ acc
    refine ⟨acc.2, ?_, fun o => rfl⟩
    show Except.ok acc = _
    simp [sumBy]
  | cons ent rest ih =>
    intro hn hgood acc
    have hn2 := List.nodup_cons.mp hn
    have hgood2 : ∀ e ∈ rest, e.1.1 = a →
        ∃ c, dbFind coins e.1.2 = some c ∧ c.value = e.2 :=
      fun e he => hgood e (List.mem_cons_of_mem _ he)
    rw [List.foldlM_cons]
    by_cases ha : ent.1.1 = a
    · obtain ⟨c, hc, hcv⟩ := hgood ent (List.mem_cons_self _ _) ha
      rw [if_pos ha, hc]
      obtain ⟨sel, hsel1, hsel2⟩ := ih hn2.2 hgood2 (acc.1 + c.value, dbInsert ent.1.2 c.value acc.2)
      refine ⟨sel, ?_, ?_⟩
      · rw [except_bind_ok]
        refine ⟨_, rfl, ?_⟩
        rw [hsel1, sumBy_cons, if_pos ha, ← hcv, ← add_assoc]
      · intro o
        rw [hsel2 o, dbFind_cons]
        by_cases ho : o = ent.1.2
        · have hk : ent.1 = (a, o) := by
            rw [← ha, ho]
          rw [if_pos hk]
          have hnone : dbFind rest (a, o) = Option.none :=
            dbFind_eq_none_of_not_mem (fun hcm => hn2.1 (hk ▸ hcm))
          rw [hnone]
          dsimp only
          rw [dbFind_insert, if_pos ho, hcv]
        · have hk : ¬ ent.1 = (a, o) := fun hcm => ho (congrArg Prod.snd hcm).symm
          rw [if_neg hk]
          cases hrest : dbFind rest (a, o) with
          | none =>
            dsimp only
            rw [dbFind_insert, if_neg ho]
          | some w => rfl
    · rw [if_neg ha]
      obtain ⟨sel, hsel1, hsel2⟩ := ih hn2.2 hgood2 acc
      refine ⟨sel, ?_, ?_⟩
      · rw [except_bind_ok]
        refine ⟨acc, rfl, ?_⟩
        rw [hsel1, sumBy_cons, if_neg ha, zero_add]
      · intro o
        rw [hsel2 o, dbFind_cons, if_neg (fun hc => ha (congrArg Prod.fst hc))]

theorem probe_val {V : Type} (condF : Coin → Prop) [DecidablePred condF]
    (keyF : Coin → AccountID) (valF : Coin → V) {db : DB}
    {idx : List ((AccountID × OutPoint) × V)}
    (hidx : ∀ k : AccountID × OutPoint,
      dbFind idx k = expectedAt condF keyF valF db.coins k)
    {a : AccountID} {o : OutPoint} {w : V} (hw : dbFind idx (a, o) = some w) :
    ∃ c0, dbFind db.coins o = some c0 ∧ condF c0 ∧ keyF c0 = a ∧ valF c0 = w := by
  rw [hidx (a, o)] at hw
  cases hfc : dbFind db.coins o with
  | none =>
    rw [expectedAt_none condF keyF valF db.coins (a, o) hfc] at hw
    exact Option.noConfusion hw
  | some c0 =>
    rw [expectedAt_some condF keyF valF db.coins (a, o) c0 hfc] at hw
    split_ifs at hw with hcnd
    exact ⟨c0, rfl, hcnd.1, hcnd.2, Option.some.inj hw⟩

theorem avail_roundtrip (db : DB) (delta : CoinsMap) (a : AccountID)
    (hN : NodupAll db) (hS : SpentFree db) (hL : LookupsOK db)
    (hnd : (delta.map Prod.fst).Nodup)
    (hcv : ∀ pe ∈ delta, entryCoherentVal db pe)
    (hown : ∀ pe ∈ delta, pe.2.dirty = true → pe.2.coin.owner ≠ 0) :
    availableBalance (dbAfterAll delta db) a [] = availableBalance db a delta := by
  have hidxc : ∀ k : AccountID × OutPoint,
      dbFind db.coinIndex k = expectedAt (fun c => c.owner ≠ 0) (fun c => c.owner)
        (fun c => c.value) db.coins k := by
    intro k
    rw [← expectedCoinIndexAt_eq db k]
    exact (hL k).1
  have hsum : availScan (dbAfterAll delta db) a = availScan db a +
      (delta.map (deltaStep (fun c => c.owner ≠ 0) (fun c => c.owner)
        (fun c => c.value) (fun v => v) db.coinIndex a)).sum :=
    sumfold_generic (fun c => c.owner ≠ 0) (fun c => c.owner)
      (fun c => c.value) (fun v => v)
      (fun c1 c2 how hp => how)
      (fun c1 c2 how hp hv => hv)
      (fun d => d.coinIndex)
      (fun o e d => rfl)
      (fun d hN2 hS2 hL2 k => by
        rw [← expectedCoinIndexAt_eq d k]
        exact (hL2 k).1)
      (fun d hN2 => hN2.2.1)
      a delta db hN hS hL hnd hcv
  have hov : availOverlay db a delta =
      (delta.map (deltaStep (fun c => c.owner ≠ 0) (fun c => c.owner)
        (fun c => c.value) (fun v => v) db.coinIndex a)).sum := by
    unfold availOverlay
    rw [foldl_step_sum _ (fun s x => by split_ifs <;> ring) delta 0, zero_add]
    refine congrArg List.sum (List.map_congr_left ?_)
    intro pe hpe
    unfold deltaStep
    by_cases hd : pe.2.dirty = true
    · have hw0 := hown pe hpe hd
      have hco := hcv pe hpe hd
      have hdc : pe.2.dirty = true ∧ pe.2.coin.owner ≠ 0 := ⟨hd, hw0⟩
      rw [if_pos hd, if_pos hdc]
      by_cases hoa : pe.2.coin.owner = a
      · rw [if_pos hoa]
        by_cases hsp : pe.2.coin.spent = true
        · rw [if_pos hsp]
          cases hP : dbFind db.coinIndex (a, pe.1) with
          | none =>
            rw [show dbFind db.coinIndex (pe.2.coin.owner, pe.1) = Option.none from by
              rw [hoa]; exact hP]
            dsimp only
            have hnc : ¬ (pe.2.coin.owner = a ∧ pe.2.coin.spent = false) := fun hc => by
              rw [hc.2] at hsp
              exact Bool.noConfusion hsp
            rw [if_neg hnc]
            rfl
          | some w =>
            rw [show dbFind db.coinIndex (pe.2.coin.owner, pe.1) = some w from by
              rw [hoa]; exact hP]
            dsimp only
            obtain ⟨c0, hfc, hc0, hk0, hv0⟩ := probe_val _ _ _ hidxc hP
            obtain ⟨-, -, hvv⟩ := hco c0 hfc
            rw [if_pos hsp, ← hvv, hv0]
            show (0 : Int) - w = -w
            ring
        · rw [if_neg hsp]
          cases hP : dbFind db.coinIndex (a, pe.1) with
          | none =>
            rw [show dbFind db.coinIndex (pe.2.coin.owner, pe.1) = Option.none from by
              rw [hoa]; exact hP]
            dsimp only
            have hpc : pe.2.coin.owner = a ∧ pe.2.coin.spent = false :=
              ⟨hoa, by rw [Bool.not_eq_true] at hsp; exact hsp⟩
            rw [if_pos hpc]
            show (0 : Int) + pe.2.coin.value = pe.2.coin.value
            ring
          | some w =>
            rw [show dbFind db.coinIndex (pe.2.coin.owner, pe.1) = some w from by
              rw [hoa]; exact hP]
            dsimp only
            rw [if_neg hsp]
            rfl
      · rw [if_neg hoa]
        cases hP : dbFind db.coinIndex (a, pe.1) with
        | none =>
          dsimp only
          rw [if_neg (fun hc => hoa hc.1)]
        | some w =>
          obtain ⟨c0, hfc, hc0, hk0, hv0⟩ := probe_val _ _ _ hidxc hP
          obtain ⟨how, -, -⟩ := hco c0 hfc
          exact absurd (how ▸ hk0 : pe.2.coin.owner = a) hoa
    · rw [if_neg hd, if_neg (fun hc => hd hc.1)]
  simp only [availableBalance]
  rw [show availScan (dbAfterAll delta db) a + availOverlay (dbAfterAll delta db) a [] =
      availScan db a + availOverlay db a delta from by
    rw [show availOverlay (dbAfterAll delta db) a [] = 0 from rfl, add_zero, hsum, hov]]

theorem bind_roundtrip (bindLock : Int) (db : DB) (delta : CoinsMap) (a : AccountID)
    (hN : NodupAll db) (hS : SpentFree db) (hL : LookupsOK db)
    (hnd : (delta.map Prod.fst).Nodup)
    (hcv : ∀ pe ∈ delta, entryCoherentVal db pe)
    (hown : ∀ pe ∈ delta, pe.2.dirty = true → pe.2.coin.owner ≠ 0) :
    bindBalance bindLock (dbAfterAll delta db) a [] = bindBalance bindLock db a delta := by
  have hsum : bindScan bindLock (dbAfterAll delta db) a = bindScan bindLock db a +
      (delta.map (deltaStep (fun c => c.owner ≠ 0 ∧ c.isBindPlotter = true)
        (fun c => c.owner) (fun c => (c.payload.bindId, c.height)) (fun _ => bindLock)
        db.bindIndex a)).sum :=
    sumfold_generic (fun c => c.owner ≠ 0 ∧ c.isBindPlotter = true) (fun c => c.owner)
      (fun c => (c.payload.bindId, c.height)) (fun _ => bindLock)
      (fun c1 c2 how hp => how)
      (fun c1 c2 how hp hv => rfl)
      (fun d => d.bindIndex)
      (fun o e d => rfl)
      (fun d hN2 hS2 hL2 k => by
        rw [← expectedBindAt_eq d k]
        exact (hL2 k).2.1)
      (fun d hN2 => hN2.2.2.1)
      a delta db hN hS hL hnd hcv
  have hov : bindOverlay bindLock db a delta =
      (delta.map (deltaStep (fun c => c.owner ≠ 0 ∧ c.isBindPlotter = true)
        (fun c => c.owner) (fun c => (c.payload.bindId, c.height)) (fun _ => bindLock)
        db.bindIndex a)).sum := by
    unfold bindOverlay
    rw [foldl_step_sum _ (fun s x => by split_ifs <;> ring) delta 0, zero_add]
    refine congrArg List.sum (List.map_congr_left ?_)
    intro pe hpe
    unfold deltaStep
    by_cases hdb : (pe.2.dirty && pe.2.coin.isBindPlotter) = true
    · have hdb2 : pe.2.dirty = true ∧ pe.2.coin.isBindPlotter = true := by
        simpa using hdb
      obtain ⟨hd1, hd2⟩ := hdb2
      have hw0 := hown pe hpe hd1
      have hdc : pe.2.dirty = true ∧ pe.2.coin.owner ≠ 0 ∧ pe.2.coin.isBindPlotter = true :=
        ⟨hd1, hw0, hd2⟩
      rw [if_pos hdb, if_pos hdc]
      cases hP : dbFind db.bindIndex (a, pe.1) with
      | none =>
        dsimp only
        show (if pe.2.coin.owner = a ∧ ¬ pe.2.coin.spent = true
          then (0 : Int) + bindLock else 0) = _
        by_cases hcnd : pe.2.coin.owner = a ∧ pe.2.coin.spent = false
        · have hlc : pe.2.coin.owner = a ∧ ¬ pe.2.coin.spent = true :=
            ⟨hcnd.1, fun hc => Bool.noConfusion ((hcnd.2 ▸ hc : (false : Bool) = true))⟩
          rw [if_pos hlc, if_pos hcnd]
          show (0 : Int) + bindLock = bindLock
          ring
        · have hlc : ¬ (pe.2.coin.owner = a ∧ ¬ pe.2.coin.spent = true) := by
            intro hc
            refine hcnd ⟨hc.1, ?_⟩
            rw [← Bool.not_eq_true]
            exact hc.2
          rw [if_neg hlc, if_neg hcnd]
      | some w =>
        dsimp only
        show (if pe.2.coin.spent = true then (0 : Int) - bindLock else 0) = _
        by_cases hsp : pe.2.coin.spent = true
        · rw [if_pos hsp, if_pos hsp]
          show (0 : Int) - bindLock = -bindLock
          ring
        · rw [if_neg hsp, if_neg hsp]
    · have hnc : ¬ (pe.2.dirty = true ∧ pe.2.coin.owner ≠ 0 ∧
          pe.2.coin.isBindPlotter = true) := by
        intro hc
        exact hdb (by simp [hc.1, hc.2.2])
      rw [if_neg hdb, if_neg hnc]
  simp only [bindBalance]
  rw [show bindScan bindLock (dbAfterAll delta db) a +
      bindOverlay bindLock (dbAfterAll delta db) a [] =
      bindScan bindLock db a + bindOverlay bindLock db a delta from by
    rw [show bindOverlay bindLock (dbAfterAll delta db) a [] = 0 from rfl, add_zero, hsum, hov]]

theorem applyOps_flatten_eq (delta : CoinsMap) :
    ∀ db : DB, applyOps (delta.map (fun pe => coinOps pe.1 pe.2)).flatten db =
      dbAfterAll delta db := by
  induction delta with
  | nil => intro db; rfl
  | cons pe rest ih =>
    intro db
    rw [List.map_cons, List.flatten_cons, applyOps_append, applyOps_coinOps_eq]
    exact ih (dbAfterEntry pe.1 pe.2 db)

theorem dbAfterAll_preserves (delta : CoinsMap) (db : DB)
    (hN : NodupAll db) (hS : SpentFree db) (hL : LookupsOK db)
    (hnd : (delta.map Prod.fst).Nodup)
    (hcv : ∀ pe ∈ delta, entryCoherentVal db pe) :
    NodupAll (dbAfterAll delta db) ∧ SpentFree (dbAfterAll delta db) ∧
      LookupsOK (dbAfterAll delta db) := by
  rw [← applyOps_flatten_eq delta db]
  exact deltaFold_preserves delta db hN hS hL hnd
    (fun pe hpe => entryCoherentVal_weaken (hcv pe hpe))

theorem except_ok_bind {ε α β : Type} (x : α) (f : α → Except ε β) :
    (Except.ok x >>= f : Except ε β) = f x := rfl

/-- The overlay pass of a payload category equals the summed `deltaStep`s when
the `selected` set reads as the persisted index under the queried account. -/
theorem payloadOverlay_bridge (isKind : Coin → Bool) (condF : Coin → Prop)
    [DecidablePred condF] (keyF : Coin → AccountID) (valF : Coin → Int)
    (matchFn : Coin → Bool) (fresh : Coin → Int)
    (idx : List ((AccountID × OutPoint) × Int)) (sel : List (OutPoint × Int))
    (a : AccountID) (delta : CoinsMap)
    (hsel : ∀ o, dbFind sel o = dbFind idx (a, o))
    (hcondk : ∀ c : Coin, (isKind c = true ∧ c.owner ≠ 0) ↔ condF c)
    (hmatch : ∀ c : Coin, matchFn c = true ↔ keyF c = a)
    (hfresh : ∀ c : Coin, fresh c = valF c)
    (hown : ∀ pe ∈ delta, pe.2.dirty = true → pe.2.coin.owner ≠ 0) :
    payloadOverlay isKind sel matchFn fresh delta =
      (delta.map (deltaStep condF keyF valF (fun v => v) idx a)).sum := by
  unfold payloadOverlay
  rw [foldl_step_sum _ (fun s x => by
    by_cases h1 : (x.2.dirty && isKind x.2.coin) = true
    · rw [if_pos h1, if_pos h1]
      cases hm : dbFind sel x.1 with
      | some w => split_ifs <;> ring
      | none => split_ifs <;> ring
    · rw [if_neg h1, if_neg h1]
      ring) delta 0, zero_add]
  refine congrArg List.sum (List.map_congr_left ?_)
  intro pe hpe
  unfold deltaStep
  by_cases h1 : (pe.2.dirty && isKind pe.2.coin) = true
  · have h12 : pe.2.dirty = true ∧ isKind pe.2.coin = true := by
      simpa using h1
    have hdc : pe.2.dirty = true ∧ condF pe.2.coin :=
      ⟨h12.1, (hcondk _).mp ⟨h12.2, hown pe hpe h12.1⟩⟩
    rw [if_pos h1, if_pos hdc, hsel pe.1]
    cases hP : dbFind idx (a, pe.1) with
    | some w =>
      dsimp only
      by_cases hsp : pe.2.coin.spent = true
      · rw [if_pos hsp, if_pos hsp]
        show (0 : Int) - w = -w
        ring
      · rw [if_neg hsp, if_neg hsp]
    | none =>
      dsimp only
      by_cases hcnd : keyF pe.2.coin = a ∧ pe.2.coin.spent = false
      · have hlc : matchFn pe.2.coin = true ∧ ¬ pe.2.coin.spent = true :=
          ⟨(hmatch _).mpr hcnd.1,
            fun hc => Bool.noConfusion ((hcnd.2 ▸ hc : (false : Bool) = true))⟩
        rw [if_pos hlc, if_pos hcnd, hfresh]
        show (0 : Int) + valF pe.2.coin = valF pe.2.coin
        ring
      · have hlc : ¬ (matchFn pe.2.coin = true ∧ ¬ pe.2.coin.spent = true) := by
          intro hc
          refine hcnd ⟨(hmatch _).mp hc.1, ?_⟩
          rw [← Bool.not_eq_true]
          exact hc.2
        rw [if_neg hlc, if_neg hcnd]
  · have hnc : ¬ (pe.2.dirty = true ∧ condF pe.2.coin) := by
      intro hc
      exact h1 (by simp [hc.1, ((hcondk _).mpr hc.2).1])
    rw [if_neg h1, if_neg hnc]

theorem pointRecv_roundtrip (db : DB) (delta : CoinsMap) (a : AccountID)
    (hN : NodupAll db) (hS : SpentFree db) (hL : LookupsOK db)
    (hnd : (delta.map Prod.fst).Nodup)
    (hcv : ∀ pe ∈ delta, entryCoherentVal db pe)
    (hown : ∀ pe ∈ delta, pe.2.dirty = true → pe.2.coin.owner ≠ 0) :
    pointRecvBalance (dbAfterAll delta db) a [] = pointRecvBalance db a delta := by
  obtain ⟨hN', hS', hL'⟩ := dbAfterAll_preserves delta db hN hS hL hnd hcv
  obtain ⟨hs1, hs2⟩ := recvScanFold a db.pointRecvIdx hN.2.2.2.2.1 (0, [])
  obtain ⟨hs1', -⟩ := recvScanFold a (dbAfterAll delta db).pointRecvIdx hN'.2.2.2.2.1 (0, [])
  have hs1c : (recvScan db.pointRecvIdx a).1 =
      0 + sumBy (fun ent => if ent.1.1 = a then ent.2 else 0) db.pointRecvIdx := hs1
  have hs1c' : (recvScan (dbAfterAll delta db).pointRecvIdx a).1 =
      0 + sumBy (fun ent => if ent.1.1 = a then ent.2 else 0)
        (dbAfterAll delta db).pointRecvIdx := hs1'
  have hsum2 : sumBy (fun ent => if ent.1.1 = a then ent.2 else 0)
      (dbAfterAll delta db).pointRecvIdx =
      sumBy (fun ent => if ent.1.1 = a then ent.2 else 0) db.pointRecvIdx +
      (delta.map (deltaStep (fun c => c.owner ≠ 0 ∧ c.isPoint = true)
        (fun c => c.payload.pointReceiver) (fun c => c.payload.pointAmount) (fun v => v)
        db.pointRecvIdx a)).sum :=
    sumfold_generic (fun c => c.owner ≠ 0 ∧ c.isPoint = true)
      (fun c => c.payload.pointReceiver) (fun c => c.payload.pointAmount) (fun v => v)
      (fun c1 c2 how hp => congrArg Payload.pointReceiver hp)
      (fun c1 c2 how hp hv => by
        show c1.payload.pointAmount = c2.payload.pointAmount
        rw [hp])
      (fun d => d.pointRecvIdx)
      (fun o e d => rfl)
      (fun d hN2 hS2 hL2 k => by
        rw [← expectedPointRecvAt_eq d k]
        exact (hL2 k).2.2.2.1)
      (fun d hN2 => hN2.2.2.2.2.1)
      a delta db hN hS hL hnd hcv
  have hselid : ∀ o, dbFind (recvScan db.pointRecvIdx a).2 o =
      dbFind db.pointRecvIdx (a, o) := by
    intro o
    rw [show dbFind (recvScan db.pointRecvIdx a).2 o =
      (match dbFind db.pointRecvIdx (a, o) with
       | some w => some w
       | Option.none => dbFind ([] : List (OutPoint × Int)) o) from hs2 o]
    cases dbFind db.pointRecvIdx (a, o) <;> rfl
  have hov : payloadOverlay Coin.isPoint (recvScan db.pointRecvIdx a).2
      (fun c => decide (c.payload.pointReceiver = a)) (fun c => c.payload.pointAmount)
      delta =
      (delta.map (deltaStep (fun c => c.owner ≠ 0 ∧ c.isPoint = true)
        (fun c => c.payload.pointReceiver) (fun c => c.payload.pointAmount) (fun v => v)
        db.pointRecvIdx a)).sum :=
    payloadOverlay_bridge Coin.isPoint (fun c => c.owner ≠ 0 ∧ c.isPoint = true)
      (fun c => c.payload.pointReceiver) (fun c => c.payload.pointAmount)
      (fun c => decide (c.payload.pointReceiver = a)) (fun c => c.payload.pointAmount)
      db.pointRecvIdx (recvScan db.pointRecvIdx a).2 a delta hselid
      (fun c => ⟨fun h => ⟨h.2, h.1⟩, fun h => ⟨h.2, h.1⟩⟩)
      (fun c => by simp)
      (fun c => rfl)
      hown
  have hb : (recvScan (dbAfterAll delta db).pointRecvIdx a).1 +
      payloadOverlay Coin.isPoint (recvScan (dbAfterAll delta db).pointRecvIdx a).2
        (fun c => decide (c.payload.pointReceiver = a)) (fun c => c.payload.pointAmount)
        [] =
      (recvScan db.pointRecvIdx a).1 +
      payloadOverlay Coin.isPoint (recvScan db.pointRecvIdx a).2
        (fun c => decide (c.payload.pointReceiver = a)) (fun c => c.payload.pointAmount)
        delta := by
    rw [show payloadOverlay Coin.isPoint (recvScan (dbAfterAll delta db).pointRecvIdx a).2
      (fun c => decide (c.payload.pointReceiver = a)) (fun c => c.payload.pointAmount)
      ([] : CoinsMap) = 0 from rfl]
    rw [hs1c', hs1c, hov, hsum2]
    ring
  simp only [pointRecvBalance]
  rw [hb]

theorem stakingRecv_roundtrip (db : DB) (delta : CoinsMap) (a : AccountID)
    (hN : NodupAll db) (hS : SpentFree db) (hL : LookupsOK db)
    (hnd : (delta.map Prod.fst).Nodup)
    (hcv : ∀ pe ∈ delta, entryCoherentVal db pe)
    (hown : ∀ pe ∈ delta, pe.2.dirty = true → pe.2.coin.owner ≠ 0) :
    stakingRecvBalance (dbAfterAll delta db) a [] = stakingRecvBalance db a delta := by
  obtain ⟨hN', hS', hL'⟩ := dbAfterAll_preserves delta db hN hS hL hnd hcv
  obtain ⟨hs1, hs2⟩ := recvScanFold a db.stakingRecvIdx hN.2.2.2.2.2.2 (0, [])
  obtain ⟨hs1', -⟩ := recvScanFold a (dbAfterAll delta db).stakingRecvIdx
    hN'.2.2.2.2.2.2 (0, [])
  have hs1c : (recvScan db.stakingRecvIdx a).1 =
      0 + sumBy (fun ent => if ent.1.1 = a then ent.2 else 0) db.stakingRecvIdx := hs1
  have hs1c' : (recvScan (dbAfterAll delta db).stakingRecvIdx a).1 =
      0 + sumBy (fun ent => if ent.1.1 = a then ent.2 else 0)
        (dbAfterAll delta db).stakingRecvIdx := hs1'
  have hsum2 : sumBy (fun ent => if ent.1.1 = a then ent.2 else 0)
      (dbAfterAll delta db).stakingRecvIdx =
      sumBy (fun ent => if ent.1.1 = a then ent.2 else 0) db.stakingRecvIdx +
      (delta.map (deltaStep (fun c => c.owner ≠ 0 ∧ c.isStaking = true)
        (fun c => c.payload.stakingReceiver) (fun c => c.payload.stakingAmount)
        (fun v => v) db.stakingRecvIdx a)).sum :=
    sumfold_generic (fun c => c.owner ≠ 0 ∧ c.isStaking = true)
      (fun c => c.payload.stakingReceiver) (fun c => c.payload.stakingAmount) (fun v => v)
      (fun c1 c2 how hp => congrArg Payload.stakingReceiver hp)
      (fun c1 c2 how hp hv => by
        show c1.payload.stakingAmount = c2.payload.stakingAmount
        rw [hp])
      (fun d => d.stakingRecvIdx)
      (fun o e d => rfl)
      (fun d hN2 hS2 hL2 k => by
        rw [← expectedStakingRecvAt_eq d k]
        exact (hL2 k).2.2.2.2.2)
      (fun d hN2 => hN2.2.2.2.2.2.2)
      a delta db hN hS hL hnd hcv
  have hselid : ∀ o, dbFind (recvScan db.stakingRecvIdx a).2 o =
      dbFind db.stakingRecvIdx (a, o) := by
    intro o
    rw [show dbFind (recvScan db.stakingRecvIdx a).2 o =
      (match dbFind db.stakingRecvIdx (a, o) with
       | some w => some w
       | Option.none => dbFind ([] : List (OutPoint × Int)) o) from hs2 o]
    cases dbFind db.stakingRecvIdx (a, o) <;> rfl
  have hov : payloadOverlay Coin.isStaking (recvScan db.stakingRecvIdx a).2
      (fun c => decide (c.payload.stakingReceiver = a))
      (fun c => c.payload.stakingAmount) delta =
      (delta.map (deltaStep (fun c => c.owner ≠ 0 ∧ c.isStaking = true)
        (fun c => c.payload.stakingReceiver) (fun c => c.payload.stakingAmount)
        (fun v => v) db.stakingRecvIdx a)).sum :=
    payloadOverlay_bridge Coin.isStaking (fun c => c.owner ≠ 0 ∧ c.isStaking = true)
      (fun c => c.payload.stakingReceiver) (fun c => c.payload.stakingAmount)
      (fun c => decide (c.payload.stakingReceiver = a))
      (fun c => c.payload.stakingAmount)
      db.stakingRecvIdx (recvScan db.stakingRecvIdx a).2 a delta hselid
      (fun c => ⟨fun h => ⟨h.2, h.1⟩, fun h => ⟨h.2, h.1⟩⟩)
      (fun c => by simp)
      (fun c => rfl)
      hown
  have hb : (recvScan (dbAfterAll delta db).stakingRecvIdx a).1 +
      payloadOverlay Coin.isStaking (recvScan (dbAfterAll delta db).stakingRecvIdx a).2
        (fun c => decide (c.payload.stakingReceiver = a))
        (fun c => c.payload.stakingAmount) [] =
      (recvScan db.stakingRecvIdx a).1 +
      payloadOverlay Coin.isStaking (recvScan db.stakingRecvIdx a).2
        (fun c => decide (c.payload.stakingReceiver = a))
        (fun c => c.payload.stakingAmount) delta := by
    rw [show payloadOverlay Coin.isStaking
      (recvScan (dbAfterAll delta db).stakingRecvIdx a).2
      (fun c => decide (c.payload.stakingReceiver = a))
      (fun c => c.payload.stakingAmount) ([] : CoinsMap) = 0 from rfl]
    rw [hs1c', hs1c, hov, hsum2]
    ring
  simp only [stakingRecvBalance]
  rw [hb]

theorem pointSend_roundtrip (db : DB) (delta : CoinsMap) (a : AccountID)
    (hN : NodupAll db) (hS : SpentFree db) (hL : LookupsOK db)
    (hnd : (delta.map Prod.fst).Nodup)
    (hcv : ∀ pe ∈ delta, entryCoherentVal db pe)
    (hown : ∀ pe ∈ delta, pe.2.dirty = true → pe.2.coin.owner ≠ 0) :
    pointSendBalance (dbAfterAll delta db) a [] = pointSendBalance db a delta := by
  obtain ⟨hN', hS', hL'⟩ := dbAfterAll_preserves delta db hN hS hL hnd hcv
  have hidxPS : ∀ (d : DB), LookupsOK d → ∀ k : AccountID × OutPoint,
      dbFind d.pointSendIdx k = expectedAt (fun c => c.owner ≠ 0 ∧ c.isPoint = true)
        (fun c => c.owner) (fun c => c.value) d.coins k := by
    intro d hL2 k
    rw [← expectedPointSendAt_eq d k]
    exact (hL2 k).2.2.1
  have hgoodOf : ∀ (d : DB), LookupsOK d → NodupKeys d.pointSendIdx →
      ∀ ent ∈ d.pointSendIdx, ent.1.1 = a →
      ∃ c, dbFind d.coins ent.1.2 = some c ∧ c.value = ent.2 := by
    intro d hL2 hn2 ent hent hea
    have hfind : dbFind d.pointSendIdx (ent.1.1, ent.1.2) = some ent.2 :=
      dbFind_of_mem_nodup hn2 hent
    obtain ⟨c0, hfc, hc0, hk0, hv0⟩ := probe_val _ _ _ (hidxPS d hL2) hfind
    exact ⟨c0, hfc, hv0⟩
  obtain ⟨sel, hscan, hsel⟩ := sendScanFold db.coins a db.pointSendIdx hN.2.2.2.1
    (hgoodOf db hL hN.2.2.2.1) (0, [])
  obtain ⟨sel', hscan', -⟩ := sendScanFold (dbAfterAll delta db).coins a
    (dbAfterAll delta db).pointSendIdx hN'.2.2.2.1
    (hgoodOf (dbAfterAll delta db) hL' hN'.2.2.2.1) (0, [])
  have hscanc : pointSendScan db a = Except.ok
      (0 + sumBy (fun ent => if ent.1.1 = a then ent.2 else 0) db.pointSendIdx, sel) :=
    hscan
  have hscanc' : pointSendScan (dbAfterAll delta db) a = Except.ok
      (0 + sumBy (fun ent => if ent.1.1 = a then ent.2 else 0)
        (dbAfterAll delta db).pointSendIdx, sel') := hscan'
  have hsum2 : sumBy (fun ent => if ent.1.1 = a then ent.2 else 0)
      (dbAfterAll delta db).pointSendIdx =
      sumBy (fun ent => if ent.1.1 = a then ent.2 else 0) db.pointSendIdx +
      (delta.map (deltaStep (fun c => c.owner ≠ 0 ∧ c.isPoint = true)
        (fun c => c.owner) (fun c => c.value) (fun v => v) db.pointSendIdx a)).sum :=
    sumfold_generic (fun c => c.owner ≠ 0 ∧ c.isPoint = true)
      (fun c => c.owner) (fun c => c.value) (fun v => v)
      (fun c1 c2 how hp => how)
      (fun c1 c2 how hp hv => hv)
      (fun d => d.pointSendIdx)
      (fun o e d => rfl)
      (fun d hN2 hS2 hL2 k => hidxPS d hL2 k)
      (fun d hN2 => hN2.2.2.2.1)
      a delta db hN hS hL hnd hcv
  have hselid : ∀ o, dbFind sel o = dbFind db.pointSendIdx (a, o) := by
    intro o
    rw [hsel o]
    cases dbFind db.pointSendIdx (a, o) <;> rfl
  have hov : payloadOverlay Coin.isPoint sel (fun c => decide (c.owner = a))
      (fun c => c.value) delta =
      (delta.map (deltaStep (fun c => c.owner ≠ 0 ∧ c.isPoint = true)
        (fun c => c.owner) (fun c => c.value) (fun v => v) db.pointSendIdx a)).sum :=
    payloadOverlay_bridge Coin.isPoint (fun c => c.owner ≠ 0 ∧ c.isPoint = true)
      (fun c => c.owner) (fun c => c.value)
      (fun c => decide (c.owner = a)) (fun c => c.value)
      db.pointSendIdx sel a delta hselid
      (fun c => ⟨fun h => ⟨h.2, h.1⟩, fun h => ⟨h.2, h.1⟩⟩)
      (fun c => by simp)
      (fun c => rfl)
      hown
  simp only [pointSendBalance]
  rw [hscanc', hscanc, except_ok_bind, except_ok_bind]
  dsimp only
  rw [show payloadOverlay Coin.isPoint sel' (fun c => decide (c.owner = a))
    (fun c => c.value) ([] : CoinsMap) = 0 from rfl]
  rw [hsum2, hov]
  rw [show 0 + (sumBy (fun ent => if ent.1.1 = a then ent.2 else 0) db.pointSendIdx +
      (delta.map (deltaStep (fun c => c.owner ≠ 0 ∧ c.isPoint = true)
        (fun c => c.owner) (fun c => c.value) (fun v => v) db.pointSendIdx a)).sum) + 0 =
    0 + sumBy (fun ent => if ent.1.1 = a then ent.2 else 0) db.pointSendIdx +
      (delta.map (deltaStep (fun c => c.owner ≠ 0 ∧ c.isPoint = true)
        (fun c => c.owner) (fun c => c.value) (fun v => v) db.pointSendIdx a)).sum
    from by ring]

theorem stakingSend_roundtrip (db : DB) (delta : CoinsMap) (a : AccountID)
    (hN : NodupAll db) (hS : SpentFree db) (hL : LookupsOK db)
    (hnd : (delta.map Prod.fst).Nodup)
    (hcv : ∀ pe ∈ delta, entryCoherentVal db pe)
    (hown : ∀ pe ∈ delta, pe.2.dirty = true → pe.2.coin.owner ≠ 0) :
    stakingSendBalance (dbAfterAll delta db) a [] = stakingSendBalance db a delta := by
  obtain ⟨hN', hS', hL'⟩ := dbAfterAll_preserves delta db hN hS hL hnd hcv
  have hidxSS : ∀ (d : DB), LookupsOK d → ∀ k : AccountID × OutPoint,
      dbFind d.stakingSendIdx k = expectedAt (fun c => c.owner ≠ 0 ∧ c.isStaking = true)
        (fun c => c.owner) (fun c => c.value) d.coins k := by
    intro d hL2 k
    rw [← expectedStakingSendAt_eq d k]
    exact (hL2 k).2.2.2.2.1
  have hgoodOf : ∀ (d : DB), LookupsOK d → NodupKeys d.stakingSendIdx →
      ∀ ent ∈ d.stakingSendIdx, ent.1.1 = a →
      ∃ c, dbFind d.coins ent.1.2 = some c ∧ c.value = ent.2 := by
    intro d hL2 hn2 ent hent hea
    have hfind : dbFind d.stakingSendIdx (ent.1.1, ent.1.2) = some ent.2 :=
      dbFind_of_mem_nodup hn2 hent
    obtain ⟨c0, hfc, hc0, hk0, hv0⟩ := probe_val _ _ _ (hidxSS d hL2) hfind
    exact ⟨c0, hfc, hv0⟩
  obtain ⟨sel, hscan, hsel⟩ := sendScanFold db.coins a db.stakingSendIdx hN.2.2.2.2.2.1
    (hgoodOf db hL hN.2.2.2.2.2.1) (0, [])
  obtain ⟨sel', hscan', -⟩ := sendScanFold (dbAfterAll delta db).coins a
    (dbAfterAll delta db).stakingSendIdx hN'.2.2.2.2.2.1
    (hgoodOf (dbAfterAll delta db) hL' hN'.2.2.2.2.2.1) (0, [])
  have hscanc : stakingSendScan db a = Except.ok
      (0 + sumBy (fun ent => if ent.1.1 = a then ent.2 else 0) db.stakingSendIdx, sel) :=
    hscan
  have hscanc' : stakingSendScan (dbAfterAll delta db) a = Except.ok
      (0 + sumBy (fun ent => if ent.1.1 = a then ent.2 else 0)
        (dbAfterAll delta db).stakingSendIdx, sel') := hscan'
  have hsum2 : sumBy (fun ent => if ent.1.1 = a then ent.2 else 0)
      (dbAfterAll delta db).stakingSendIdx =
      sumBy (fun ent => if ent.1.1 = a then ent.2 else 0) db.stakingSendIdx +
      (delta.map (deltaStep (fun c => c.owner ≠ 0 ∧ c.isStaking = true)
        (fun c => c.owner) (fun c => c.value) (fun v => v) db.stakingSendIdx a)).sum :=
    sumfold_generic (fun c => c.owner ≠ 0 ∧ c.isStaking = true)
      (fun c => c.owner) (fun c => c.value) (fun v => v)
      (fun c1 c2 how hp => how)
      (fun c1 c2 how hp hv => hv)
      (fun d => d.stakingSendIdx)
      (fun o e d => rfl)
      (fun d hN2 hS2 hL2 k => hidxSS d hL2 k)
      (fun d hN2 => hN2.2.2.2.2.2.1)
      a delta db hN hS hL hnd hcv
  have hselid : ∀ o, dbFind sel o = dbFind db.stakingSendIdx (a, o) := by
    intro o
    rw [hsel o]
    cases dbFind db.stakingSendIdx (a, o) <;> rfl
  have hov : payloadOverlay Coin.isStaking sel (fun c => decide (c.owner = a))
      (fun c => c.value) delta =
      (delta.map (deltaStep (fun c => c.owner ≠ 0 ∧ c.isStaking = true)
        (fun c => c.owner) (fun c => c.value) (fun v => v) db.stakingSendIdx a)).sum :=
    payloadOverlay_bridge Coin.isStaking (fun c => c.owner ≠ 0 ∧ c.isStaking = true)
      (fun c => c.owner) (fun c => c.value)
      (fun c => decide (c.owner = a)) (fun c => c.value)
      db.stakingSendIdx sel a delta hselid
      (fun c => ⟨fun h => ⟨h.2, h.1⟩, fun h => ⟨h.2, h.1⟩⟩)
      (fun c => by simp)
      (fun c => rfl)
      hown
  simp only [stakingSendBalance]
  rw [hscanc', hscanc, except_ok_bind, except_ok_bind]
  dsimp only
  rw [show payloadOverlay Coin.isStaking sel' (fun c => decide (c.owner = a))
    (fun c => c.value) ([] : CoinsMap) = 0 from rfl]
  rw [hsum2, hov]
  rw [show 0 + (sumBy (fun ent => if ent.1.1 = a then ent.2 else 0) db.stakingSendIdx +
      (delta.map (deltaStep (fun c => c.owner ≠ 0 ∧ c.isStaking = true)
        (fun c => c.owner) (fun c => c.value) (fun v => v) db.stakingSendIdx a)).sum) + 0 =
    0 + sumBy (fun ent => if ent.1.1 = a then ent.2 else 0) db.stakingSendIdx +
      (delta.map (deltaStep (fun c => c.owner ≠ 0 ∧ c.isStaking = true)
        (fun c => c.owner) (fun c => c.value) (fun v => v) db.stakingSendIdx a)).sum
    from by ring]

theorem getBalance_roundtrip_core (bindLock : Int) (db : DB) (delta : CoinsMap)
    (a : AccountID) (req : BalanceRequest)
    (hN : NodupAll db) (hS : SpentFree db) (hL : LookupsOK db)
    (hnd : (delta.map Prod.fst).Nodup)
    (hcv : ∀ pe ∈ delta, entryCoherentVal db pe)
    (hown : ∀ pe ∈ delta, pe.2.dirty = true → pe.2.coin.owner ≠ 0) :
    GetAccountBalance bindLock (dbAfterAll delta db) a req [] =
      GetAccountBalance bindLock db a req delta := by
  simp only [GetAccountBalance]
  rw [avail_roundtrip db delta a hN hS hL hnd hcv hown,
    bind_roundtrip bindLock db delta a hN hS hL hnd hcv hown,
    pointSend_roundtrip db delta a hN hS hL hnd hcv hown,
    pointRecv_roundtrip db delta a hN hS hL hnd hcv hown,
    stakingSend_roundtrip db delta a hN hS hL hnd hcv hown,
    stakingRecv_roundtrip db delta a hN hS hL hnd hcv hown]

/-- C8 (amended): for a coherent delta (distinct outpoints, dirty entries that
agree with any overwritten coin on owner, payload and value, and carry
non-null owners) committed off the epoch boundary, the balance read from the
committed store with an empty overlay equals the balance read from the prior
store with the delta as the dirty overlay, for the available balance and
every requested category.  With a null-owner entry the two differ
(`c8_counterexample`): the commit writes no index records for it, while the
overlay's receive paths still count it. -/
theorem c8_balance_roundtrip (P : SnapParams) (hd : Block) (tl : List Block)
    (flush : List DBOp → Bool) (delta : CoinsMap) (newTip : Hash) (bindLock : Int)
    (a : AccountID) (req : BalanceRequest) (db db' : DB)
    (hic : IndexConsistent db)
    (hnd : (delta.map Prod.fst).Nodup)
    (hcv : ∀ pe ∈ delta, entryCoherentVal db pe)
    (hown : ∀ pe ∈ delta, pe.2.dirty = true → pe.2.coin.owner ≠ 0)
    (hskip : hd.height - P.nSaturnEpockBlocks * 2 < P.nSaturnActiveHeight ∨
        Int.tmod hd.height P.nSaturnEpockBlocks ≠ 0)
    (hrun : BatchWrite P (hd :: tl) flush delta newTip db = .ok db') :
    GetAccountBalance bindLock db' a req [] = GetAccountBalance bindLock db a req delta := by
  simp only [BatchWrite] at hrun
  by_cases h0 : newTip = 0
  · rw [if_pos h0] at hrun
    exact Except.noConfusion hrun
  · rw [if_neg h0, except_bind_ok] at hrun
    obtain ⟨oldTip, hold, hrun⟩ := hrun
    rw [except_bind_ok] at hrun
    obtain ⟨db2, hsnap, hrun⟩ := hrun
    simp only [TrySnapshotStakingPoolStatus] at hsnap
    rw [if_pos hskip] at hsnap
    have hdb2 := Except.ok.inj hsnap
    have hdb' := Except.ok.inj hrun
    rw [← hdb2] at hdb'
    rw [← hdb']
    rw [applyOps_append, stateLoop_net flush delta db
      [.eraseBestBlock, .writeHeadBlocks [newTip, oldTip]], applyOps_flatten_eq]
    rw [indexConsistent_iff] at hic
    obtain ⟨hN, hS, hL⟩ := hic
    have hcore : GetAccountBalance bindLock
        (dbAfterAll delta
          (applyOps [.eraseBestBlock, .writeHeadBlocks [newTip, oldTip]] db)) a req [] =
        GetAccountBalance bindLock
          (applyOps [.eraseBestBlock, .writeHeadBlocks [newTip, oldTip]] db) a req delta :=
      getBalance_roundtrip_core bindLock
        (applyOps [.eraseBestBlock, .writeHeadBlocks [newTip, oldTip]] db)
        delta a req hN hS hL hnd hcv hown
    calc GetAccountBalance bindLock
          (applyOps [.eraseHeadBlocks, .writeBestBlock newTip]
            (dbAfterAll delta
              (applyOps [.eraseBestBlock, .writeHeadBlocks [newTip, oldTip]] db)))
          a req []
        = GetAccountBalance bindLock
            (dbAfterAll delta
              (applyOps [.eraseBestBlock, .writeHeadBlocks [newTip, oldTip]] db))
            a req [] := rfl
      _ = GetAccountBalance bindLock
            (applyOps [.eraseBestBlock, .writeHeadBlocks [newTip, oldTip]] db)
            a req delta := hcore
      _ = GetAccountBalance bindLock db a req delta := rfl

/-- Counterexample to C8 as stated: a dirty point coin with a NULL owning
account.  `BatchWrite` writes no index records for it (the index writes are
guarded by the owner being non-null, src/txdb.cpp 472), so the committed
store reports a zero point-receive balance for the receiver — but the
delta-overlay path of `GetAccountBalance` checks only the payload receiver
and counts the 5 coins. -/
theorem c8_counterexample :
    BatchWrite ⟨2, 0, 7, 1, fun _ => 50, fun _ => 50⟩ [⟨3, 30, 3⟩] (fun _ => false)
        [(⟨1, 0⟩, ⟨⟨5, 1, false, 0, .point 4 5, false⟩, true⟩)] 40
        ⟨[], [], [], [], [], [], [], some 10, [], [], []⟩ =
      .ok ⟨[(⟨1, 0⟩, ⟨5, 1, false, 0, .point 4 5, false⟩)],
        [], [], [], [], [], [], some 40, [], [], []⟩ ∧
    GetAccountBalance 1
        ⟨[(⟨1, 0⟩, ⟨5, 1, false, 0, .point 4 5, false⟩)],
          [], [], [], [], [], [], some 40, [], [], []⟩
        4 ⟨false, false, true, false, false⟩ [] ≠
      GetAccountBalance 1 ⟨[], [], [], [], [], [], [], some 10, [], [], []⟩
        4 ⟨false, false, true, false, false⟩
        [(⟨1, 0⟩, ⟨⟨5, 1, false, 0, .point 4 5, false⟩, true⟩)] :=
  ⟨by decide, by decide⟩

/-- Witness: one fresh live coin with a non-null owner commits off the epoch
boundary, and the committed-store balance matches the overlay balance. -/
theorem c8_balance_roundtrip_witness :
    GetAccountBalance 1
        ⟨[(⟨200, 0⟩, ⟨5, 1, false, 6, .none, false⟩)],
          [((6, ⟨200, 0⟩), 5)], [], [], [], [], [], some 40, [], [], []⟩
        6 ⟨true, true, true, true, true⟩ [] =
      GetAccountBalance 1 ⟨[], [], [], [], [], [], [], some 10, [], [], []⟩
        6 ⟨true, true, true, true, true⟩
        [(⟨200, 0⟩, ⟨⟨5, 1, false, 6, .none, false⟩, true⟩)] :=
  c8_balance_roundtrip ⟨2, 0, 7, 1, fun _ => 50, fun _ => 50⟩ ⟨3, 30, 3⟩ []
    (fun _ => false) [(⟨200, 0⟩, ⟨⟨5, 1, false, 6, .none, false⟩, true⟩)] 40 1 6
    ⟨true, true, true, true, true⟩
    ⟨[], [], [], [], [], [], [], some 10, [], [], []⟩
    ⟨[(⟨200, 0⟩, ⟨5, 1, false, 6, .none, false⟩)],
      [((6, ⟨200, 0⟩), 5)], [], [], [], [], [], some 40, [], [], []⟩
    (by decide) (by decide) (by decide) (by decide) (by decide) rfl
